import Mathlib

/-!
# Backup-file reader core of the NDB restore program (`Restore.cpp`)

A shallow embedding of the decoding routines of
`ndb/src/kernel/blocks/backup/restore/Restore.cpp` together with the properties
proved about them.

Conventions of the embedding

* Machine integers are natural numbers; every place where the source computes in
  `Uint32` and the result can leave the 32-bit range carries an explicit
  truncation `u32` (`% 2 ^ 32`), and a `Uint32` difference is `sub32`.
* Memory blocks and files are lists of bytes (`Fin 256`).  A typed access of
  `k` bytes at byte offset `o` reads or writes the bytes `o .. o + k - 1` in the
  byte order of the host, which is a parameter (`le = true` for a little-endian
  host).
* A function that dereferences memory returns an `Option`; `none` stands for an
  access outside the block, through a null pointer or of a value that was never
  assigned (undefined behaviour in the source).
* `abort()` and a failed `assert` are an explicit outcome of the functions that
  can reach them.
-/

namespace Restore

/-! ## Bytes, host byte order and typed memory accesses -/

/-- One byte of memory or of a file. -/
abbrev Byte := Fin 256

/-- A block of memory (or the content of a file): a sequence of bytes. -/
abbrev Mem := List Byte

/-- Value of a byte sequence read as a little-endian unsigned integer. -/
def leVal : List Byte → Nat
  | [] => 0
  | b :: bs => b.val + 256 * leVal bs

/-- Value of a byte sequence read as a big-endian unsigned integer. -/
def beVal (bs : List Byte) : Nat := leVal bs.reverse

/-- The `k` low-order bytes of `x`, least significant first. -/
def leBytes : Nat → Nat → List Byte
  | 0, _ => []
  | k + 1, x => ⟨x % 256, Nat.mod_lt x (by decide)⟩ :: leBytes k (x / 256)

/-- Value of a byte sequence as the host reads it (`le`: little-endian host). -/
def hostVal (le : Bool) (bs : List Byte) : Nat :=
  if le then leVal bs else beVal bs

/-- The `k` bytes the host stores for the value `x`. -/
def hostBytes (le : Bool) (k x : Nat) : List Byte :=
  if le then leBytes k x else (leBytes k x).reverse

/-- The `k` bytes of `m` that start at byte offset `o`. -/
def slice (m : Mem) (o k : Nat) : List Byte := (m.drop o).take k

/-- Typed read of a `k`-byte unsigned integer at byte offset `o`. -/
def rdHost (le : Bool) (k : Nat) (m : Mem) (o : Nat) : Option Nat :=
  if o + k ≤ m.length then some (hostVal le (slice m o k)) else none

/-- Typed write of the `k`-byte unsigned integer `v` at byte offset `o`
(only used after a successful read of the same location). -/
def wrHost (le : Bool) (k : Nat) (m : Mem) (o v : Nat) : Mem :=
  m.take o ++ hostBytes le k v ++ m.drop (o + k)

/-- Truncation of an arithmetic result to `Uint32`. -/
def u32 (x : Nat) : Nat := x % 2 ^ 32

/-- The `Uint32` difference `a - b` of two `Uint32` values: the difference
modulo `2 ^ 32`. -/
def sub32 (a b : Nat) : Nat := if b ≤ a then a - b else a + 2 ^ 32 - b

/-- The libc function `ntohl`: a 32-bit value that holds big-endian data is
converted to the host representation, i.e. its four bytes are reversed on a
little-endian host and kept on a big-endian one. -/
def ntohl (le : Bool) (x : Nat) : Nat :=
  if le then leVal (leBytes 4 x).reverse else x

/-! ## `Twiddle16`, `Twiddle32`, `Twiddle64` (Restore.cpp 653-690) -/

/-- `Uint16 Twiddle16(Uint16 in)`. -/
def Twiddle16 (x : Nat) : Nat :=
  ((x &&& 0xFF00) >>> 8) |||
    ((x &&& 0x00FF) <<< 8)

/-- `Uint32 Twiddle32(Uint32 in)`. -/
def Twiddle32 (x : Nat) : Nat :=
  ((x &&& 0x000000FF) <<< 24) |||
    ((x &&& 0x0000FF00) <<< 8) |||
    ((x &&& 0x00FF0000) >>> 8) |||
    ((x &&& 0xFF000000) >>> 24)

/-- `Uint64 Twiddle64(Uint64 in)`. -/
def Twiddle64 (x : Nat) : Nat :=
  ((x &&& 0x00000000000000FF) <<< 56) |||
    ((x &&& 0x000000000000FF00) <<< 40) |||
    ((x &&& 0x0000000000FF0000) <<< 24) |||
    ((x &&& 0x00000000FF000000) <<< 8) |||
    ((x &&& 0x000000FF00000000) >>> 8) |||
    ((x &&& 0x0000FF0000000000) >>> 24) |||
    ((x &&& 0x00FF000000000000) >>> 40) |||
    ((x &&& 0xFF00000000000000) >>> 56)

/-- The mask selecting the eight bits `s .. s + 7` of a number. -/
def byteMask (s : Nat) : Nat := (2 ^ 8 - 1) <<< s

/-- The function `f` on `k`-byte integers reverses the byte order of its argument. -/
def SwapsBytes (k : Nat) (f : Nat → Nat) : Prop :=
  ∀ bs : List Byte, bs.length = k → f (leVal bs) = leVal bs.reverse

/-- The block `m` with the `k` bytes at offset `o` put in reverse order. -/
def revChunk (k o : Nat) (m : Mem) : Mem :=
  m.take o ++ (slice m o k).reverse ++ m.drop (o + k)

/-- The block `m` in which each of the `n` consecutive `k`-byte elements that
start at offset `p` has its bytes reversed. -/
def revElems (k p n : Nat) (m : Mem) : Mem :=
  (List.range n).foldl (fun m' i => revChunk k (p + k * i) m') m

/-! ## Schema entities (Restore.cpp 205-213, 617-651) -/

/-- The getters of `NdbDictionary::Column` that the restore code calls. -/
structure Column where
  /-- Result of `getSize()`: size of one element in bytes. -/
  getSize : Nat
  /-- Result of `getLength()`: number of elements. -/
  getLength : Nat
  /-- Result of `getPrimaryKey()`. -/
  getPrimaryKey : Bool
  /-- Result of `getNullable()`. -/
  getNullable : Bool
  deriving DecidableEq, Repr

/-- `struct AttributeDesc`.  `m_nullBitIndex` is `none` as long as no value was
assigned to it (the constructor leaves it uninitialised). -/
structure AttributeDesc where
  size : Nat
  arraySize : Nat
  m_column : Column
  attrId : Nat
  m_nullBitIndex : Option Nat
  deriving DecidableEq, Repr

/-- `AttributeDesc::AttributeDesc(NdbDictionary::Column *c)`; `attrId` is
assigned by the caller right after construction and is passed here. -/
def AttributeDesc.new (c : Column) (attrId : Nat) : AttributeDesc :=
  { size := u32 (c.getSize * 8)
    arraySize := c.getLength
    m_column := c
    attrId := attrId
    m_nullBitIndex := none }

/-- `AttributeData`: the null flag and the data pointer (`void_value` and its
typed aliases), a byte offset into the record buffer, `none` for `NULL`. -/
structure AttributeData where
  null : Bool
  void_value : Option Nat
  deriving DecidableEq, Repr

/-- `struct AttributeS`.  `Data` is `none` until the decoder assigns it
(`new AttributeS` leaves it uninitialised). -/
structure AttributeS where
  Desc : AttributeDesc
  Data : Option AttributeData
  deriving DecidableEq, Repr

/-! ## `BackupFile::Twiddle` (Restore.cpp 35-68) -/

/-- One iteration of a `Twiddle` loop: `data[i] = f(data[i])` for elements of
`k` bytes, `data` being the pointer `p`. -/
def twiddleStep (le : Bool) (k : Nat) (f : Nat → Nat) (p : Option Nat)
    (m : Mem) (i : Nat) : Option Mem :=
  match p with
  | none => none
  | some o =>
    match rdHost le k m (o + k * i) with
    | none => none
    | some v => some (wrHost le k m (o + k * i) (f v))

/-- The loop `for(unsigned i = 0; i<arraySize; i++) data[i] = f(data[i]);`. -/
def twiddleLoop (le : Bool) (k : Nat) (f : Nat → Nat) (p : Option Nat)
    (arraySize : Nat) (m : Mem) : Option Mem :=
  (List.range arraySize).foldlM (twiddleStep le k f p) m

/-- The data pointer of an attribute (`attr->Data.void_value`); `none` when it
is `NULL` or was never assigned. -/
def AttributeS.ptr (attr : AttributeS) : Option Nat :=
  match attr.Data with
  | none => none
  | some d => d.void_value

/-- `bool BackupFile::Twiddle(AttributeS* attr, Uint32 arraySize)`, on the
memory block `m` the attribute points into.  The header declares the default
`arraySize = 0`.  The result is the returned flag and the memory afterwards. -/
def BackupFile.Twiddle (le m_hostByteOrder : Bool) (m : Mem) (attr : AttributeS)
    (arraySize : Nat) : Option (Bool × Mem) :=
  if m_hostByteOrder then some (true, m)
  else
    let arraySize := if arraySize = 0 then attr.Desc.arraySize else arraySize
    if attr.Desc.size = 8 then some (true, m)
    else if attr.Desc.size = 16 then
      (twiddleLoop le 2 Twiddle16 attr.ptr arraySize m).map (fun m' => (true, m'))
    else if attr.Desc.size = 32 then
      (twiddleLoop le 4 Twiddle32 attr.ptr arraySize m).map (fun m' => (true, m'))
    else if attr.Desc.size = 64 then
      (twiddleLoop le 8 Twiddle64 attr.ptr arraySize m).map (fun m' => (true, m'))
    else some (false, m)

/-- The swap function `Twiddle` applies to elements of `k` bytes. -/
def swapOf (k : Nat) : Nat → Nat :=
  if k = 2 then Twiddle16 else if k = 4 then Twiddle32 else Twiddle64

/-! ## `TableS` (Restore.cpp 205-213, 624-651) -/

/-- The part of `NdbTableImpl` the restore code reads: the table id and the
columns (`getNoOfColumns()` is the length, `getColumn(i)` the `i`-th entry). -/
structure NdbTableImpl where
  m_tableId : Nat
  m_columns : List Column
  deriving DecidableEq, Repr

/-- `class TableS`.  The vectors hold pointers to descriptors owned by
`allAttributesDesc`; here each vector holds the value of the descriptor it
points to. -/
structure TableS where
  m_dictTable : NdbTableImpl
  allAttributesDesc : List AttributeDesc
  m_fixedKeys : List AttributeDesc
  m_fixedAttribs : List AttributeDesc
  m_variableAttribs : List AttributeDesc
  m_noOfNullable : Nat
  m_nullBitmaskSize : Nat
  backupVersion : Nat
  deriving DecidableEq, Repr

/-- `void TableS::createAttr(NdbDictionary::Column *column)`.  In the source the
descriptor `d` is pushed to `allAttributesDesc` before `m_nullBitIndex` is
assigned through the same pointer; the value stored here is the descriptor as
it is when `createAttr` returns. -/
def TableS.createAttr (t : TableS) (column : Column) : TableS :=
  let d := AttributeDesc.new column t.allAttributesDesc.length
  if d.m_column.getPrimaryKey then
    { t with
      allAttributesDesc := t.allAttributesDesc ++ [d]
      m_fixedKeys := t.m_fixedKeys ++ [d] }
  else if !d.m_column.getNullable then
    { t with
      allAttributesDesc := t.allAttributesDesc ++ [d]
      m_fixedAttribs := t.m_fixedAttribs ++ [d] }
  else
    let d := { d with m_nullBitIndex := some t.m_noOfNullable }
    let noOfNullable := u32 (t.m_noOfNullable + 1)
    { t with
      allAttributesDesc := t.allAttributesDesc ++ [d]
      m_noOfNullable := noOfNullable
      m_nullBitmaskSize := u32 (noOfNullable + 31) / 32
      m_variableAttribs := t.m_variableAttribs ++ [d] }

/-- The state of a `TableS` object when the constructor enters its loop. -/
def TableS.init (tableImpl : NdbTableImpl) : TableS :=
  { m_dictTable := tableImpl
    allAttributesDesc := []
    m_fixedKeys := []
    m_fixedAttribs := []
    m_variableAttribs := []
    m_noOfNullable := 0
    m_nullBitmaskSize := 0
    backupVersion := 0 }

/-- `TableS::TableS(NdbTableImpl* tableImpl)`: `createAttr` is called for the
columns `0 .. getNoOfColumns() - 1` in turn. -/
def TableS.new (tableImpl : NdbTableImpl) : TableS :=
  tableImpl.m_columns.foldl TableS.createAttr (TableS.init tableImpl)

/-- `TableS::getTableId()`. -/
def TableS.getTableId (t : TableS) : Nat := t.m_dictTable.m_tableId

/-- `TableS::getNoOfAttributes()`. -/
def TableS.getNoOfAttributes (t : TableS) : Nat := t.allAttributesDesc.length

/-- The table of the counterexample to C7: one nullable primary-key column. -/
def exNullableKey : NdbTableImpl := ⟨7, [⟨4, 1, true, true⟩]⟩

/-- The invariant `createAttr` maintains on the vectors of a `TableS` whose
columns so far are `cs`. -/
structure TableS.Shape (cs : List Column) (t : TableS) : Prop where
  cols : t.allAttributesDesc.map (fun d => d.m_column) = cs
  attrId : ∀ i (h : i < t.allAttributesDesc.length), (t.allAttributesDesc.get ⟨i, h⟩).attrId = i
  keys : t.m_fixedKeys = t.allAttributesDesc.filter (fun d => d.m_column.getPrimaryKey)
  attribs : t.m_fixedAttribs = t.allAttributesDesc.filter
    (fun d => !d.m_column.getPrimaryKey && !d.m_column.getNullable)
  vars : t.m_variableAttribs = t.allAttributesDesc.filter
    (fun d => !d.m_column.getPrimaryKey && d.m_column.getNullable)

/-- The invariant `createAttr` maintains on the null-bit bookkeeping of a
`TableS`. -/
structure TableS.NullInv (t : TableS) : Prop where
  noOfNullable : t.m_noOfNullable = t.m_variableAttribs.length
  nullBit : ∀ k (h : k < t.m_variableAttribs.length),
    (t.m_variableAttribs.get ⟨k, h⟩).m_nullBitIndex = some k
  maskSize : t.m_nullBitmaskSize = (t.m_noOfNullable + 31) / 32

/-! ## Files, the scratch buffer and the outcome of a call -/

/-- How a call ends.  `ret` is a normal return; `abort` is a call of `abort()`
or a failed `assert`; `fault` is undefined behaviour (an access outside a memory
block, through a null pointer or to a stream that is not open). -/
inductive Res (α : Type) where
  | ret (a : α)
  | abort
  | fault
  deriving DecidableEq, Repr

/-- Parameters of the environment the code runs in: the byte order of the
host, which allocation requests `malloc` satisfies, the external dictionary
decoder `NdbDictInterface::parseTableInfo` (its return code and the table it
produces from the bytes of the dictionary blob), and the constants and the
header layout that `BackupFormat.hpp` fixes. -/
structure Env where
  /-- The host is little-endian. -/
  le : Bool
  /-- Whether `malloc(n)` returns a block (rather than `NULL`). -/
  malloc : Nat → Bool
  /-- The external `parseTableInfo`: return code and resulting table. -/
  parseTableInfo : List Byte → Int × Option NdbTableImpl
  /-- `BackupFormat::TABLE_DESCRIPTION`. -/
  TABLE_DESCRIPTION : Nat
  /-- `BackupFormat::GCP_ENTRY`. -/
  GCP_ENTRY : Nat
  /-- Size in bytes of `FileHeader::Magic`. -/
  magicLen : Nat

/-- `fread(ptr, size, nmemb, stream)` on a stream whose unread content is
`file`: the returned number of complete items. -/
def freadCount (size nmemb : Nat) (file : List Byte) : Nat :=
  (file.take (size * nmemb)).length / size

/-- `fread(ptr, size, nmemb, stream)`: the bytes delivered to `ptr`. -/
def freadData (size nmemb : Nat) (file : List Byte) : List Byte :=
  file.take (size * nmemb)

/-- `fread(ptr, size, nmemb, stream)`: the unread content afterwards. -/
def freadRest (size nmemb : Nat) (file : List Byte) : List Byte :=
  file.drop (size * nmemb)

/-- Bytes delivered by `fread` are stored at the start of the block `buf`;
`none` when they do not fit. -/
def storeAt (buf : Mem) (got : List Byte) : Option Mem :=
  if got.length ≤ buf.length then some (got ++ buf.drop got.length) else none

/-- A 32-bit word of `got` at byte offset `o` as the host reads it
(0 when the bytes are missing; only used on complete reads). -/
def wordAt (le : Bool) (got : List Byte) (o : Nat) : Nat :=
  hostVal le (slice got o 4)

/-- `BackupFormat::FileHeader`. -/
structure FileHeader where
  Magic : List Byte
  NdbVersion : Nat
  SectionType : Nat
  SectionLength : Nat
  FileType : Nat
  BackupId : Nat
  BackupKey_0 : Nat
  BackupKey_1 : Nat
  ByteOrder : Nat
  deriving DecidableEq, Repr

/-- `class BackupFile`: the open stream (`none`: `m_file == 0`), the scratch
buffer (`none`: `m_buffer == 0`) with its recorded size, the two headers and the
byte-order flag. -/
structure BackupFile where
  m_file : Option (List Byte)
  m_buffer : Option Mem
  m_bufferSize : Nat
  m_fileHeader : FileHeader
  m_expectedFileHeader : FileHeader
  m_hostByteOrder : Bool
  deriving DecidableEq, Repr

/-- `const Uint32 magicByteOrder = 0x12345678;` -/
def magicByteOrder : Nat := 0x12345678

/-- `const Uint32 swappedMagicByteOrder = 0x78563412;` -/
def swappedMagicByteOrder : Nat := 0x78563412

/-- `Uint32 * BackupFile::createBuffer(Uint32 bytes)`; the returned pointer is
the `m_buffer` field of the result.  A fresh block is modelled as zero-filled. -/
def BackupFile.createBuffer (env : Env) (s : BackupFile) (bytes : Nat) : BackupFile :=
  if bytes > s.m_bufferSize then
    let m_bufferSize := u32 (s.m_bufferSize + 2 * bytes)
    { s with
      m_bufferSize := m_bufferSize
      m_buffer := if env.malloc m_bufferSize then some (List.replicate m_bufferSize 0) else none }
  else s

/-- The header fields as `fread` stores them from the `magicLen + 32` bytes
`got`. -/
def FileHeader.ofBytes (env : Env) (got : List Byte) : FileHeader :=
  { Magic := got.take env.magicLen
    NdbVersion := wordAt env.le got env.magicLen
    SectionType := wordAt env.le got (env.magicLen + 4)
    SectionLength := wordAt env.le got (env.magicLen + 8)
    FileType := wordAt env.le got (env.magicLen + 12)
    BackupId := wordAt env.le got (env.magicLen + 16)
    BackupKey_0 := wordAt env.le got (env.magicLen + 20)
    BackupKey_1 := wordAt env.le got (env.magicLen + 24)
    ByteOrder := wordAt env.le got (env.magicLen + 28) }

/-- `bool BackupFile::readHeader()`.  `disk` is the content of the file named
`m_fileName` when `fopen` can open it.  After a short `fread` the (partly
overwritten) header is left as it was. -/
def BackupFile.readHeader (env : Env) (disk : Option (List Byte)) (s : BackupFile) :
    Res (Bool × BackupFile) :=
  -- openFile()
  let s := { s with m_file := disk }
  match s.m_file with
  | none => .ret (false, s)
  | some file =>
    let s := { s with m_file := some (freadRest (env.magicLen + 32) 1 file) }
    if freadCount (env.magicLen + 32) 1 file ≠ 1 then .ret (false, s)
    else
      let h := FileHeader.ofBytes env (freadData (env.magicLen + 32) 1 file)
      let h := { h with NdbVersion := ntohl env.le h.NdbVersion }
      let h := { h with SectionType := ntohl env.le h.SectionType }
      let h := { h with SectionLength := ntohl env.le h.SectionLength }
      let h := { h with FileType := ntohl env.le h.FileType }
      let h := { h with BackupId := ntohl env.le h.BackupId }
      let h := { h with BackupKey_0 := ntohl env.le h.BackupKey_0 }
      let h := { h with BackupKey_1 := ntohl env.le h.BackupKey_1 }
      let s := { s with m_fileHeader := h }
      if s.m_fileHeader.FileType ≠ s.m_expectedFileHeader.FileType then .abort
      else if s.m_fileHeader.ByteOrder = magicByteOrder then
        .ret (true, { s with m_hostByteOrder := true })
      else if s.m_fileHeader.ByteOrder = swappedMagicByteOrder then
        .ret (true, { s with m_hostByteOrder := false })
      else .abort

/-- The environment of the worked examples: a little-endian host on which
every allocation succeeds, a dictionary decoder that accepts any blob as a
table with one 32-bit primary-key column, and the constants 5, 6 and 8. -/
def exEnv : Env :=
  { le := true
    malloc := fun _ => true
    parseTableInfo := fun _ => (0, some ⟨1, [⟨4, 1, true, false⟩]⟩)
    TABLE_DESCRIPTION := 5
    GCP_ENTRY := 6
    magicLen := 8 }

/-- The empty file header. -/
def FileHeader.zero : FileHeader := ⟨[], 0, 0, 0, 0, 0, 0, 0, 0⟩

/-- A `BackupFile` as its constructor leaves it, expecting file type `ft`. -/
def BackupFile.fresh (ft : Nat) : BackupFile :=
  { m_file := none
    m_buffer := none
    m_bufferSize := 0
    m_fileHeader := FileHeader.zero
    m_expectedFileHeader := { FileHeader.zero with FileType := ft }
    m_hostByteOrder := false }

/-- A 40-byte file header with file type 1 written by a little-endian
producer (byte-order word `0x12345678` in little-endian bytes). -/
def exHeaderBytes : List Byte :=
  [78, 68, 66, 66, 67, 75, 85, 80,  0, 0, 0, 1,  0, 0, 0, 1,  0, 0, 0, 10,
   0, 0, 0, 1,  0, 0, 0, 42,  0, 0, 0, 0,  0, 0, 0, 0,  0x78, 0x56, 0x34, 0x12]

/-! ## `RestoreMetaData` (Restore.cpp 90-203, 215-246) -/

/-- `class RestoreMetaData : public BackupFile`. -/
structure RestoreMetaData extends BackupFile where
  allTables : List TableS
  m_startGCP : Nat
  m_stopGCP : Nat
  deriving DecidableEq, Repr

/-- `const TableS * RestoreMetaData::getTable(Uint32 tableId) const`. -/
def RestoreMetaData.getTable (s : RestoreMetaData) (tableId : Nat) : Option TableS :=
  s.allTables.find? (fun t => t.getTableId == tableId)

/-- `Uint32 RestoreMetaData::getStopGCP() const`. -/
def RestoreMetaData.getStopGCP (s : RestoreMetaData) : Nat := s.m_stopGCP

/-- The effect of `createBuffer` on the `BackupFile` part of the object. -/
def RestoreMetaData.createBuffer (env : Env) (s : RestoreMetaData) (bytes : Nat) :
    RestoreMetaData :=
  { s with toBackupFile := s.toBackupFile.createBuffer env bytes }

/-- `Uint32 RestoreMetaData::readMetaTableList()`.  (`sectionInfo[0]` is
converted with `ntohl` but not used by the source.) -/
def RestoreMetaData.readMetaTableList (env : Env) (s : RestoreMetaData) :
    Res (Nat × RestoreMetaData) :=
  match s.m_file with
  | none => .fault
  | some file =>
    let s := { s with m_file := some (freadRest 8 1 file) }
    if freadCount 8 1 file ≠ 1 then .ret (0, s)
    else
      let sectionInfo1 := ntohl env.le (wordAt env.le (freadData 8 1 file) 4)
      let tabCount := sub32 sectionInfo1 2
      let len := u32 (4 * tabCount)
      let s := s.createBuffer env len
      match s.m_buffer with
      | none => .abort
      | some buf =>
        let file := freadRest 8 1 file
        match storeAt buf (freadData 1 len file) with
        | none => .fault
        | some buf =>
          let s := { s with m_file := some (freadRest 1 len file), m_buffer := some buf }
          if freadCount 1 len file ≠ len then .ret (0, s)
          else .ret (tabCount, s)

/-- `bool RestoreMetaData::parseTableDescriptor(const Uint32 * data, Uint32 len)`;
`data` is the scratch buffer, of which the decoder is given the first `len`
words. -/
def RestoreMetaData.parseTableDescriptor (env : Env) (s : RestoreMetaData) (data : Mem)
    (len : Nat) : Res (Bool × RestoreMetaData) :=
  if data.length < 4 * len then .fault
  else
    let r := env.parseTableInfo (data.take (4 * len))
    if r.1 ≠ 0 then .ret (false, s)
    else
      match r.2 with
      | none => .ret (false, s)
      | some tableImpl =>
        let table := TableS.new tableImpl
        let table := { table with backupVersion := s.m_fileHeader.NdbVersion }
        .ret (true, { s with allTables := s.allTables ++ [table] })

/-- `bool RestoreMetaData::readMetaTableDesc()`. -/
def RestoreMetaData.readMetaTableDesc (env : Env) (s : RestoreMetaData) :
    Res (Bool × RestoreMetaData) :=
  match s.m_file with
  | none => .fault
  | some file =>
    let s := { s with m_file := some (freadRest 8 1 file) }
    if freadCount 8 1 file ≠ 1 then .ret (false, s)
    else
      let sectionInfo0 := ntohl env.le (wordAt env.le (freadData 8 1 file) 0)
      let sectionInfo1 := ntohl env.le (wordAt env.le (freadData 8 1 file) 4)
      if sectionInfo0 ≠ env.TABLE_DESCRIPTION then .abort
      else
        let len := sub32 sectionInfo1 2
        let s := s.createBuffer env (u32 (4 * u32 (len + 1)))
        match s.m_buffer with
        | none => .ret (false, s)
        | some buf =>
          let file := freadRest 8 1 file
          match storeAt buf (freadData 4 len file) with
          | none => .fault
          | some buf =>
            let s := { s with m_file := some (freadRest 4 len file), m_buffer := some buf }
            if freadCount 4 len file ≠ len then .ret (false, s)
            else s.parseTableDescriptor env buf len

/-- `bool RestoreMetaData::readGCPEntry()`. -/
def RestoreMetaData.readGCPEntry (env : Env) (s : RestoreMetaData) :
    Res (Bool × RestoreMetaData) :=
  match s.m_file with
  | none => .fault
  | some file =>
    let s := { s with m_file := some (freadRest 4 4 file) }
    if freadCount 4 4 file ≠ 4 then .ret (false, s)
    else
      let SectionType := ntohl env.le (wordAt env.le (freadData 4 4 file) 0)
      if SectionType ≠ env.GCP_ENTRY then .ret (false, s)
      else
        let StartGCP := ntohl env.le (wordAt env.le (freadData 4 4 file) 8)
        let StopGCP := ntohl env.le (wordAt env.le (freadData 4 4 file) 12)
        .ret (true, { s with m_startGCP := StartGCP, m_stopGCP := StopGCP })

/-- The loop `for(Uint32 i = 0; i<noOfTables; i++) if(!readMetaTableDesc()) return 0;`
of `loadContent`, with `n` iterations left; `none` in the result stands for
falling out of the loop. -/
def RestoreMetaData.loadTables (env : Env) : Nat → RestoreMetaData →
    Res (Option Int × RestoreMetaData)
  | 0, s => .ret (none, s)
  | n + 1, s =>
    match s.readMetaTableDesc env with
    | .abort => .abort
    | .fault => .fault
    | .ret (false, s) => .ret (some 0, s)
    | .ret (true, s) => RestoreMetaData.loadTables env n s

/-- `int RestoreMetaData::loadContent()`. -/
def RestoreMetaData.loadContent (env : Env) (s : RestoreMetaData) :
    Res (Int × RestoreMetaData) :=
  match s.readMetaTableList env with
  | .abort => .abort
  | .fault => .fault
  | .ret (noOfTables, s) =>
    if noOfTables = 0 then .ret (1, s)
    else
      match RestoreMetaData.loadTables env noOfTables s with
      | .abort => .abort
      | .fault => .fault
      | .ret (some v, s) => .ret (v, s)
      | .ret (none, s) =>
        match s.readGCPEntry env with
        | .abort => .abort
        | .fault => .fault
        | .ret (false, s) => .ret (0, s)
        | .ret (true, s) => .ret (1, s)

/-- The number of bytes that `n` consecutive table-description sections take
at the start of the stream `file`, as `readMetaTableDesc` reads them: each is a
header of two words, the second of which less 2 (as a `Uint32`) is the number
of words of the body that follows. -/
def tableDescsLength : Nat → List Byte → Nat
  | 0, _ => 0
  | n + 1, file =>
    let len := sub32 (beVal (slice file 4 4)) 2
    (8 + 4 * len) + tableDescsLength n (file.drop (8 + 4 * len))

/-- The value a call returned, if it returned. -/
def Res.value {α σ : Type} : Res (α × σ) → Option α
  | .ret (a, _) => some a
  | _ => none

/-- A `RestoreMetaData` object right after `readHeader`, reading the unread
content `file`, with the scratch buffer in the state `buf` / `size`. -/
def exMeta (file : List Byte) (buf : Option Mem) (size : Nat) : RestoreMetaData :=
  { toBackupFile :=
      { BackupFile.fresh 1 with m_file := some file, m_buffer := buf, m_bufferSize := size }
    allTables := []
    m_startGCP := 0
    m_stopGCP := 0 }

/-! ## `RestoreDataIterator::getNextTuple` (Restore.cpp 259-409) -/

/-- Modelled from the spec: `AttributeDesc::getSizeInWords()` is declared in
`Restore.hpp`, which is not part of the sources at hand; it is the
"size-in-words" of a fixed-size attribute, the number of 32-bit words that hold
`arraySize` elements of `size` bits, as a `Uint32`. -/
def AttributeDesc.getSizeInWords (d : AttributeDesc) : Nat :=
  u32 (d.size * d.arraySize + 31) / 32

/-- Modelled from the spec: `BitmaskImpl::get(size, data, n)` is declared in
`Bitmask.hpp`, which is not part of the sources at hand; it is bit `n` of a
bitmask of `size` 32-bit words stored at `data`, i.e. bit `n % 32` of word
`n / 32` as the host reads that word.  `none` when the word lies outside the
block. -/
def BitmaskImpl.get (le : Bool) (_size : Nat) (data : Mem) (n : Nat) : Option Bool :=
  match rdHost le 4 data (4 * (n / 32)) with
  | none => none
  | some w => some (w.testBit (n % 32))

/-- `class TupleS`.  Modelled from the spec: `createDataRecord(bytes)` and
`getDataRecord()` are declared in `Restore.hpp`; the data record is "a fresh
tuple buffer owned by the Tuple" that holds the bytes read for the tuple. -/
structure TupleS where
  m_currentTable : TableS
  allAttributes : List AttributeS
  dataRecord : Option Mem
  deriving DecidableEq, Repr

/-- `bool TupleS::prepareRecord(const TableS & tab)` on a new tuple: one
`AttributeS` per attribute of the table, `Desc` set to `tab[i]` (the `i`-th
entry of `allAttributesDesc`), `Data` not yet assigned. -/
def TupleS.prepareRecord (tab : TableS) : TupleS :=
  { m_currentTable := tab
    allAttributes := tab.allAttributesDesc.map (fun d => { Desc := d, Data := none })
    dataRecord := none }

/-- `class RestoreDataIterator : public BackupFile`: `m_currentTable` is `none`
while it is null. -/
structure RestoreDataIterator extends BackupFile where
  m_metaData : RestoreMetaData
  m_currentTable : Option TableS
  m_count : Nat
  deriving DecidableEq, Repr

/-- How a decoding loop of `getNextTuple` ends: it runs to its end (`ok`), it
executes `res = -1; return NULL;` (`fail`), an `assert` fails (`abort`), or it
accesses memory it must not access (`fault`). -/
inductive Dec (α : Type) where
  | ok (a : α)
  | fail
  | abort
  | fault
  deriving DecidableEq, Repr

/-- Sequential composition of decoding steps. -/
def Dec.bind {α β : Type} (x : Dec α) (f : α → Dec β) : Dec β :=
  match x with
  | .ok a => f a
  | .fail => .fail
  | .abort => .abort
  | .fault => .fault

/-- The variables the decoding loops of `getNextTuple` update: `ptr` as a word
offset from `tup->getDataRecord()`, the data record and `tup->allAttributes`. -/
structure DecState where
  ptr : Nat
  mem : Mem
  attrs : List AttributeS
  deriving DecidableEq, Repr

/-- Body of the loops over `m_fixedKeys` and `m_fixedAttribs` (Restore.cpp
328-365) for the descriptor `d` of the vector. -/
def fixedStep (le hbo : Bool) (dataLength : Nat) (d : AttributeDesc) (st : DecState) :
    Dec DecState :=
  if ¬ st.ptr < dataLength then .abort
  else
    match st.attrs[d.attrId]? with
    | none => .fault
    | some attr =>
      let sz := attr.Desc.getSizeInWords
      let attr := { attr with Data := some { null := false, void_value := some (4 * st.ptr) } }
      match BackupFile.Twiddle le hbo st.mem attr 0 with
      | none => .fault
      | some (false, _) => .fail
      | some (true, mem) =>
        .ok { ptr := st.ptr + sz, mem := mem, attrs := st.attrs.set d.attrId attr }

/-- The part of the body of the loop over `m_variableAttribs` that follows the
null check (Restore.cpp 381-403): the `VariableData` record at `ptr` is decoded
into `attr`, which is `tup->allAttributes[attrId]`. -/
def variableData (le hbo : Bool) (dataLength : Nat) (d : AttributeDesc) (attr : AttributeS)
    (st : DecState) : Dec DecState :=
  if ¬ st.ptr < dataLength then .abort
  else
    match rdHost le 4 st.mem (4 * st.ptr), rdHost le 4 st.mem (4 * st.ptr + 4) with
    | some w0, some w1 =>
      let sz := ntohl le w0
      let id := ntohl le w1
      if id ≠ d.attrId then .abort
      else
        let attr :=
          { attr with Data := some { null := false, void_value := some (4 * st.ptr + 8) } }
        if attr.Desc.size / 8 = 0 then .fault
        else
          let arraySize := u32 (4 * sz) / (attr.Desc.size / 8)
          if ¬ arraySize ≥ attr.Desc.arraySize then .abort
          else
            match BackupFile.Twiddle le hbo st.mem attr attr.Desc.arraySize with
            | none => .fault
            | some (false, _) => .fail
            | some (true, mem) =>
              .ok { ptr := st.ptr + u32 (sz + 2), mem := mem,
                    attrs := st.attrs.set d.attrId attr }
    | _, _ => .fault

/-- Body of the loop over `m_variableAttribs` (Restore.cpp 367-404) for the
descriptor `d` of the vector; `nullBitmaskSize` is
`m_currentTable->m_nullBitmaskSize`. -/
def variableStep (le hbo : Bool) (nullBitmaskSize dataLength : Nat) (d : AttributeDesc)
    (st : DecState) : Dec DecState :=
  match st.attrs[d.attrId]? with
  | none => .fault
  | some attr =>
    if attr.Desc.m_column.getNullable then
      match attr.Desc.m_nullBitIndex with
      | none => .fault
      | some ind =>
        match BitmaskImpl.get le nullBitmaskSize st.mem ind with
        | none => .fault
        | some true =>
          .ok { st with
                attrs := st.attrs.set d.attrId
                  { attr with Data := some { null := true, void_value := none } } }
        | some false => variableData le hbo dataLength d attr st
    else variableData le hbo dataLength d attr st

/-- A loop `for(int i = 0; i < v.size(); i++) body(v[i])` of `getNextTuple`;
the loop is left as soon as a body does not run to its end. -/
def decodeLoop (step : AttributeDesc → DecState → Dec DecState) :
    List AttributeDesc → DecState → Dec DecState
  | [], st => .ok st
  | d :: ds, st => (step d st).bind (decodeLoop step ds)

/-- The three decoding loops of `getNextTuple` in sequence on the data record
`record` of `dataLength` words. -/
def decodeRecord (le hbo : Bool) (tab : TableS) (dataLength : Nat) (record : Mem)
    (attrs : List AttributeS) : Dec DecState :=
  (decodeLoop (fixedStep le hbo dataLength) tab.m_fixedKeys
      { ptr := tab.m_nullBitmaskSize, mem := record, attrs := attrs }).bind fun st =>
  (decodeLoop (fixedStep le hbo dataLength) tab.m_fixedAttribs st).bind fun st =>
  decodeLoop (variableStep le hbo tab.m_nullBitmaskSize dataLength) tab.m_variableAttribs st

/-- `const TupleS * RestoreDataIterator::getNextTuple(int & res)`: the result
is the value stored in `res` together with the returned pointer (`none` for
`NULL`). -/
def RestoreDataIterator.getNextTuple (env : Env) (s : RestoreDataIterator) :
    Res ((Int × Option TupleS) × RestoreDataIterator) :=
  match s.m_currentTable with
  | none => .fault
  | some tab =>
    let tup := TupleS.prepareRecord tab
    match s.m_file with
    | none => .fault
    | some file =>
      if freadCount 4 1 file ≠ 1 then
        .ret ((-1, none), { s with m_file := some (freadRest 4 1 file) })
      else
        let dataLength := ntohl env.le (wordAt env.le (freadData 4 1 file) 0)
        let dataLenBytes := u32 (4 * dataLength)
        if dataLength = 0 then
          .ret ((0, none), { s with m_file := some (freadRest 4 1 file) })
        else
          let file := freadRest 4 1 file
          let s := { s with m_file := some (freadRest 1 dataLenBytes file) }
          if freadCount 1 dataLenBytes file ≠ dataLenBytes then .ret ((-1, none), s)
          else
            match decodeRecord env.le s.m_hostByteOrder tab dataLength
                (freadData 1 dataLenBytes file) tup.allAttributes with
            | .fail => .ret ((-1, none), s)
            | .abort => .abort
            | .fault => .fault
            | .ok st =>
              .ret ((0, some { tup with allAttributes := st.attrs, dataRecord := some st.mem }),
                { s with m_count := u32 (s.m_count + 1) })

/-! ## The record of a producer with the opposite byte order

The functions below describe, from the layout of a tuple record (spec section
4.5.2) and independently of the decoder, the record that holds the same tuple
with the bytes of every element of every attribute payload reversed; the length
word, the null bitmask and the `Sz` / `Id` words of the variable-size part are
kept. -/

/-- The blocks `a` and `b` hold the same bytes at the offsets `lo .. hi - 1`. -/
def Agree (a b : Mem) (lo hi : Nat) : Prop :=
  ∀ j, lo ≤ j → j < hi → a[j]? = b[j]?

/-- The table of the worked decoding example: a 32-bit primary key, a fixed
attribute of two 16-bit elements and a nullable attribute of two 16-bit
elements. -/
def exTable : NdbTableImpl :=
  ⟨3, [⟨4, 1, true, false⟩, ⟨2, 2, false, false⟩, ⟨2, 2, false, true⟩]⟩

/-- The length word of the example record: six words. -/
def exLength : List Byte := [0, 0, 0, 6]

/-- A record of `exTable` written by a little-endian producer: the null
bitmask, the key 5, the elements 1 and 2, then `Sz = 1`, `Id = 2` and the
elements 3 and 4. -/
def exRecord : List Byte :=
  [0, 0, 0, 0,  5, 0, 0, 0,  1, 0, 2, 0,  0, 0, 0, 1,  0, 0, 0, 2,  3, 0, 4, 0]

/-- A data iterator positioned at a tuple of `exTable`, reading `file`, with
the byte-order flag `hbo`. -/
def exIter (hbo : Bool) (file : List Byte) : RestoreDataIterator :=
  { toBackupFile :=
      { BackupFile.fresh 3 with m_file := some file, m_hostByteOrder := hbo }
    m_metaData := exMeta [] none 0
    m_currentTable := some (TableS.new exTable)
    m_count := 0 }

/-- The attributes of the tuple decoded from `exRecord`. -/
def exAttributes : List AttributeS :=
  [⟨⟨32, 1, ⟨4, 1, true, false⟩, 0, none⟩, some ⟨false, some 4⟩⟩,
   ⟨⟨16, 2, ⟨2, 2, false, false⟩, 1, none⟩, some ⟨false, some 8⟩⟩,
   ⟨⟨16, 2, ⟨2, 2, false, true⟩, 2, some 0⟩, some ⟨false, some 20⟩⟩]

/-! ## Fragment header and footer (Restore.cpp 554-615) -/

/-- `TableS::setBackupVersion(Uint32)`, the setter `parseTableDescriptor` calls
on a table it has constructed. -/
def TableS.setBackupVersion (t : TableS) (v : Nat) : TableS := { t with backupVersion := v }

/-- Modelled from the spec: `BackupFormat::DataFile::FragmentHeader` is declared
in `BackupFormat.hpp`, which is not part of the sources at hand; it is "a fixed
5-word big-endian structure `(sectionType, sectionLength, tableId, fragmentNo,
checksumType)`".  This is `sizeof(Header)` in bytes. -/
def FragmentHeader.sizeof : Nat := 20

/-- Modelled from the spec: byte offset of the field `TableId`, the third word
of `FragmentHeader`. -/
def FragmentHeader.TableId : Nat := 8

/-- Modelled from the spec: `BackupFormat::DataFile::FragmentFooter` is declared
in `BackupFormat.hpp`; it is "a 6-word big-endian footer `(sectionType,
sectionLength, tableId, fragmentNo, noOfRecords, checksum)`".  This is
`sizeof(footer)` in bytes. -/
def FragmentFooter.sizeof : Nat := 24

/-- Modelled from the spec: byte offset of the field `NoOfRecords`, the fifth
word of `FragmentFooter`. -/
def FragmentFooter.NoOfRecords : Nat := 16

/-- `bool RestoreDataIterator::readFragmentHeader(int & ret)`: the result is the
returned flag together with the value stored in `ret`. -/
def RestoreDataIterator.readFragmentHeader (env : Env) (s : RestoreDataIterator) :
    Res ((Bool × Int) × RestoreDataIterator) :=
  match s.m_file with
  | none => .fault
  | some file =>
    let s := { s with m_file := some (freadRest FragmentHeader.sizeof 1 file) }
    if freadCount FragmentHeader.sizeof 1 file ≠ 1 then .ret ((false, 0), s)
    else
      let TableId := ntohl env.le
        (wordAt env.le (freadData FragmentHeader.sizeof 1 file) FragmentHeader.TableId)
      let s := { s with m_currentTable := s.m_metaData.getTable TableId }
      match s.m_currentTable with
      | none => .ret ((false, -1), s)
      | some _ => .ret ((true, 0), { s with m_count := 0 })

/-- `bool RestoreDataIterator::validateFragmentFooter()`. -/
def RestoreDataIterator.validateFragmentFooter (env : Env) (s : RestoreDataIterator) :
    Res (Bool × RestoreDataIterator) :=
  match s.m_file with
  | none => .fault
  | some file =>
    let s := { s with m_file := some (freadRest FragmentFooter.sizeof 1 file) }
    if freadCount FragmentFooter.sizeof 1 file ≠ 1 then .ret (false, s)
    else
      let NoOfRecords := ntohl env.le
        (wordAt env.le (freadData FragmentFooter.sizeof 1 file) FragmentFooter.NoOfRecords)
      if ¬ s.m_count = NoOfRecords then .abort
      else .ret (true, s)

/-- A consumer that calls `getNextTuple` `n` times in a row, whatever each call
returns: the number of calls that returned a tuple, and the iterator
afterwards. -/
def nextTuples (env : Env) : Nat → RestoreDataIterator → Res (Nat × RestoreDataIterator)
  | 0, s => .ret (0, s)
  | n + 1, s =>
    match s.getNextTuple env with
    | .abort => .abort
    | .fault => .fault
    | .ret ((_, tup), s) =>
      match nextTuples env n s with
      | .abort => .abort
      | .fault => .fault
      | .ret (c, s) => .ret ((if tup.isSome then c + 1 else c), s)

/-! ## Worked examples for the control file and the data file -/

/-- The content of a control file after its header: a table list of one table,
one table description with a one-word dictionary blob, and a GCP entry with
`StartGCP = 11` and `StopGCP = 7`. -/
def exCtlDescending : List Byte :=
  [0, 0, 0, 4,  0, 0, 0, 3,  0, 0, 0, 0,
   0, 0, 0, 5,  0, 0, 0, 3,  0, 0, 0, 0,
   0, 0, 0, 6,  0, 0, 0, 4,  0, 0, 0, 11,  0, 0, 0, 7]

/-- A table with a nullable primary-key column and a nullable non-key column,
both of one 32-bit element. -/
def exNullableKeyTable : NdbTableImpl := ⟨4, [⟨4, 1, true, true⟩, ⟨4, 1, false, true⟩]⟩

/-- A table with one primary-key column of one 64-bit element. -/
def exWideKeyTable : NdbTableImpl := ⟨5, [⟨8, 1, true, false⟩]⟩

/-- A table with a 32-bit primary key and two nullable non-key columns of one
32-bit element each. -/
def exTwoVariableTable : NdbTableImpl :=
  ⟨6, [⟨4, 1, true, false⟩, ⟨4, 1, false, true⟩, ⟨4, 1, false, true⟩]⟩

/-- A data iterator whose current table is built from `tableImpl`, reading the
unread content `file`, with the byte-order flag `hbo` and `count` tuples
counted so far. -/
def exIterOf (tableImpl : NdbTableImpl) (hbo : Bool) (count : Nat) (file : List Byte) :
    RestoreDataIterator :=
  { toBackupFile :=
      { BackupFile.fresh 3 with m_file := some file, m_hostByteOrder := hbo }
    m_metaData :=
      { exMeta [] none 0 with allTables := [(TableS.new tableImpl).setBackupVersion 1] }
    m_currentTable := some ((TableS.new tableImpl).setBackupVersion 1)
    m_count := count }

/-- The declared elements of every attribute of the tuple that has data lie
inside the first `dataLength` words of the tuple buffer. -/
def TupleS.InRecord (dataLength : Nat) (tup : TupleS) : Prop :=
  ∀ a ∈ tup.allAttributes, ∀ p, a.ptr = some p →
    p + a.Desc.size / 8 * a.Desc.arraySize ≤ 4 * dataLength

/-- The property of a decoded attribute that C13 (amended) states, relative to
the tuple buffer `mem` and the bitmask size `nbs` of the table: an attribute of
a nullable non-key column is null exactly when its bit of the null bitmask is
set, and then it has no data; every other attribute is not null and has data. -/
def NullFlagOK (le : Bool) (nbs : Nat) (mem : Mem) (a : AttributeS) : Prop :=
  if a.Desc.m_column.getPrimaryKey = false ∧ a.Desc.m_column.getNullable = true then
    ∃ ind b, a.Desc.m_nullBitIndex = some ind ∧ ind < 32 * nbs ∧
      BitmaskImpl.get le nbs mem ind = some b ∧
      ((b = true ∧ a.Data = some ⟨true, none⟩) ∨
        (b = false ∧ ∃ p, a.Data = some ⟨false, some p⟩))
  else ∃ p, a.Data = some ⟨false, some p⟩

/-- The metadata object after `loadContent` has read `exCtlDescending`. -/
def exCtlLoaded : RestoreMetaData :=
  { exMeta [] (some [0, 0, 0, 0, 0, 0, 0, 0]) 8 with
    allTables := [TableS.new ⟨1, [⟨4, 1, true, false⟩]⟩]
    m_startGCP := 11
    m_stopGCP := 7 }

/-- What every decoding step of `getNextTuple` keeps true of its state, for the
record `record` as read from the file: the tuple buffer keeps its length and
its null bitmask (the first `nbs` words), the cursor stays behind the bitmask,
and the descriptors of the attributes are `descs`. -/
def DecFrame (record : Mem) (nbs : Nat) (descs : List AttributeDesc) (st : DecState) : Prop :=
  st.mem.length = record.length ∧ Agree st.mem record 0 (4 * nbs) ∧ nbs ≤ st.ptr ∧
    st.attrs.map (fun a => a.Desc) = descs

/-- A data stream with one record of `exNullableKeyTable`: two words, a null
bitmask with every bit set and the key 5 (little-endian producer). -/
def exNullableKeyFile : List Byte := [0, 0, 0, 2,  255, 255, 255, 255,  5, 0, 0, 0]

/-- The attributes of the tuple decoded from `exNullableKeyFile`: the key, of a
nullable column, is not null and has data; the second attribute is null. -/
def exNullableKeyAttributes : List AttributeS :=
  [⟨⟨32, 1, ⟨4, 1, true, true⟩, 0, none⟩, some ⟨false, some 4⟩⟩,
   ⟨⟨32, 1, ⟨4, 1, false, true⟩, 1, some 0⟩, some ⟨true, none⟩⟩]

/-- A data stream with one record of `exTwoVariableTable` (six words): the null
bitmask 0, the key 5, then `Sz = 0xFFFFFFFF`, `Id = 1`, the word `00 00 00 02`
and the word 7. -/
def exWrapFile : List Byte :=
  [0, 0, 0, 6,  0, 0, 0, 0,  5, 0, 0, 0,  255, 255, 255, 255,  0, 0, 0, 1,
   0, 0, 0, 2,  7, 0, 0, 0]

/-- The attributes `getNextTuple` decodes from `exWrapFile`: the key at byte 4,
attribute 1 at byte 16 and attribute 2 at byte 20. -/
def exWrapAttributes : List AttributeS :=
  [⟨⟨32, 1, ⟨4, 1, true, false⟩, 0, none⟩, some ⟨false, some 4⟩⟩,
   ⟨⟨32, 1, ⟨4, 1, false, true⟩, 1, some 0⟩, some ⟨false, some 16⟩⟩,
   ⟨⟨32, 1, ⟨4, 1, false, true⟩, 2, some 1⟩, some ⟨false, some 20⟩⟩]

/-- A data stream with one record of `exWideKeyTable` that has one word only,
although the 64-bit key takes two. -/
def exShortFile : List Byte := [0, 0, 0, 1,  1, 2, 3, 4]

/-- A table with one primary-key column of one 32-bit element (the table
`T(pk:int32)` of the scenarios of the spec). -/
def exKeyTable : NdbTableImpl := ⟨1, [⟨4, 1, true, false⟩]⟩

/-- A fragment footer with `NoOfRecords = 2`. -/
def exFooter : List Byte :=
  [0, 0, 0, 3,  0, 0, 0, 6,  0, 0, 0, 1,  0, 0, 0, 0,  0, 0, 0, 2,  0, 0, 0, 0]

/-- The tuples of a fragment of `exKeyTable`: the keys 1 and 2, the
end-of-fragment word and the footer. -/
def exTuples : List Byte :=
  [0, 0, 0, 1,  1, 0, 0, 0,  0, 0, 0, 1,  2, 0, 0, 0,  0, 0, 0, 0] ++ exFooter

/-- A fragment of `exKeyTable`: the fragment header with `TableId = 1`, followed
by `exTuples`. -/
def exFragment : List Byte :=
  [0, 0, 0, 2,  0, 0, 0, 5,  0, 0, 0, 1,  0, 0, 0, 0,  0, 0, 0, 0] ++ exTuples

/-! ## `RestoreLogIterator::getNextLogEntry` (Restore.cpp 693-806) -/

/-- `LogEntry::EntryType`. -/
inductive EntryType where
  | LE_INSERT
  | LE_UPDATE
  | LE_DELETE
  deriving DecidableEq, Repr

/-- `class LogEntry`: `m_type` is `none` while it was never assigned, `m_table`
is `none` while it is null. -/
structure LogEntry where
  m_table : Option TableS
  m_type : Option EntryType
  m_values : List AttributeS
  deriving DecidableEq, Repr

/-- `class RestoreLogIterator : public BackupFile`.  A log record is decoded in
the scratch buffer `m_buffer`; the data references of the attributes in
`m_logEntry.m_values` are byte offsets into it. -/
structure RestoreLogIterator extends BackupFile where
  m_metaData : RestoreMetaData
  m_count : Nat
  m_logEntry : LogEntry
  deriving DecidableEq, Repr

/-- Parameters of the log decoder that headers missing from the sources at hand
fix: the event codes of `trigger_definitions.h`, and the getters
`getAttributeId()` and `getDataSize()` of `AttributeHeader` as functions of the
32-bit header word. -/
structure LogEnv where
  /-- `TriggerEvent::TE_INSERT`. -/
  TE_INSERT : Nat
  /-- `TriggerEvent::TE_UPDATE`. -/
  TE_UPDATE : Nat
  /-- `TriggerEvent::TE_DELETE`. -/
  TE_DELETE : Nat
  /-- `AttributeHeader::getAttributeId()` of a header word. -/
  getAttributeId : Nat → Nat
  /-- `AttributeHeader::getDataSize()` of a header word, in 32-bit words. -/
  getDataSize : Nat → Nat

/-- Modelled from the spec: `BackupFormat::LogFile::LogEntry` is declared in
`BackupFormat.hpp`, which is not part of the sources at hand; a log record is
"a big-endian length word `len`, followed by `len` 32-bit words: word 0
`TableId`, word 1 `TriggerEvent`, word 2.. the attribute-value stream".  The
source reads the length word to `m_buffer[0]` and the record to `&m_buffer[1]`
and overlays `LogEntry` on `m_buffer`, so `TableId` is the word 1 of the
buffer. -/
def LogE.TableId : Nat := 1

/-- Modelled from the spec: word offset of `TriggerEvent` in the buffer (see
`LogE.TableId`). -/
def LogE.TriggerEvent : Nat := 2

/-- Modelled from the spec: word offset of `Data[0]` in the buffer (see
`LogE.TableId`). -/
def LogE.Data : Nat := 3

/-- Bytes delivered by `fread` are stored at byte offset `o` of the block
`buf`; `none` when they do not fit. -/
def storeAtOff (buf : Mem) (o : Nat) (got : List Byte) : Option Mem :=
  if o + got.length ≤ buf.length then
    some (buf.take o ++ got ++ buf.drop (o + got.length))
  else none

/-- The effect of `createBuffer` on the `BackupFile` part of the object. -/
def RestoreLogIterator.createBuffer (env : Env) (s : RestoreLogIterator) (bytes : Nat) :
    RestoreLogIterator :=
  { s with toBackupFile := s.toBackupFile.createBuffer env bytes }

/-- How one pass through the body of the `do ... while` loop of
`getNextLogEntry` ends: with `res = ...; return NULL;` (`stop res`), or at the
end of the body with the values that `len` and `gcp` have there. -/
inductive LogRead where
  | stop (res : Int)
  | record (len gcp : Nat)
  deriving DecidableEq, Repr

/-- The body of the `do ... while` loop of `getNextLogEntry` (Restore.cpp
713-751); `gcp` is the value of the variable `gcp`, which is declared before the
loop, when the body is entered. -/
def RestoreLogIterator.readRecord (env : Env) (gcp : Nat) (s : RestoreLogIterator) :
    Res (LogRead × RestoreLogIterator) :=
  let s := s.createBuffer env 4
  match s.m_buffer with
  | none => .ret (.stop (-1), s)
  | some buf =>
    match s.m_file with
    | none => .fault
    | some file =>
      match storeAt buf (freadData 4 1 file) with
      | none => .fault
      | some buf =>
        let s := { s with m_file := some (freadRest 4 1 file), m_buffer := some buf }
        if freadCount 4 1 file ≠ 1 then .ret (.stop (-1), s)
        else
          match rdHost env.le 4 buf 0 with
          | none => .fault
          | some w =>
            let len := ntohl env.le w
            let s := { s with m_buffer := some (wrHost env.le 4 buf 0 len) }
            if len = 0 then .ret (.stop 0, s)
            else
              let s := s.createBuffer env (u32 (4 * u32 (len + 1)))
              match s.m_buffer with
              | none => .ret (.stop (-1), s)
              | some buf =>
                let file := freadRest 4 1 file
                match storeAtOff buf 4 (freadData 4 len file) with
                | none => .fault
                | some buf =>
                  let s := { s with m_file := some (freadRest 4 len file), m_buffer := some buf }
                  if freadCount 4 len file ≠ len then .ret (.stop (-1), s)
                  else
                    match rdHost env.le 4 buf (4 * LogE.TableId),
                        rdHost env.le 4 buf (4 * LogE.TriggerEvent) with
                    | some t, some e =>
                      let buf := wrHost env.le 4 buf (4 * LogE.TableId) (ntohl env.le t)
                      let TriggerEvent := ntohl env.le e
                      let buf := wrHost env.le 4 buf (4 * LogE.TriggerEvent)
                        (TriggerEvent &&& 0xFFFF)
                      let s := { s with m_buffer := some buf }
                      if TriggerEvent &&& 0x10000 ≠ 0 then
                        let len := sub32 len 1
                        match rdHost env.le 4 buf (4 * (LogE.Data + sub32 len 2)) with
                        | none => .fault
                        | some g => .ret (.record len (ntohl env.le g), s)
                      else .ret (.record len gcp, s)
                    | _, _ => .fault

/-- The `do ... while(gcp > stopGCP + 1)` loop of `getNextLogEntry`.  Every pass
that reaches the loop condition has read at least four bytes, so a `fuel` above
the number of unread bytes is never used up. -/
def RestoreLogIterator.readLoop (env : Env) (stopGCP : Nat) :
    Nat → Nat → RestoreLogIterator → Res (LogRead × RestoreLogIterator)
  | 0, _, _ => .fault
  | fuel + 1, gcp, s =>
    match s.readRecord env gcp with
    | .abort => .abort
    | .fault => .fault
    | .ret (.stop res, s) => .ret (.stop res, s)
    | .ret (.record len gcp, s) =>
      if gcp > u32 (stopGCP + 1) then RestoreLogIterator.readLoop env stopGCP fuel gcp s
      else .ret (.record len gcp, s)

/-- The `switch(logE->TriggerEvent)` of `getNextLogEntry`; `none` is the
`default:` branch. -/
def logType (lenv : LogEnv) (e : Nat) : Option EntryType :=
  if e = lenv.TE_INSERT then some .LE_INSERT
  else if e = lenv.TE_UPDATE then some .LE_UPDATE
  else if e = lenv.TE_DELETE then some .LE_DELETE
  else none

/-- The loop `while(ah < end)` of `getNextLogEntry` (Restore.cpp 778-801); `ah`
and `end_` are word offsets into the buffer `buf`, and the result is the buffer
and `m_logEntry.m_values` afterwards.  Modelled from the spec: the data of an
`AttributeHeader` "lie immediately after the header" (`getDataPtr()` is the word
after the header) and `getNext()` is the header after these `getDataSize()`
words.  `(*tab)[i]` is `allAttributesDesc[i]`, and an access through a null
`tab` or outside the vector does not return.  Each pass moves `ah` forward, so a
`fuel` of `end_ - ah` is never used up. -/
def logAttrs (le hbo : Bool) (lenv : LogEnv) (tab : Option TableS) (end_ : Nat) :
    Nat → Nat → Mem → List AttributeS → Res (Mem × List AttributeS)
  | fuel, ah, buf, values =>
    if ¬ ah < end_ then .ret (buf, values)
    else
      match fuel with
      | 0 => .fault
      | fuel + 1 =>
        match rdHost le 4 buf (4 * ah) with
        | none => .fault
        | some w =>
          match tab with
          | none => .fault
          | some t =>
            match t.allAttributesDesc[lenv.getAttributeId w]? with
            | none => .fault
            | some d =>
              let sz := lenv.getDataSize w
              let attr : AttributeS :=
                { Desc := d
                  Data := some (if sz = 0 then { null := true, void_value := none }
                                else { null := false, void_value := some (4 * (ah + 1)) }) }
              match BackupFile.Twiddle le hbo buf attr 0 with
              | none => .fault
              | some (_, buf) =>
                logAttrs le hbo lenv tab end_ fuel (ah + 1 + sz) buf (values ++ [attr])

/-- The part of `getNextLogEntry` behind the `do ... while` loop (Restore.cpp
754-805), entered with the value `len` of the variable `len`: the log entry is
filled from the record in the buffer. -/
def RestoreLogIterator.decodeEntry (env : Env) (lenv : LogEnv) (len : Nat)
    (s : RestoreLogIterator) : Res ((Int × Option LogEntry) × RestoreLogIterator) :=
  match s.m_buffer with
  | none => .fault
  | some buf =>
    match rdHost env.le 4 buf (4 * LogE.TableId),
        rdHost env.le 4 buf (4 * LogE.TriggerEvent) with
    | some TableId, some TriggerEvent =>
      let e : LogEntry :=
        { s.m_logEntry with m_values := [], m_table := s.m_metaData.getTable TableId }
      match logType lenv TriggerEvent with
      | none => .ret ((-1, none), { s with m_logEntry := e })
      | some type =>
        let e := { e with m_type := some type }
        match logAttrs env.le s.m_hostByteOrder lenv e.m_table (LogE.Data + sub32 len 2)
            (sub32 len 2) LogE.Data buf [] with
        | .abort => .abort
        | .fault => .fault
        | .ret (buf, values) =>
          let e := { e with m_values := values }
          .ret ((0, some e),
            { s with m_buffer := some buf, m_logEntry := e, m_count := u32 (s.m_count + 1) })
    | _, _ => .fault

/-- `const LogEntry * RestoreLogIterator::getNextLogEntry(int & res)`: the
result is the value stored in `res` together with the returned pointer (`none`
for `NULL`, else the log entry `m_logEntry` it points to). -/
def RestoreLogIterator.getNextLogEntry (env : Env) (lenv : LogEnv) (s : RestoreLogIterator) :
    Res ((Int × Option LogEntry) × RestoreLogIterator) :=
  let stopGCP := s.m_metaData.getStopGCP
  let unread := match s.m_file with
    | none => 0
    | some file => file.length
  match RestoreLogIterator.readLoop env stopGCP (unread + 1) 0 s with
  | .abort => .abort
  | .fault => .fault
  | .ret (.stop res, s) => .ret ((res, none), s)
  | .ret (.record len _, s) => s.decodeEntry env lenv len

/-! ## Log records and the gcp filter

The functions below describe the gcp filter of `getNextLogEntry` on the records
of the stream, independently of the decoder.  A record is given with its length
word. -/

/-- Specification: the length word of a log record. -/
def LogRec.len (rec : List Byte) : Nat := beVal (rec.take 4)

/-- Specification: the record carries the flag `0x10000` in its `TriggerEvent`
word (the third word, counting the length word). -/
def LogRec.hasGcp (rec : List Byte) : Bool := decide (beVal (slice rec 8 4) &&& 0x10000 ≠ 0)

/-- Specification: the gcp of a record that carries one, its last big-endian
word. -/
def LogRec.gcp (rec : List Byte) : Nat := beVal (slice rec (rec.length - 4) 4)

/-- Specification: the current gcp behind the record `rec`, when it was `gcp`
before it: the gcp of the record when it carries one, and else still `gcp`. -/
def currentGcp (gcp : Nat) (rec : List Byte) : Nat :=
  if LogRec.hasGcp rec then LogRec.gcp rec else gcp

/-- Specification: the current gcp behind the records `recs`. -/
def gcpAfter : Nat → List (List Byte) → Nat
  | gcp, [] => gcp
  | gcp, rec :: recs => gcpAfter (currentGcp gcp rec) recs

/-- A complete log record: as many words as its length word says, among them
`TableId` and `TriggerEvent`, and a gcp word when it carries the flag; its
length is far from the range in which the `Uint32` buffer sizes wrap. -/
def LogRec.WF (rec : List Byte) : Prop :=
  rec.length = 4 + 4 * LogRec.len rec ∧ 2 ≤ LogRec.len rec ∧ LogRec.len rec < 2 ^ 27 ∧
    (LogRec.hasGcp rec = true → 3 ≤ LogRec.len rec)

/-- Specification: every record of `recs` is complete and is dropped by the
filter, the current gcp behind it being above `stopGCP + 1`. -/
def allSkipped (stopGCP : Nat) : Nat → List (List Byte) → Prop
  | _, [] => True
  | gcp, rec :: recs =>
    LogRec.WF rec ∧ currentGcp gcp rec > stopGCP + 1 ∧
      allSkipped stopGCP (currentGcp gcp rec) recs

/-- Specification: the stream that holds the records `recs` one after the
other, followed by `tail`. -/
def logStream (recs : List (List Byte)) (tail : List Byte) : List Byte :=
  recs.foldr (fun rec acc => rec ++ acc) tail

/-- The scratch buffer is as `createBuffer` keeps it when `malloc` succeeds: a
block of `m_bufferSize` bytes, or no block and `m_bufferSize = 0`; the size is
below `2 ^ 31`. -/
def BufOK (s : BackupFile) : Prop :=
  s.m_bufferSize < 2 ^ 31 ∧
    match s.m_buffer with
    | none => s.m_bufferSize = 0
    | some buf => buf.length = s.m_bufferSize

/-! ## Worked examples for the log file -/

/-- The log environment of the worked examples: the event codes 0, 2 and 1, and
an attribute header word that holds the attribute id in its upper and the data
size in its lower 16 bits. -/
def exLogEnv : LogEnv :=
  { TE_INSERT := 0
    TE_UPDATE := 2
    TE_DELETE := 1
    getAttributeId := fun w => w >>> 16
    getDataSize := fun w => w &&& 0xFFFF }

/-- A log iterator as its constructor leaves it, for a metadata that holds the
table built from `tableImpl` and the given `stopGCP`, reading the unread content
`file` with the byte-order flag `hbo`. -/
def exLogIter (tableImpl : NdbTableImpl) (hbo : Bool) (stopGCP : Nat) (file : List Byte) :
    RestoreLogIterator :=
  { toBackupFile :=
      { BackupFile.fresh 2 with m_file := some file, m_hostByteOrder := hbo }
    m_metaData :=
      { exMeta [] none 0 with
        allTables := [(TableS.new tableImpl).setBackupVersion 1]
        m_stopGCP := stopGCP }
    m_count := 0
    m_logEntry := { m_table := none, m_type := none, m_values := [] } }

/-- A log with two records of table 1 and the end word: an insert that carries
the gcp 150, and an update that carries no gcp. -/
def exLogStale : List Byte :=
  [0, 0, 0, 3,  0, 0, 0, 1,  0, 1, 0, 0,  0, 0, 0, 150,
   0, 0, 0, 2,  0, 0, 0, 1,  0, 0, 0, 2,
   0, 0, 0, 0]

/-- A log with one record of table 1 and the end word: an insert that carries
the gcp 5. -/
def exLogGcp5 : List Byte :=
  [0, 0, 0, 3,  0, 0, 0, 1,  0, 1, 0, 0,  0, 0, 0, 5,
   0, 0, 0, 0]

/-- A log with one record of table 1 and the end word: an insert with one
attribute header, for attribute 0 with data size 0. -/
def exLogNull : List Byte :=
  [0, 0, 0, 3,  0, 0, 0, 1,  0, 0, 0, 0,  0, 0, 0, 0,
   0, 0, 0, 0]

/-- A log with one record of table 5 and the end word: an insert with one
attribute header, for attribute 0 with data size 1, and its data word
(little-endian host). -/
def exLogWide : List Byte :=
  [0, 0, 0, 4,  0, 0, 0, 5,  0, 0, 0, 0,  1, 0, 0, 0,  1, 2, 3, 4,
   0, 0, 0, 0]

/-- The state a call ended in, if it returned. -/
def Res.state {α σ : Type} : Res (α × σ) → Option σ
  | .ret (_, s) => some s
  | _ => none

/-- The log entry decoded from the record of `exLogGcp5`: an insert into
table 1 without attribute values. -/
def exLogGcp5Entry : LogEntry :=
  { m_table := some ((TableS.new exKeyTable).setBackupVersion 1)
    m_type := some .LE_INSERT
    m_values := [] }

/-- The log iterator after it has returned the record of `exLogGcp5` with
`stopGCP = 100`. -/
def exLogGcp5After : RestoreLogIterator :=
  { exLogIter exKeyTable true 100 [0, 0, 0, 0] with
    m_buffer := some ([0, 0, 0, 0,  1, 0, 0, 0,  0, 0, 0, 0,  0, 0, 0, 5] ++ List.replicate 24 0)
    m_bufferSize := 40
    m_count := 1
    m_logEntry := exLogGcp5Entry }

/-- An insert into table 1 that carries the gcp 150. -/
def exRecGcp150 : List Byte := [0, 0, 0, 3,  0, 0, 0, 1,  0, 1, 0, 0,  0, 0, 0, 150]

/-- An update of table 1 that carries no gcp. -/
def exRecNoGcp : List Byte := [0, 0, 0, 2,  0, 0, 0, 1,  0, 0, 0, 2]

/-- A delete from table 1 that carries the gcp 101. -/
def exRecGcp101 : List Byte := [0, 0, 0, 3,  0, 0, 0, 1,  0, 1, 0, 1,  0, 0, 0, 101]

/-! ## Worked examples for the scratch buffer -/

/-- A reader whose scratch buffer is a block of `c` bytes. -/
def exBuf (c : Nat) : BackupFile :=
  { BackupFile.fresh 2 with m_buffer := some (List.replicate c 0), m_bufferSize := c }

/-! ## Bit-level description of the three swaps -/

theorem testBit_byteMask (s i : Nat) :
    (byteMask s).testBit i = (decide (s ≤ i) && decide (i < s + 8)) := by
  unfold byteMask
  rw [Nat.testBit_shiftLeft, Nat.testBit_two_pow_sub_one]
  by_cases h1 : s ≤ i <;> by_cases h2 : i < s + 8 <;> simp [h1, h2] <;> omega

theorem testBit_and_byteMask (x s i : Nat) :
    (x &&& byteMask s).testBit i = if s ≤ i ∧ i < s + 8 then x.testBit i else false := by
  rw [Nat.testBit_and, testBit_byteMask]
  by_cases h1 : s ≤ i <;> by_cases h2 : i < s + 8 <;> simp [h1, h2]

theorem testBit_maskShl (x s k i : Nat) :
    ((x &&& byteMask s) <<< k).testBit i =
      if s + k ≤ i ∧ i < s + k + 8 then x.testBit (i - k) else false := by
  rw [Nat.testBit_shiftLeft, testBit_and_byteMask]
  by_cases h : k ≤ i
  · simp only [ge_iff_le, h, decide_True, Bool.true_and]
    split_ifs <;> first | rfl | omega
  · simp only [ge_iff_le, h, decide_False, Bool.false_and]
    split_ifs <;> first | rfl | omega

theorem testBit_maskShr (x s k i : Nat) :
    ((x &&& byteMask s) >>> k).testBit i =
      if s ≤ i + k ∧ i + k < s + 8 then x.testBit (i + k) else false := by
  rw [Nat.testBit_shiftRight, testBit_and_byteMask, Nat.add_comm k i]

theorem Twiddle16_testBit (x i : Nat) :
    (Twiddle16 x).testBit i =
      if i < 8 then x.testBit (i + 8) else if i < 16 then x.testBit (i - 8) else false := by
  have e1 : (0xFF00 : Nat) = byteMask 8 := by decide
  have e2 : (0x00FF : Nat) = byteMask 0 := by decide
  unfold Twiddle16
  rw [e1, e2]
  simp only [Nat.testBit_or, testBit_maskShl, testBit_maskShr]
  clear e1 e2
  split_ifs <;> first | omega | rfl | simp

theorem Twiddle32_testBit (x i : Nat) :
    (Twiddle32 x).testBit i =
      if i < 8 then x.testBit (i + 24) else if i < 16 then x.testBit (i + 8)
      else if i < 24 then x.testBit (i - 8) else if i < 32 then x.testBit (i - 24) else false := by
  have e1 : (0x000000FF : Nat) = byteMask 0 := by decide
  have e2 : (0x0000FF00 : Nat) = byteMask 8 := by decide
  have e3 : (0x00FF0000 : Nat) = byteMask 16 := by decide
  have e4 : (0xFF000000 : Nat) = byteMask 24 := by decide
  unfold Twiddle32
  rw [e1, e2, e3, e4]
  simp only [Nat.testBit_or, testBit_maskShl, testBit_maskShr]
  clear e1 e2 e3 e4
  split_ifs <;> first | omega | rfl | simp

theorem Twiddle64_testBit (x i : Nat) :
    (Twiddle64 x).testBit i =
      if i < 8 then x.testBit (i + 56) else if i < 16 then x.testBit (i + 40)
      else if i < 24 then x.testBit (i + 24) else if i < 32 then x.testBit (i + 8)
      else if i < 40 then x.testBit (i - 8) else if i < 48 then x.testBit (i - 24)
      else if i < 56 then x.testBit (i - 40) else if i < 64 then x.testBit (i - 56)
      else false := by
  have e1 : (0x00000000000000FF : Nat) = byteMask 0 := by norm_num [byteMask]
  have e2 : (0x000000000000FF00 : Nat) = byteMask 8 := by norm_num [byteMask, Nat.shiftLeft_eq]
  have e3 : (0x0000000000FF0000 : Nat) = byteMask 16 := by norm_num [byteMask, Nat.shiftLeft_eq]
  have e4 : (0x00000000FF000000 : Nat) = byteMask 24 := by norm_num [byteMask, Nat.shiftLeft_eq]
  have e5 : (0x000000FF00000000 : Nat) = byteMask 32 := by norm_num [byteMask, Nat.shiftLeft_eq]
  have e6 : (0x0000FF0000000000 : Nat) = byteMask 40 := by norm_num [byteMask, Nat.shiftLeft_eq]
  have e7 : (0x00FF000000000000 : Nat) = byteMask 48 := by norm_num [byteMask, Nat.shiftLeft_eq]
  have e8 : (0xFF00000000000000 : Nat) = byteMask 56 := by norm_num [byteMask, Nat.shiftLeft_eq]
  unfold Twiddle64
  rw [e1, e2, e3, e4, e5, e6, e7, e8]
  simp only [Nat.testBit_or, testBit_maskShl, testBit_maskShr]
  clear e1 e2 e3 e4 e5 e6 e7 e8
  rcases Nat.lt_or_ge i 8 with h | h
  · simp (disch := omega) only [if_pos, if_neg]; simp
  rcases Nat.lt_or_ge i 16 with h | h
  · simp (disch := omega) only [if_pos, if_neg]; simp
  rcases Nat.lt_or_ge i 24 with h | h
  · simp (disch := omega) only [if_pos, if_neg]; simp
  rcases Nat.lt_or_ge i 32 with h | h
  · simp (disch := omega) only [if_pos, if_neg]; simp
  rcases Nat.lt_or_ge i 40 with h | h
  · simp (disch := omega) only [if_pos, if_neg]; simp
  rcases Nat.lt_or_ge i 48 with h | h
  · simp (disch := omega) only [if_pos, if_neg]; simp
  rcases Nat.lt_or_ge i 56 with h | h
  · simp (disch := omega) only [if_pos, if_neg]; simp
  rcases Nat.lt_or_ge i 64 with h | h
  · simp (disch := omega) only [if_pos, if_neg]; simp
  · simp (disch := omega) only [if_pos, if_neg]; simp

/-- Two numbers whose bits agree on an aligned group of eight have the same
byte there. -/
theorem byte_eq_of_testBit (y x s t : Nat)
    (h : ∀ j, j < 8 → y.testBit (s + j) = x.testBit (t + j)) :
    y / 2 ^ s % 256 = x / 2 ^ t % 256 := by
  apply Nat.eq_of_testBit_eq
  intro j
  have e : (256 : Nat) = 2 ^ 8 := by norm_num
  rw [e, Nat.testBit_mod_two_pow, Nat.testBit_mod_two_pow, ← Nat.shiftRight_eq_div_pow,
    ← Nat.shiftRight_eq_div_pow, Nat.testBit_shiftRight, Nat.testBit_shiftRight]
  by_cases hj : j < 8
  · simp [hj, h j hj]
  · simp [hj]

theorem Twiddle16_lt (x : Nat) : Twiddle16 x < 2 ^ 16 := by
  apply Nat.lt_pow_two_of_testBit
  intro i hi
  rw [Twiddle16_testBit]
  simp (disch := omega) only [if_neg]

theorem Twiddle32_lt (x : Nat) : Twiddle32 x < 2 ^ 32 := by
  apply Nat.lt_pow_two_of_testBit
  intro i hi
  rw [Twiddle32_testBit]
  simp (disch := omega) only [if_neg]

theorem Twiddle64_lt (x : Nat) : Twiddle64 x < 2 ^ 64 := by
  apply Nat.lt_pow_two_of_testBit
  intro i hi
  rw [Twiddle64_testBit]
  simp (disch := omega) only [if_neg]

theorem Twiddle16_byte (x : Nat) :
    Twiddle16 x % 256 = x / 256 % 256 ∧
    Twiddle16 x / 256 % 256 = x % 256 := by
  have key : ∀ s t, s + t = 8 → s % 8 = 0 →
      Twiddle16 x / 2 ^ s % 256 = x / 2 ^ t % 256 := by
    intro s t h1 h2
    apply byte_eq_of_testBit
    intro j hj
    rw [Twiddle16_testBit]
    split_ifs <;> first | omega | (congr 1; omega)
  have k0 := key 0 8 (by norm_num) (by norm_num)
  have k1 := key 8 0 (by norm_num) (by norm_num)
  norm_num at k0 k1
  exact ⟨k0, k1⟩

theorem Twiddle32_byte (x : Nat) :
    Twiddle32 x % 256 = x / 16777216 % 256 ∧
    Twiddle32 x / 256 % 256 = x / 65536 % 256 ∧
    Twiddle32 x / 65536 % 256 = x / 256 % 256 ∧
    Twiddle32 x / 16777216 % 256 = x % 256 := by
  have key : ∀ s t, s + t = 24 → s % 8 = 0 →
      Twiddle32 x / 2 ^ s % 256 = x / 2 ^ t % 256 := by
    intro s t h1 h2
    apply byte_eq_of_testBit
    intro j hj
    rw [Twiddle32_testBit]
    split_ifs <;> first | omega | (congr 1; omega)
  have k0 := key 0 24 (by norm_num) (by norm_num)
  have k1 := key 8 16 (by norm_num) (by norm_num)
  have k2 := key 16 8 (by norm_num) (by norm_num)
  have k3 := key 24 0 (by norm_num) (by norm_num)
  norm_num at k0 k1 k2 k3
  exact ⟨k0, k1, k2, k3⟩

theorem Twiddle64_byte (x : Nat) :
    Twiddle64 x % 256 = x / 72057594037927936 % 256 ∧
    Twiddle64 x / 256 % 256 = x / 281474976710656 % 256 ∧
    Twiddle64 x / 65536 % 256 = x / 1099511627776 % 256 ∧
    Twiddle64 x / 16777216 % 256 = x / 4294967296 % 256 ∧
    Twiddle64 x / 4294967296 % 256 = x / 16777216 % 256 ∧
    Twiddle64 x / 1099511627776 % 256 = x / 65536 % 256 ∧
    Twiddle64 x / 281474976710656 % 256 = x / 256 % 256 ∧
    Twiddle64 x / 72057594037927936 % 256 = x % 256 := by
  have key : ∀ s t, s + t = 56 → s % 8 = 0 →
      Twiddle64 x / 2 ^ s % 256 = x / 2 ^ t % 256 := by
    intro s t h1 h2
    apply byte_eq_of_testBit
    intro j hj
    rw [Twiddle64_testBit]
    split_ifs <;> first | omega | (congr 1; omega)
  have k0 := key 0 56 (by norm_num) (by norm_num)
  have k1 := key 8 48 (by norm_num) (by norm_num)
  have k2 := key 16 40 (by norm_num) (by norm_num)
  have k3 := key 24 32 (by norm_num) (by norm_num)
  have k4 := key 32 24 (by norm_num) (by norm_num)
  have k5 := key 40 16 (by norm_num) (by norm_num)
  have k6 := key 48 8 (by norm_num) (by norm_num)
  have k7 := key 56 0 (by norm_num) (by norm_num)
  norm_num at k0 k1 k2 k3 k4 k5 k6 k7
  exact ⟨k0, k1, k2, k3, k4, k5, k6, k7⟩

/-! ## Byte sequences and numbers -/

theorem leBytes_length (k x : Nat) : (leBytes k x).length = k := by
  induction k generalizing x with
  | zero => rfl
  | succ k ih => simp [leBytes, ih]

theorem leVal_lt (bs : List Byte) : leVal bs < 256 ^ bs.length := by
  induction bs with
  | nil => simp [leVal]
  | cons b bs ih =>
    have hb := b.isLt
    simp only [leVal, List.length_cons, pow_succ]
    omega

theorem leBytes_leVal (bs : List Byte) : leBytes bs.length (leVal bs) = bs := by
  induction bs with
  | nil => rfl
  | cons b bs ih =>
    have hb := b.isLt
    have h1 : (b.val + 256 * leVal bs) % 256 = b.val := by omega
    have h2 : (b.val + 256 * leVal bs) / 256 = leVal bs := by omega
    simp only [List.length_cons, leBytes, leVal, h2, ih, List.cons.injEq, and_true]
    exact Fin.ext h1

theorem leVal_leBytes (k x : Nat) : leVal (leBytes k x) = x % 256 ^ k := by
  induction k generalizing x with
  | zero => simp [leBytes, leVal, Nat.mod_one]
  | succ k ih =>
    simp only [leBytes, leVal, ih, pow_succ]
    rw [Nat.mul_comm (256 ^ k) 256, Nat.mod_mul]

theorem Twiddle16_arith (a b : Nat) (ha : a < 256) (hb : b < 256) :
    Twiddle16 (a + 256 * b) = b + 256 * a := by
  have hl := Twiddle16_lt (a + 256 * b)
  norm_num at hl
  obtain ⟨h0, h1⟩ := Twiddle16_byte (a + 256 * b)
  have x0 : (a + 256 * b) % 256 = a := by omega
  have x1 : (a + 256 * b) / 256 % 256 = b := by omega
  rw [x1] at h0
  rw [x0] at h1
  generalize Twiddle16 (a + 256 * b) = y at hl h0 h1 ⊢
  omega

theorem eq_of_bytes4 (y a b c d : Nat) (h0 : y % 256 = a) (h1 : y / 256 % 256 = b)
    (h2 : y / 65536 % 256 = c) (h3 : y / 16777216 % 256 = d) (hl : y < 4294967296) :
    y = a + 256 * (b + 256 * (c + 256 * d)) := by
  omega

theorem eq_of_bytes8 (y a b c d e f g h : Nat) (h0 : y % 256 = a) (h1 : y / 256 % 256 = b)
    (h2 : y / 65536 % 256 = c) (h3 : y / 16777216 % 256 = d)
    (h4 : y / 4294967296 % 256 = e) (h5 : y / 1099511627776 % 256 = f)
    (h6 : y / 281474976710656 % 256 = g) (h7 : y / 72057594037927936 % 256 = h)
    (hl : y < 18446744073709551616) :
    y = a + 256 * (b + 256 * (c + 256 * (d + 256 * (e + 256 * (f + 256 * (g + 256 * h)))))) := by
  omega

theorem bytes4_of_eq (X a b c d : Nat) (ha : a < 256) (hb : b < 256) (hc : c < 256)
    (hX : a + 256 * (b + 256 * (c + 256 * d)) = X) :
    X % 256 = a ∧ X / 256 % 256 = b ∧ X / 65536 % 256 = c ∧ X / 16777216 = d := by
  refine ⟨?_, ?_, ?_, ?_⟩ <;> omega

theorem bytes8_of_eq (X a b c d e f g h : Nat) (ha : a < 256) (hb : b < 256) (hc : c < 256)
    (hd : d < 256) (he : e < 256) (hf : f < 256) (hg : g < 256)
    (hX : a + 256 * (b + 256 * (c + 256 * (d + 256 * (e + 256 * (f + 256 * (g + 256 * h))))))
      = X) :
    X % 256 = a ∧ X / 256 % 256 = b ∧ X / 65536 % 256 = c ∧ X / 16777216 % 256 = d ∧
    X / 4294967296 % 256 = e ∧ X / 1099511627776 % 256 = f ∧
    X / 281474976710656 % 256 = g ∧ X / 72057594037927936 = h := by
  refine ⟨?_, ?_, ?_, ?_, ?_, ?_, ?_, ?_⟩ <;> omega

theorem Twiddle32_arith (a b c d : Nat) (ha : a < 256) (hb : b < 256) (hc : c < 256)
    (hd : d < 256) :
    Twiddle32 (a + 256 * (b + 256 * (c + 256 * d))) = d + 256 * (c + 256 * (b + 256 * a)) := by
  obtain ⟨x0, x1, x2, x3⟩ := bytes4_of_eq _ a b c d ha hb hc rfl
  have hl := Twiddle32_lt (a + 256 * (b + 256 * (c + 256 * d)))
  obtain ⟨h0, h1, h2, h3⟩ := Twiddle32_byte (a + 256 * (b + 256 * (c + 256 * d)))
  rw [x3, Nat.mod_eq_of_lt hd] at h0
  rw [x2] at h1
  rw [x1] at h2
  rw [x0] at h3
  exact eq_of_bytes4 _ d c b a h0 h1 h2 h3 (by norm_num at hl; exact hl)

theorem Twiddle64_arith (a b c d e f g h : Nat) (ha : a < 256) (hb : b < 256) (hc : c < 256)
    (hd : d < 256) (he : e < 256) (hf : f < 256) (hg : g < 256) (hh : h < 256) :
    Twiddle64 (a + 256 * (b + 256 * (c + 256 * (d + 256 * (e + 256 * (f + 256 * (g + 256 * h)))))))
      = h + 256 * (g + 256 * (f + 256 * (e + 256 * (d + 256 * (c + 256 * (b + 256 * a)))))) := by
  obtain ⟨x0, x1, x2, x3, x4, x5, x6, x7⟩ := bytes8_of_eq _ a b c d e f g h ha hb hc hd he hf hg rfl
  have hl := Twiddle64_lt
    (a + 256 * (b + 256 * (c + 256 * (d + 256 * (e + 256 * (f + 256 * (g + 256 * h)))))))
  obtain ⟨h0, h1, h2, h3, h4, h5, h6, h7⟩ := Twiddle64_byte
    (a + 256 * (b + 256 * (c + 256 * (d + 256 * (e + 256 * (f + 256 * (g + 256 * h)))))))
  rw [x7, Nat.mod_eq_of_lt hh] at h0
  rw [x6] at h1
  rw [x5] at h2
  rw [x4] at h3
  rw [x3] at h4
  rw [x2] at h5
  rw [x1] at h6
  rw [x0] at h7
  exact eq_of_bytes8 _ h g f e d c b a h0 h1 h2 h3 h4 h5 h6 h7 (by norm_num at hl; exact hl)

theorem Twiddle16_leVal (bs : List Byte) (h : bs.length = 2) :
    Twiddle16 (leVal bs) = leVal bs.reverse := by
  match bs, h with
  | [a, b], _ =>
    have e := Twiddle16_arith a.val b.val a.isLt b.isLt
    simpa [leVal] using e

theorem Twiddle32_leVal (bs : List Byte) (h : bs.length = 4) :
    Twiddle32 (leVal bs) = leVal bs.reverse := by
  match bs, h with
  | [a, b, c, d], _ =>
    have e := Twiddle32_arith a.val b.val c.val d.val a.isLt b.isLt c.isLt d.isLt
    simpa [leVal] using e

theorem Twiddle64_leVal (bs : List Byte) (h : bs.length = 8) :
    Twiddle64 (leVal bs) = leVal bs.reverse := by
  match bs, h with
  | [a, b, c, d, e, f, g, h], _ =>
    have e := Twiddle64_arith a.val b.val c.val d.val e.val f.val g.val h.val
      a.isLt b.isLt c.isLt d.isLt e.isLt f.isLt g.isLt h.isLt
    simpa [leVal] using e

/-! ## Memory blocks -/

theorem slice_length (m : Mem) (o k : Nat) (h : o + k ≤ m.length) :
    (slice m o k).length = k := by
  simp only [slice, List.length_take, List.length_drop]
  omega

theorem slice_getElem? (m : Mem) (o k i : Nat) :
    (slice m o k)[i]? = if i < k then m[o + i]? else none := by
  simp only [slice, List.getElem?_take, List.getElem?_drop]

theorem hostBytes_length (le : Bool) (k x : Nat) : (hostBytes le k x).length = k := by
  cases le <;> simp [hostBytes, leBytes_length]

theorem hostBytes_swap (le : Bool) (k : Nat) (f : Nat → Nat) (hf : SwapsBytes k f)
    (bs : List Byte) (h : bs.length = k) :
    hostBytes le k (f (hostVal le bs)) = bs.reverse := by
  cases le
  · have h' : bs.reverse.length = k := by simpa using h
    have e := hf bs.reverse h'
    simp only [List.reverse_reverse] at e
    simp only [hostBytes, hostVal, beVal, Bool.false_eq_true, if_false, e]
    rw [← h, leBytes_leVal]
  · have e := hf bs h
    simp only [hostBytes, hostVal, if_true, e]
    have h' : bs.reverse.length = k := by simpa using h
    rw [← h', leBytes_leVal]

theorem revChunk_length (k o : Nat) (m : Mem) (h : o + k ≤ m.length) :
    (revChunk k o m).length = m.length := by
  simp only [revChunk, List.length_append, List.length_take, List.length_reverse,
    List.length_drop, slice]
  omega

theorem revChunk_getElem? (k o : Nat) (m : Mem) (h : o + k ≤ m.length) (j : Nat) :
    (revChunk k o m)[j]? = if o ≤ j ∧ j < o + k then m[o + (o + k - 1 - j)]? else m[j]? := by
  have hs := slice_length m o k h
  unfold revChunk
  rcases Nat.lt_or_ge j o with h1 | h1
  · rw [List.append_assoc, List.getElem?_append_left (by simp; omega)]
    rw [if_neg (by omega), List.getElem?_take_of_lt h1]
  rcases Nat.lt_or_ge j (o + k) with h2 | h2
  · rw [List.getElem?_append_left (by simp [hs]; omega),
      List.getElem?_append_right (by simp; omega)]
    rw [if_pos ⟨h1, h2⟩]
    have hl : (List.take o m).length = o := by simp; omega
    rw [hl, List.getElem?_reverse (by rw [hs]; omega), hs, slice_getElem?,
      if_pos (by omega)]
    congr 1
    omega
  · rw [List.getElem?_append_right (by simp [hs]; omega)]
    rw [if_neg (by omega)]
    simp only [List.length_append, List.length_take, List.length_reverse, hs,
      List.getElem?_drop]
    congr 1
    omega

theorem twiddleStep_eq (le : Bool) (k : Nat) (f : Nat → Nat) (hf : SwapsBytes k f)
    (o : Nat) (m : Mem) (i : Nat) (h : o + k * i + k ≤ m.length) :
    twiddleStep le k f (some o) m i = some (revChunk k (o + k * i) m) := by
  simp only [twiddleStep, rdHost, if_pos h, wrHost, revChunk]
  rw [hostBytes_swap le k f hf _ (slice_length m _ k h)]

theorem twiddleLoop_succ (le : Bool) (k : Nat) (f : Nat → Nat) (p : Option Nat) (n : Nat)
    (m : Mem) :
    twiddleLoop le k f p (n + 1) m =
      (twiddleLoop le k f p n m).bind (fun m' => twiddleStep le k f p m' n) := by
  simp [twiddleLoop, List.range_succ, List.foldlM_append]

theorem revElems_succ (k p n : Nat) (m : Mem) :
    revElems k p (n + 1) m = revChunk k (p + k * n) (revElems k p n m) := by
  simp [revElems, List.range_succ, List.foldl_append]

theorem revElems_length (k p n : Nat) (m : Mem) (h : p + k * n ≤ m.length) :
    (revElems k p n m).length = m.length := by
  induction n with
  | zero => simp [revElems]
  | succ n ih =>
    have h1 : p + k * n + k ≤ m.length := by rw [Nat.mul_succ] at h; omega
    rw [revElems_succ, revChunk_length _ _ _ (by rw [ih (by omega)]; exact h1), ih (by omega)]

theorem twiddleLoop_eq (le : Bool) (k : Nat) (f : Nat → Nat) (hf : SwapsBytes k f)
    (o n : Nat) (m : Mem) (h : o + k * n ≤ m.length) :
    twiddleLoop le k f (some o) n m = some (revElems k o n m) := by
  induction n with
  | zero => simp [twiddleLoop, revElems]
  | succ n ih =>
    have h1 : o + k * n + k ≤ m.length := by rw [Nat.mul_succ] at h; omega
    rw [twiddleLoop_succ, ih (by omega), revElems_succ]
    simp only [Option.some_bind]
    exact twiddleStep_eq le k f hf o _ n (by rw [revElems_length _ _ _ _ (by omega)]; exact h1)

theorem revElems_getElem?_out (k p n : Nat) (m : Mem) (h : p + k * n ≤ m.length) (j : Nat)
    (hj : j < p ∨ p + k * n ≤ j) : (revElems k p n m)[j]? = m[j]? := by
  induction n with
  | zero => simp [revElems]
  | succ n ih =>
    have h1 : p + k * n + k ≤ m.length := by rw [Nat.mul_succ] at h; omega
    have hj' : j < p ∨ p + k * n + k ≤ j := by rw [Nat.mul_succ] at hj; omega
    rw [revElems_succ, revChunk_getElem? _ _ _ (by rw [revElems_length _ _ _ _ (by omega)]; exact h1),
      if_neg (by omega)]
    exact ih (by omega) (by omega)

theorem revElems_getElem?_in (k p n : Nat) (m : Mem) (h : p + k * n ≤ m.length) (i t : Nat)
    (hi : i < n) (ht : t < k) :
    (revElems k p n m)[p + k * i + t]? = m[p + k * i + (k - 1 - t)]? := by
  induction n with
  | zero => omega
  | succ n ih =>
    have h1 : p + k * n + k ≤ m.length := by rw [Nat.mul_succ] at h; omega
    rw [revElems_succ, revChunk_getElem? _ _ _ (by rw [revElems_length _ _ _ _ (by omega)]; exact h1)]
    rcases Nat.lt_or_ge i n with h2 | h2
    · have h3 : k * i + k ≤ k * n := by
        have := Nat.mul_le_mul_left k (Nat.succ_le_of_lt h2)
        rwa [Nat.mul_succ] at this
      rw [if_neg (by omega)]
      exact ih (by omega) h2
    · have e : i = n := by omega
      subst e
      rw [if_pos (by omega), revElems_getElem?_out _ _ _ _ (by omega) _ (by omega)]
      congr 1
      omega

theorem revElems_slice_in (k p n : Nat) (m : Mem) (h : p + k * n ≤ m.length) (i : Nat)
    (hi : i < n) :
    slice (revElems k p n m) (p + k * i) k = (slice m (p + k * i) k).reverse := by
  have h3 : k * i + k ≤ k * n := by
    have := Nat.mul_le_mul_left k (Nat.succ_le_of_lt hi)
    rwa [Nat.mul_succ] at this
  have hs := slice_length m (p + k * i) k (by omega)
  apply List.ext_getElem?
  intro t
  rw [slice_getElem?]
  rcases Nat.lt_or_ge t k with ht | ht
  · rw [if_pos ht, revElems_getElem?_in _ _ _ _ h _ _ hi ht,
      List.getElem?_reverse (by rw [hs]; exact ht), hs, slice_getElem?, if_pos (by omega)]
  · rw [if_neg (by omega), List.getElem?_eq_none (by simp [hs]; omega)]

theorem revElems_slice_out (k p n : Nat) (m : Mem) (h : p + k * n ≤ m.length) (o l : Nat)
    (ho : o + l ≤ p ∨ p + k * n ≤ o) :
    slice (revElems k p n m) o l = slice m o l := by
  apply List.ext_getElem?
  intro t
  rw [slice_getElem?, slice_getElem?]
  split_ifs with ht
  · exact revElems_getElem?_out _ _ _ _ h _ (by omega)
  · rfl

theorem revElems_revElems (k p n : Nat) (m : Mem) (h : p + k * n ≤ m.length) :
    revElems k p n (revElems k p n m) = m := by
  have hl := revElems_length k p n m h
  apply List.ext_getElem?
  intro j
  by_cases hj : j < p ∨ p + k * n ≤ j
  · rw [revElems_getElem?_out _ _ _ _ (by rw [hl]; exact h) _ hj,
      revElems_getElem?_out _ _ _ _ h _ hj]
  · have hk : 0 < k := by
      rcases Nat.eq_zero_or_pos k with h0 | h0
      · subst h0; simp at hj; omega
      · exact h0
    have hd := Nat.div_add_mod (j - p) k
    have hm := Nat.mod_lt (j - p) hk
    have hi : (j - p) / k < n := by
      apply Nat.div_lt_of_lt_mul
      omega
    have e : j = p + k * ((j - p) / k) + (j - p) % k := by omega
    rw [e, revElems_getElem?_in _ _ _ _ (by rw [hl]; exact h) _ _ hi hm,
      revElems_getElem?_in _ _ _ _ h _ _ hi (by omega)]
    congr 1
    omega

theorem twiddleStep_some (le : Bool) (k : Nat) (f : Nat → Nat) (p : Option Nat) (m m' : Mem)
    (i : Nat) (h : twiddleStep le k f p m i = some m') :
    ∃ o, p = some o ∧ o + k * i + k ≤ m.length ∧ m'.length = m.length := by
  cases p with
  | none => simp [twiddleStep] at h
  | some o =>
    by_cases hb : o + k * i + k ≤ m.length
    · refine ⟨o, rfl, hb, ?_⟩
      simp only [twiddleStep, rdHost, if_pos hb, Option.some.injEq] at h
      subst h
      simp only [wrHost, List.length_append, List.length_take, hostBytes_length,
        List.length_drop]
      omega
    · simp [twiddleStep, rdHost, if_neg hb] at h

theorem twiddleLoop_some (le : Bool) (k : Nat) (f : Nat → Nat) (p : Option Nat) (n : Nat)
    (m m' : Mem) (h : twiddleLoop le k f p n m = some m') :
    m'.length = m.length ∧ (n = 0 ∨ ∃ o, p = some o ∧ o + k * n ≤ m.length) := by
  induction n generalizing m' with
  | zero =>
    simp only [twiddleLoop, List.range_zero, List.foldlM_nil, pure, Option.some.injEq] at h
    subst h
    exact ⟨rfl, Or.inl rfl⟩
  | succ n ih =>
    rw [twiddleLoop_succ] at h
    cases h1 : twiddleLoop le k f p n m with
    | none => simp [h1] at h
    | some m1 =>
      rw [h1, Option.some_bind] at h
      obtain ⟨hl, _⟩ := ih m1 h1
      obtain ⟨o, ho, hb, hl'⟩ := twiddleStep_some le k f p m1 m' n h
      refine ⟨by omega, Or.inr ⟨o, ho, ?_⟩⟩
      rw [Nat.mul_succ]
      omega

theorem twiddleLoop_zero (le : Bool) (k : Nat) (f : Nat → Nat) (p : Option Nat) (m : Mem) :
    twiddleLoop le k f p 0 m = some m := by
  simp [twiddleLoop]

theorem swaps16 : SwapsBytes 2 Twiddle16 := Twiddle16_leVal
theorem swaps32 : SwapsBytes 4 Twiddle32 := Twiddle32_leVal
theorem swaps64 : SwapsBytes 8 Twiddle64 := Twiddle64_leVal

/-- A successful swap loop can be undone by running it again. -/
theorem twiddleLoop_twice (le : Bool) (k : Nat) (f : Nat → Nat) (hf : SwapsBytes k f)
    (p : Option Nat) (n : Nat) (m m1 : Mem) (h : twiddleLoop le k f p n m = some m1) :
    twiddleLoop le k f p n m1 = some m := by
  obtain ⟨hl, hc⟩ := twiddleLoop_some le k f p n m m1 h
  rcases hc with h0 | ⟨o, ho, hb⟩
  · subst h0
    rw [twiddleLoop_zero] at h ⊢
    simp only [Option.some.injEq] at h
    rw [h]
  · subst ho
    rw [twiddleLoop_eq le k f hf o n m hb] at h
    simp only [Option.some.injEq] at h
    subst h
    rw [twiddleLoop_eq le k f hf o n _ (by rw [hl]; exact hb), revElems_revElems _ _ _ _ hb]

theorem swap_twice (k : Nat) (f : Nat → Nat) (hf : SwapsBytes k f) (x : Nat)
    (hx : x < 256 ^ k) : f (f x) = x := by
  have e : leVal (leBytes k x) = x := by rw [leVal_leBytes, Nat.mod_eq_of_lt hx]
  have h1 := hf (leBytes k x) (leBytes_length k x)
  have h2 := hf (leBytes k x).reverse (by simp [leBytes_length])
  rw [List.reverse_reverse] at h2
  rw [e] at h1 h2
  rw [h1, h2]

/-! ## Properties of `Twiddle` -/

theorem swapOf_swaps (k : Nat) (hk : k = 2 ∨ k = 4 ∨ k = 8) : SwapsBytes k (swapOf k) := by
  rcases hk with rfl | rfl | rfl
  · exact swaps16
  · exact swaps32
  · exact swaps64

/-- What `Twiddle` computes for each supported width when swapping is needed. -/
theorem Twiddle_loop (le : Bool) (m : Mem) (attr : AttributeS) (n k : Nat)
    (hk : k = 2 ∨ k = 4 ∨ k = 8) (hw : attr.Desc.size = 8 * k) :
    BackupFile.Twiddle le false m attr n =
      (twiddleLoop le k (swapOf k) attr.ptr (if n = 0 then attr.Desc.arraySize else n) m).map
        (fun m' => (true, m')) := by
  rcases hk with rfl | rfl | rfl <;> simp [BackupFile.Twiddle, hw, swapOf]

/-- With swapping needed and a supported width above 8, `Twiddle` on in-bounds
data returns true and reverses the bytes of each element. -/
theorem Twiddle_eq_revElems (le : Bool) (m : Mem) (attr : AttributeS) (n k o : Nat)
    (hk : k = 2 ∨ k = 4 ∨ k = 8) (hw : attr.Desc.size = 8 * k) (hp : attr.ptr = some o)
    (hb : o + k * (if n = 0 then attr.Desc.arraySize else n) ≤ m.length) :
    BackupFile.Twiddle le false m attr n =
      some (true, revElems k o (if n = 0 then attr.Desc.arraySize else n) m) := by
  rw [Twiddle_loop le m attr n k hk hw, hp, twiddleLoop_eq le k _ (swapOf_swaps k hk) o _ m hb]
  rfl

/-- C1: each of `Twiddle16`, `Twiddle32`, `Twiddle64` is its own inverse on the
values of its width, and with `hostByteOrder = false` a second call of
`Twiddle` on an attribute of width 8, 16, 32 or 64 with the same element count
returns true and restores the memory the first call started from. -/
theorem C1_twiddle_twice_identity :
    (∀ x, x < 2 ^ 16 → Twiddle16 (Twiddle16 x) = x) ∧
    (∀ x, x < 2 ^ 32 → Twiddle32 (Twiddle32 x) = x) ∧
    (∀ x, x < 2 ^ 64 → Twiddle64 (Twiddle64 x) = x) ∧
    (∀ (le : Bool) (m m1 : Mem) (attr : AttributeS) (n : Nat) (r : Bool),
      (attr.Desc.size = 8 ∨ attr.Desc.size = 16 ∨ attr.Desc.size = 32 ∨
        attr.Desc.size = 64) →
      BackupFile.Twiddle le false m attr n = some (r, m1) →
      r = true ∧ BackupFile.Twiddle le false m1 attr n = some (true, m)) := by
  refine ⟨fun x hx => swap_twice 2 _ swaps16 x (by norm_num at hx ⊢; exact hx),
    fun x hx => swap_twice 4 _ swaps32 x (by norm_num at hx ⊢; exact hx),
    fun x hx => swap_twice 8 _ swaps64 x (by norm_num at hx ⊢; exact hx), ?_⟩
  intro le m m1 attr n r hw h
  have key : ∀ k, (k = 2 ∨ k = 4 ∨ k = 8) → attr.Desc.size = 8 * k →
      r = true ∧ BackupFile.Twiddle le false m1 attr n = some (true, m) := by
    intro k hk hw'
    rw [Twiddle_loop le m attr n k hk hw'] at h
    rw [Twiddle_loop le m1 attr n k hk hw']
    cases h1 : twiddleLoop le k (swapOf k) attr.ptr
        (if n = 0 then attr.Desc.arraySize else n) m with
    | none => simp [h1] at h
    | some m2 =>
      simp only [h1, Option.map_some', Option.some.injEq, Prod.mk.injEq] at h
      obtain ⟨hr, hm⟩ := h
      subst hm
      rw [twiddleLoop_twice le k _ (swapOf_swaps k hk) _ _ m m2 h1]
      exact ⟨hr.symm, rfl⟩
  rcases hw with h8 | h16 | h32 | h64
  · simp only [BackupFile.Twiddle, Bool.false_eq_true, if_false, h8, if_true,
      Option.some.injEq, Prod.mk.injEq] at h ⊢
    exact ⟨h.1.symm, trivial, h.2.symm⟩
  · exact key 2 (Or.inl rfl) h16
  · exact key 4 (Or.inr (Or.inl rfl)) h32
  · exact key 8 (Or.inr (Or.inr rfl)) h64

/-- C1 at concrete values and at a five-byte block holding one 32-bit element. -/
theorem C1_twiddle_twice_identity_witness :
    Twiddle16 (Twiddle16 0x1234) = 0x1234 ∧
    Twiddle32 (Twiddle32 0x12345678) = 0x12345678 ∧
    Twiddle64 (Twiddle64 0x0102030405060708) = 0x0102030405060708 ∧
    BackupFile.Twiddle true false [4, 3, 2, 1, 9]
      ⟨⟨32, 1, ⟨4, 1, true, false⟩, 0, none⟩, some ⟨false, some 0⟩⟩ 0 =
        some (true, [1, 2, 3, 4, 9]) :=
  ⟨C1_twiddle_twice_identity.1 0x1234 (by norm_num),
   C1_twiddle_twice_identity.2.1 0x12345678 (by norm_num),
   C1_twiddle_twice_identity.2.2.1 0x0102030405060708 (by norm_num),
   (C1_twiddle_twice_identity.2.2.2 true [1, 2, 3, 4, 9] [4, 3, 2, 1, 9]
      ⟨⟨32, 1, ⟨4, 1, true, false⟩, 0, none⟩, some ⟨false, some 0⟩⟩ 0 true
      (Or.inr (Or.inr (Or.inl rfl))) (by decide)).2⟩

/-- C2: with `hostByteOrder = false`, width `8 * k` for `k` in {2, 4, 8} (16, 32,
64 bits) and element count `n >= 1`, `Twiddle(attr, n)` on data that holds at
least `n` elements returns true; afterwards the bytes of each of the first `n`
elements are the original bytes in reverse order, its value is the `Twiddle16`
/ `Twiddle32` / `Twiddle64` image of the original value, every element at an
index `>= n` (and every byte before the data) is unchanged, and the three swap
functions map the value of a byte sequence to the value of the reversed
sequence. -/
theorem C2_twiddle_reverses_elements (le : Bool) (m : Mem) (attr : AttributeS) (o n k : Nat)
    (hk : k = 2 ∨ k = 4 ∨ k = 8) (hw : attr.Desc.size = 8 * k) (hn : 1 ≤ n)
    (hp : attr.ptr = some o) (hb : o + k * n ≤ m.length) :
    BackupFile.Twiddle le false m attr n = some (true, revElems k o n m) ∧
    (revElems k o n m).length = m.length ∧
    (∀ i, i < n →
      slice (revElems k o n m) (o + k * i) k = (slice m (o + k * i) k).reverse) ∧
    (∀ i, i < n →
      rdHost le k (revElems k o n m) (o + k * i) =
        (rdHost le k m (o + k * i)).map (swapOf k)) ∧
    (∀ i, n ≤ i →
      slice (revElems k o n m) (o + k * i) k = slice m (o + k * i) k) ∧
    (∀ j, j < o → (revElems k o n m)[j]? = m[j]?) ∧
    (swapOf 2 = Twiddle16 ∧ swapOf 4 = Twiddle32 ∧ swapOf 8 = Twiddle64) ∧
    (∀ bs : List Byte, bs.length = 2 → Twiddle16 (hostVal le bs) = hostVal le bs.reverse) ∧
    (∀ bs : List Byte, bs.length = 4 → Twiddle32 (hostVal le bs) = hostVal le bs.reverse) ∧
    (∀ bs : List Byte, bs.length = 8 → Twiddle64 (hostVal le bs) = hostVal le bs.reverse) := by
  have hn0 : (if n = 0 then attr.Desc.arraySize else n) = n := by
    rw [if_neg (by omega)]
  have hT := Twiddle_eq_revElems le m attr n k o hk hw hp (by rw [hn0]; exact hb)
  rw [hn0] at hT
  have hl := revElems_length k o n m hb
  have hv : ∀ (k : Nat) (f : Nat → Nat), SwapsBytes k f → ∀ bs : List Byte, bs.length = k →
      f (hostVal le bs) = hostVal le bs.reverse := by
    intro k f hf bs hbs
    cases le
    · have := hf bs.reverse (by simpa using hbs)
      simpa [hostVal, beVal] using this
    · simpa [hostVal] using hf bs hbs
  refine ⟨hT, hl, fun i hi => revElems_slice_in k o n m hb i hi, ?_, ?_,
    fun j hj => revElems_getElem?_out k o n m hb j (Or.inl hj), ⟨rfl, rfl, rfl⟩,
    hv 2 _ swaps16, hv 4 _ swaps32, hv 8 _ swaps64⟩
  · intro i hi
    have h3 : k * i + k ≤ k * n := by
      have := Nat.mul_le_mul_left k (Nat.succ_le_of_lt hi)
      rwa [Nat.mul_succ] at this
    have hb' : o + k * i + k ≤ m.length := by omega
    simp only [rdHost, hl, if_pos hb', Option.map_some', Option.some.injEq]
    rw [revElems_slice_in k o n m hb i hi,
      hv k _ (swapOf_swaps k hk) _ (slice_length m _ k hb')]
  · intro i hi
    have h3 : k * n ≤ k * i := Nat.mul_le_mul_left k hi
    exact revElems_slice_out k o n m hb _ _ (Or.inr (by omega))

/-- C2 on a little-endian host: two 16-bit elements are swapped, the third is kept. -/
theorem C2_twiddle_reverses_elements_witness :
    BackupFile.Twiddle true false [1, 2, 3, 4, 5, 6]
        ⟨⟨16, 3, ⟨2, 3, false, false⟩, 0, none⟩, some ⟨false, some 0⟩⟩ 2 =
      some (true, [2, 1, 4, 3, 5, 6]) ∧
    revElems 2 0 2 [1, 2, 3, 4, 5, 6] = [2, 1, 4, 3, 5, 6] :=
  ⟨(C2_twiddle_reverses_elements true [1, 2, 3, 4, 5, 6]
      ⟨⟨16, 3, ⟨2, 3, false, false⟩, 0, none⟩, some ⟨false, some 0⟩⟩ 0 2 2
      (Or.inl rfl) rfl (by decide) rfl (by decide)).1, by decide⟩

/-- C3: `Twiddle` returns true and leaves the memory unchanged when
`hostByteOrder` is true or the width is 8; with `hostByteOrder = false` and a
width outside {8, 16, 32, 64} it returns false and leaves the memory unchanged;
and it returns false exactly when `hostByteOrder` is false and the width is
outside {8, 16, 32, 64}. -/
theorem C3_twiddle_status (le hbo : Bool) (m : Mem) (attr : AttributeS) (n : Nat) :
    ((hbo = true ∨ attr.Desc.size = 8) →
      BackupFile.Twiddle le hbo m attr n = some (true, m)) ∧
    ((hbo = false ∧ attr.Desc.size ≠ 8 ∧ attr.Desc.size ≠ 16 ∧ attr.Desc.size ≠ 32 ∧
        attr.Desc.size ≠ 64) →
      BackupFile.Twiddle le hbo m attr n = some (false, m)) ∧
    ((∃ m', BackupFile.Twiddle le hbo m attr n = some (false, m')) ↔
      (hbo = false ∧ attr.Desc.size ≠ 8 ∧ attr.Desc.size ≠ 16 ∧ attr.Desc.size ≠ 32 ∧
        attr.Desc.size ≠ 64)) := by
  have h2 : (hbo = false ∧ attr.Desc.size ≠ 8 ∧ attr.Desc.size ≠ 16 ∧ attr.Desc.size ≠ 32 ∧
        attr.Desc.size ≠ 64) → BackupFile.Twiddle le hbo m attr n = some (false, m) := by
    rintro ⟨h, h8, h16, h32, h64⟩
    simp [BackupFile.Twiddle, h, h8, h16, h32, h64]
  refine ⟨?_, h2, ?_, fun h => ⟨m, h2 h⟩⟩
  · rintro (h | h)
    · simp [BackupFile.Twiddle, h]
    · cases hbo <;> simp [BackupFile.Twiddle, h]
  · rintro ⟨m', h⟩
    cases hbo with
    | true => simp [BackupFile.Twiddle] at h
    | false =>
      refine ⟨rfl, ?_, ?_, ?_, ?_⟩ <;> intro hs <;>
        simp [BackupFile.Twiddle, hs, Option.map] at h <;>
        split at h <;> simp at h

/-- C3 at width 24 (unsupported) and at width 8. -/
theorem C3_twiddle_status_witness :
    BackupFile.Twiddle true false [1, 2, 3]
        ⟨⟨24, 1, ⟨3, 1, false, false⟩, 0, none⟩, some ⟨false, some 0⟩⟩ 0 =
      some (false, [1, 2, 3]) ∧
    BackupFile.Twiddle true false [1, 2, 3]
        ⟨⟨8, 3, ⟨1, 3, false, false⟩, 0, none⟩, some ⟨false, some 0⟩⟩ 0 =
      some (true, [1, 2, 3]) :=
  ⟨(C3_twiddle_status true false [1, 2, 3]
      ⟨⟨24, 1, ⟨3, 1, false, false⟩, 0, none⟩, some ⟨false, some 0⟩⟩ 0).2.1
      ⟨rfl, by decide, by decide, by decide, by decide⟩,
   (C3_twiddle_status true false [1, 2, 3]
      ⟨⟨8, 3, ⟨1, 3, false, false⟩, 0, none⟩, some ⟨false, some 0⟩⟩ 0).1 (Or.inr rfl)⟩

/-! ## Properties of `TableS` construction -/

theorem filter_length_le_map {α β : Type} (p : α → Bool) (f : α → β) (l : List α) (cs : List β)
    (h : l.map f = cs) : (l.filter p).length ≤ cs.length := by
  have := List.length_filter_le p l
  have e : cs.length = l.length := by rw [← h, List.length_map]
  omega

theorem TableS.shape_init (tableImpl : NdbTableImpl) :
    TableS.Shape [] (TableS.init tableImpl) := by
  constructor <;> simp [TableS.init]

theorem TableS.nullInv_init (tableImpl : NdbTableImpl) :
    TableS.NullInv (TableS.init tableImpl) := by
  constructor <;> simp [TableS.init]

theorem TableS.shape_createAttr (cs : List Column) (t : TableS) (c : Column)
    (h : TableS.Shape cs t) : TableS.Shape (cs ++ [c]) (t.createAttr c) := by
  have hid : ∀ (d : AttributeDesc), d.attrId = t.allAttributesDesc.length →
      ∀ i (hi : i < (t.allAttributesDesc ++ [d]).length),
        ((t.allAttributesDesc ++ [d]).get ⟨i, hi⟩).attrId = i := by
    intro d hd i hi
    simp only [List.length_append, List.length_singleton] at hi
    rcases Nat.lt_or_ge i t.allAttributesDesc.length with h1 | h1
    · simp only [List.get_eq_getElem, List.getElem_append_left h1]
      exact h.attrId i h1
    · have e : i = t.allAttributesDesc.length := by omega
      subst e
      simp [hd]
  unfold TableS.createAttr
  by_cases hpk : c.getPrimaryKey = true
  · simp only [AttributeDesc.new, hpk, if_true]
    exact
      { cols := by simp [h.cols]
        attrId := hid _ rfl
        keys := by simp [List.filter_append, h.keys, hpk]
        attribs := by simp [List.filter_append, h.attribs, hpk]
        vars := by simp [List.filter_append, h.vars, hpk] }
  · by_cases hn : c.getNullable = true
    · simp only [AttributeDesc.new, hpk, hn, Bool.not_true, Bool.false_eq_true, if_false]
      exact
        { cols := by simp [h.cols]
          attrId := hid _ rfl
          keys := by simp [List.filter_append, h.keys, hpk]
          attribs := by simp [List.filter_append, h.attribs, hpk, hn]
          vars := by simp [List.filter_append, h.vars, hpk, hn] }
    · simp only [AttributeDesc.new, hpk, hn, Bool.not_false, Bool.false_eq_true, if_false,
        if_true]
      exact
        { cols := by simp [h.cols]
          attrId := hid _ rfl
          keys := by simp [List.filter_append, h.keys, hpk]
          attribs := by simp [List.filter_append, h.attribs, hpk, hn]
          vars := by simp [List.filter_append, h.vars, hpk, hn] }

theorem TableS.nullInv_createAttr (cs : List Column) (t : TableS) (c : Column)
    (hs : TableS.Shape cs t) (h : TableS.NullInv t) (hb : cs.length + 32 < 2 ^ 32) :
    TableS.NullInv (t.createAttr c) := by
  have hv : t.m_variableAttribs.length ≤ cs.length := by
    rw [hs.vars]; exact filter_length_le_map _ _ _ _ hs.cols
  unfold TableS.createAttr
  by_cases hpk : c.getPrimaryKey = true
  · simp only [AttributeDesc.new, hpk, if_true]
    exact ⟨h.noOfNullable, h.nullBit, h.maskSize⟩
  · by_cases hn : c.getNullable = true
    · simp only [AttributeDesc.new, hpk, hn, Bool.not_true, Bool.false_eq_true, if_false]
      have e1 : u32 (t.m_noOfNullable + 1) = t.m_noOfNullable + 1 := by
        apply Nat.mod_eq_of_lt
        rw [h.noOfNullable]; omega
      have e2 : u32 (t.m_noOfNullable + 1 + 31) = t.m_noOfNullable + 1 + 31 := by
        apply Nat.mod_eq_of_lt
        rw [h.noOfNullable]; omega
      exact
        { noOfNullable := by
            show u32 (t.m_noOfNullable + 1) = _
            rw [e1, h.noOfNullable, List.length_append, List.length_singleton]
          nullBit := by
            intro k hk
            simp only [List.length_append, List.length_singleton] at hk
            rcases Nat.lt_or_ge k t.m_variableAttribs.length with h1 | h1
            · simp only [List.get_eq_getElem, List.getElem_append_left h1]
              exact h.nullBit k h1
            · have e : k = t.m_variableAttribs.length := by omega
              subst e
              simp [h.noOfNullable]
          maskSize := by
            show u32 (u32 (t.m_noOfNullable + 1) + 31) / 32 = _
            rw [e1, e2] }
    · simp only [AttributeDesc.new, hpk, hn, Bool.not_false, Bool.false_eq_true, if_false,
        if_true]
      exact ⟨h.noOfNullable, h.nullBit, h.maskSize⟩

theorem TableS.shape_foldl (cs' : List Column) :
    ∀ (cs : List Column) (t : TableS), TableS.Shape cs t →
      TableS.Shape (cs ++ cs') (cs'.foldl TableS.createAttr t) := by
  induction cs' with
  | nil => intro cs t h; simpa using h
  | cons c cs' ih =>
    intro cs t h
    have h2 := ih (cs ++ [c]) (t.createAttr c) (TableS.shape_createAttr cs t c h)
    simpa using h2

theorem TableS.nullInv_foldl (cs' : List Column) :
    ∀ (cs : List Column) (t : TableS), TableS.Shape cs t → TableS.NullInv t →
      cs.length + cs'.length + 31 < 2 ^ 32 →
      TableS.NullInv (cs'.foldl TableS.createAttr t) := by
  induction cs' with
  | nil => intro cs t _ h _; simpa using h
  | cons c cs' ih =>
    intro cs t hs h hb
    simp only [List.length_cons] at hb
    exact ih (cs ++ [c]) (t.createAttr c) (TableS.shape_createAttr cs t c hs)
      (TableS.nullInv_createAttr cs t c hs h (by omega)) (by simp; omega)

/-- Every constructed table has its vectors in the expected shape. -/
theorem TableS.new_shape (tableImpl : NdbTableImpl) :
    TableS.Shape tableImpl.m_columns (TableS.new tableImpl) := by
  have := TableS.shape_foldl tableImpl.m_columns [] (TableS.init tableImpl)
    (TableS.shape_init tableImpl)
  simpa [TableS.new] using this

/-- Every constructed table has consistent null-bit bookkeeping. -/
theorem TableS.new_nullInv (tableImpl : NdbTableImpl)
    (hb : tableImpl.m_columns.length + 31 < 2 ^ 32) :
    TableS.NullInv (TableS.new tableImpl) :=
  TableS.nullInv_foldl tableImpl.m_columns [] (TableS.init tableImpl)
    (TableS.shape_init tableImpl) (TableS.nullInv_init tableImpl) (by simpa using hb)

theorem pairwise_attrId (l : List AttributeDesc)
    (h : ∀ i (hi : i < l.length), (l.get ⟨i, hi⟩).attrId = i) :
    l.Pairwise (fun a b => a.attrId < b.attrId) := by
  rw [List.pairwise_iff_get]
  intro i j hij
  rw [h i.val i.isLt, h j.val j.isLt]
  exact hij

theorem filter_partition (l : List AttributeDesc) :
    (l.filter (fun d => d.m_column.getPrimaryKey) ++
      l.filter (fun d => !d.m_column.getPrimaryKey && !d.m_column.getNullable) ++
      l.filter (fun d => !d.m_column.getPrimaryKey && d.m_column.getNullable)).Perm l := by
  induction l with
  | nil => simp
  | cons d l ih =>
    by_cases hpk : d.m_column.getPrimaryKey = true
    · simp only [List.filter_cons, hpk, if_true, Bool.not_true, Bool.false_and,
        Bool.false_eq_true, if_false, List.cons_append]
      exact List.Perm.cons d ih
    · by_cases hn : d.m_column.getNullable = true
      · simp only [List.filter_cons, hpk, hn, Bool.false_eq_true, if_false, Bool.not_false,
          Bool.not_true, Bool.and_false, Bool.and_true, if_true]
        refine List.Perm.trans ?_ (List.Perm.cons d ih)
        exact List.perm_middle
      · simp only [List.filter_cons, hpk, hn, Bool.false_eq_true, if_false, Bool.not_false,
          Bool.and_true, Bool.and_false, if_true, Bool.and_self]
        refine List.Perm.trans ?_ (List.Perm.cons d ih)
        rw [List.append_assoc, List.append_assoc]
        exact List.perm_middle

/-- C6: after `TableS` construction from a table with `n` columns,
`allAttributesDesc` has `n` descriptors, the descriptor at position `i` has
`attrId = i` (and describes column `i`), every descriptor occurs exactly once in
the three vectors `m_fixedKeys`, `m_fixedAttribs`, `m_variableAttribs` taken
together, these vectors hold nothing else, and each of them lists its
descriptors in increasing `attrId` order. -/
theorem C6_table_partition (tableImpl : NdbTableImpl) :
    (TableS.new tableImpl).allAttributesDesc.length = tableImpl.m_columns.length ∧
    (∀ i (h : i < (TableS.new tableImpl).allAttributesDesc.length),
      ((TableS.new tableImpl).allAttributesDesc.get ⟨i, h⟩).attrId = i) ∧
    (TableS.new tableImpl).allAttributesDesc.map (fun d => d.m_column) = tableImpl.m_columns ∧
    (∀ d, d ∈ (TableS.new tableImpl).allAttributesDesc →
      (TableS.new tableImpl).m_fixedKeys.count d +
        (TableS.new tableImpl).m_fixedAttribs.count d +
        (TableS.new tableImpl).m_variableAttribs.count d = 1) ∧
    (∀ d, d ∈ (TableS.new tableImpl).m_fixedKeys ∨ d ∈ (TableS.new tableImpl).m_fixedAttribs ∨
        d ∈ (TableS.new tableImpl).m_variableAttribs →
      d ∈ (TableS.new tableImpl).allAttributesDesc) ∧
    (TableS.new tableImpl).m_fixedKeys.Pairwise (fun a b => a.attrId < b.attrId) ∧
    (TableS.new tableImpl).m_fixedAttribs.Pairwise (fun a b => a.attrId < b.attrId) ∧
    (TableS.new tableImpl).m_variableAttribs.Pairwise (fun a b => a.attrId < b.attrId) := by
  have inv := TableS.new_shape tableImpl
  generalize TableS.new tableImpl = t at inv
  have hpw := pairwise_attrId _ inv.attrId
  have hnd : t.allAttributesDesc.Nodup :=
    hpw.imp (fun {a b} hab heq => by rw [heq] at hab; exact Nat.lt_irrefl _ hab)
  have hperm : (t.m_fixedKeys ++ t.m_fixedAttribs ++ t.m_variableAttribs).Perm
      t.allAttributesDesc := by
    rw [inv.keys, inv.attribs, inv.vars]
    exact filter_partition _
  refine ⟨by rw [← inv.cols, List.length_map], inv.attrId, inv.cols, ?_, ?_, ?_, ?_, ?_⟩
  · intro d hd
    have := hperm.count_eq d
    rw [List.count_append, List.count_append, List.count_eq_one_of_mem hnd hd] at this
    exact this
  · intro d hd
    have : d ∈ t.m_fixedKeys ++ t.m_fixedAttribs ++ t.m_variableAttribs := by
      simp only [List.mem_append]
      tauto
    exact hperm.mem_iff.mp this
  · rw [inv.keys]; exact hpw.sublist (List.filter_sublist _)
  · rw [inv.attribs]; exact hpw.sublist (List.filter_sublist _)
  · rw [inv.vars]; exact hpw.sublist (List.filter_sublist _)

/-- C7 as stated fails: a nullable primary-key column is nullable, but its
descriptor is in `m_fixedKeys` and not in `m_variableAttribs`. -/
theorem C7_nullable_key_counterexample :
    ¬ (∀ d, d ∈ (TableS.new exNullableKey).allAttributesDesc →
        (d ∈ (TableS.new exNullableKey).m_variableAttribs ↔ d.m_column.getNullable = true)) := by
  decide

/-- C7 (amended): after `TableS` construction `m_fixedKeys` holds exactly the
descriptors of the primary-key columns, `m_fixedAttribs` exactly those of the
non-nullable non-key columns and `m_variableAttribs` exactly those of the
nullable non-key columns, each in declaration order. -/
theorem C7_table_categories (tableImpl : NdbTableImpl) :
    (TableS.new tableImpl).m_fixedKeys =
      (TableS.new tableImpl).allAttributesDesc.filter
        (fun d => d.m_column.getPrimaryKey) ∧
    (TableS.new tableImpl).m_fixedAttribs =
      (TableS.new tableImpl).allAttributesDesc.filter
        (fun d => !d.m_column.getPrimaryKey && !d.m_column.getNullable) ∧
    (TableS.new tableImpl).m_variableAttribs =
      (TableS.new tableImpl).allAttributesDesc.filter
        (fun d => !d.m_column.getPrimaryKey && d.m_column.getNullable) :=
  ⟨(TableS.new_shape tableImpl).keys, (TableS.new_shape tableImpl).attribs,
    (TableS.new_shape tableImpl).vars⟩

/-- C8: after `TableS` construction (and so after every `createAttr` call, each
intermediate state being the construction from a shorter column list)
`m_noOfNullable` is the number of descriptors in `m_variableAttribs`, the
`k`-th of them has `m_nullBitIndex = k`, `m_nullBitmaskSize` is
`ceil(m_noOfNullable / 32)`, and so the assigned null bit indices are pairwise
distinct and each is below `32 * m_nullBitmaskSize`. -/
theorem C8_null_bits (tableImpl : NdbTableImpl)
    (hb : tableImpl.m_columns.length + 31 < 2 ^ 32) :
    (TableS.new tableImpl).m_noOfNullable = (TableS.new tableImpl).m_variableAttribs.length ∧
    (∀ k (h : k < (TableS.new tableImpl).m_variableAttribs.length),
      ((TableS.new tableImpl).m_variableAttribs.get ⟨k, h⟩).m_nullBitIndex = some k) ∧
    (TableS.new tableImpl).m_nullBitmaskSize = ((TableS.new tableImpl).m_noOfNullable + 31) / 32 ∧
    ((TableS.new tableImpl).m_noOfNullable ≤ 32 * (TableS.new tableImpl).m_nullBitmaskSize ∧
      32 * (TableS.new tableImpl).m_nullBitmaskSize < (TableS.new tableImpl).m_noOfNullable + 32) ∧
    (∀ j k (hj : j < (TableS.new tableImpl).m_variableAttribs.length)
      (hk : k < (TableS.new tableImpl).m_variableAttribs.length), j ≠ k →
      ((TableS.new tableImpl).m_variableAttribs.get ⟨j, hj⟩).m_nullBitIndex ≠
        ((TableS.new tableImpl).m_variableAttribs.get ⟨k, hk⟩).m_nullBitIndex) ∧
    (∀ k (h : k < (TableS.new tableImpl).m_variableAttribs.length), ∃ b,
      ((TableS.new tableImpl).m_variableAttribs.get ⟨k, h⟩).m_nullBitIndex = some b ∧
        b < 32 * (TableS.new tableImpl).m_nullBitmaskSize) := by
  have inv := TableS.new_nullInv tableImpl hb
  generalize TableS.new tableImpl = t at inv
  have hm := inv.maskSize
  have hn := inv.noOfNullable
  refine ⟨hn, inv.nullBit, hm, by omega, ?_, ?_⟩
  · intro j k hj hk hjk
    rw [inv.nullBit j hj, inv.nullBit k hk]
    simpa using hjk
  · intro k hk
    exact ⟨k, inv.nullBit k hk, by omega⟩

/-- C8 on a table with two nullable columns. -/
theorem C8_null_bits_witness :
    (TableS.new ⟨1, [⟨4, 1, true, false⟩, ⟨4, 1, false, true⟩, ⟨1, 8, false, true⟩]⟩
      ).m_noOfNullable = 2 ∧
    (TableS.new ⟨1, [⟨4, 1, true, false⟩, ⟨4, 1, false, true⟩, ⟨1, 8, false, true⟩]⟩
      ).m_nullBitmaskSize = 1 :=
  ⟨by
    have h := (C8_null_bits
      ⟨1, [⟨4, 1, true, false⟩, ⟨4, 1, false, true⟩, ⟨1, 8, false, true⟩]⟩ (by decide)).1
    rw [h]; decide, by decide⟩

/-! ## Reading from a stream -/

theorem slice_take (m : Mem) (n o k : Nat) (h : o + k ≤ n) :
    slice (m.take n) o k = slice m o k := by
  apply List.ext_getElem?
  intro i
  rw [slice_getElem?, slice_getElem?]
  split_ifs with hi
  · rw [List.getElem?_take_of_lt (by omega)]
  · rfl

theorem ntohl_hostVal (le : Bool) (bs : List Byte) (h : bs.length = 4) :
    ntohl le (hostVal le bs) = beVal bs := by
  cases le
  · simp [ntohl, hostVal]
  · simp only [ntohl, hostVal, if_true, beVal]
    rw [← h, leBytes_leVal]

theorem fread_one_count (n : Nat) (hn : 0 < n) (file : List Byte) :
    freadCount n 1 file = 1 ↔ n ≤ file.length := by
  simp only [freadCount, Nat.mul_one, List.length_take]
  constructor
  · intro h
    by_contra hc
    have : min n file.length < n := by omega
    rw [Nat.div_eq_of_lt this] at h
    omega
  · intro h
    rw [Nat.min_eq_left h, Nat.div_self hn]

/-- Complete description of `readHeader`. -/
theorem readHeader_eq (env : Env) (disk : Option (List Byte)) (s : BackupFile) :
    BackupFile.readHeader env disk s =
      match disk with
      | none => .ret (false, { s with m_file := none })
      | some file =>
        if file.length < env.magicLen + 32 then
          .ret (false, { s with m_file := some (file.drop (env.magicLen + 32)) })
        else if beVal (slice file (env.magicLen + 12) 4) ≠ s.m_expectedFileHeader.FileType then
          .abort
        else if wordAt env.le file (env.magicLen + 28) = magicByteOrder then
          .ret (true,
            { s with
              m_file := some (file.drop (env.magicLen + 32))
              m_fileHeader :=
                { Magic := file.take env.magicLen
                  NdbVersion := beVal (slice file env.magicLen 4)
                  SectionType := beVal (slice file (env.magicLen + 4) 4)
                  SectionLength := beVal (slice file (env.magicLen + 8) 4)
                  FileType := beVal (slice file (env.magicLen + 12) 4)
                  BackupId := beVal (slice file (env.magicLen + 16) 4)
                  BackupKey_0 := beVal (slice file (env.magicLen + 20) 4)
                  BackupKey_1 := beVal (slice file (env.magicLen + 24) 4)
                  ByteOrder := wordAt env.le file (env.magicLen + 28) }
              m_hostByteOrder := true })
        else if wordAt env.le file (env.magicLen + 28) = swappedMagicByteOrder then
          .ret (true,
            { s with
              m_file := some (file.drop (env.magicLen + 32))
              m_fileHeader :=
                { Magic := file.take env.magicLen
                  NdbVersion := beVal (slice file env.magicLen 4)
                  SectionType := beVal (slice file (env.magicLen + 4) 4)
                  SectionLength := beVal (slice file (env.magicLen + 8) 4)
                  FileType := beVal (slice file (env.magicLen + 12) 4)
                  BackupId := beVal (slice file (env.magicLen + 16) 4)
                  BackupKey_0 := beVal (slice file (env.magicLen + 20) 4)
                  BackupKey_1 := beVal (slice file (env.magicLen + 24) 4)
                  ByteOrder := wordAt env.le file (env.magicLen + 28) }
              m_hostByteOrder := false })
        else .abort := by
  cases disk with
  | none => rfl
  | some file =>
    by_cases hl : file.length < env.magicLen + 32
    · have hc : freadCount (env.magicLen + 32) 1 file ≠ 1 := by
        rw [Ne, fread_one_count _ (by omega)]; omega
      simp only [BackupFile.readHeader, hc, ne_eq, not_false_eq_true, if_true, hl]
      simp [freadRest]
    · have hc : freadCount (env.magicLen + 32) 1 file = 1 := by
        rw [fread_one_count _ (by omega)]; omega
      have hw : ∀ o, o + 4 ≤ env.magicLen + 32 →
          wordAt env.le (freadData (env.magicLen + 32) 1 file) o = wordAt env.le file o := by
        intro o ho
        simp only [wordAt, freadData, Nat.mul_one]
        rw [slice_take _ _ _ _ ho]
      have hn : ∀ o, o + 4 ≤ env.magicLen + 32 →
          ntohl env.le (wordAt env.le file o) = beVal (slice file o 4) := by
        intro o ho
        exact ntohl_hostVal env.le _ (slice_length file o 4 (by omega))
      have ht : (freadData (env.magicLen + 32) 1 file).take env.magicLen =
          file.take env.magicLen := by
        simp only [freadData, Nat.mul_one, List.take_take]
        congr 1
        omega
      simp only [BackupFile.readHeader, hc, ne_eq, not_true_eq_false, if_false, hl,
        FileHeader.ofBytes, hw _ (show env.magicLen + 4 ≤ env.magicLen + 32 by omega),
        hw _ (show env.magicLen + 4 + 4 ≤ env.magicLen + 32 by omega),
        hw _ (show env.magicLen + 8 + 4 ≤ env.magicLen + 32 by omega),
        hw _ (show env.magicLen + 12 + 4 ≤ env.magicLen + 32 by omega),
        hw _ (show env.magicLen + 16 + 4 ≤ env.magicLen + 32 by omega),
        hw _ (show env.magicLen + 20 + 4 ≤ env.magicLen + 32 by omega),
        hw _ (show env.magicLen + 24 + 4 ≤ env.magicLen + 32 by omega),
        hw _ (show env.magicLen + 28 + 4 ≤ env.magicLen + 32 by omega),
        hn _ (show env.magicLen + 4 ≤ env.magicLen + 32 by omega),
        hn _ (show env.magicLen + 4 + 4 ≤ env.magicLen + 32 by omega),
        hn _ (show env.magicLen + 8 + 4 ≤ env.magicLen + 32 by omega),
        hn _ (show env.magicLen + 12 + 4 ≤ env.magicLen + 32 by omega),
        hn _ (show env.magicLen + 16 + 4 ≤ env.magicLen + 32 by omega),
        hn _ (show env.magicLen + 20 + 4 ≤ env.magicLen + 32 by omega),
        hn _ (show env.magicLen + 24 + 4 ≤ env.magicLen + 32 by omega), ht]
      simp [freadRest]

/-- C5: `readHeader` returns true only if the file can be opened, holds a
complete header, the `FileType` field decoded from big-endian equals the
expected file type and the `ByteOrder` word, as the host reads it, is
`0x12345678` or `0x78563412`; then `hostByteOrder` is true exactly when that
word is `0x12345678`.  With a complete header, a different `FileType` or any
other `ByteOrder` value makes `readHeader` abort. -/
theorem C5_readHeader (env : Env) (disk : Option (List Byte)) (s : BackupFile) :
    (∀ s', BackupFile.readHeader env disk s = .ret (true, s') →
      ∃ file, disk = some file ∧ env.magicLen + 32 ≤ file.length ∧
        beVal (slice file (env.magicLen + 12) 4) = s.m_expectedFileHeader.FileType ∧
        (wordAt env.le file (env.magicLen + 28) = 0x12345678 ∨
          wordAt env.le file (env.magicLen + 28) = 0x78563412) ∧
        (s'.m_hostByteOrder = true ↔ wordAt env.le file (env.magicLen + 28) = 0x12345678)) ∧
    (∀ file, disk = some file → env.magicLen + 32 ≤ file.length →
      (beVal (slice file (env.magicLen + 12) 4) ≠ s.m_expectedFileHeader.FileType ∨
        (wordAt env.le file (env.magicLen + 28) ≠ 0x12345678 ∧
          wordAt env.le file (env.magicLen + 28) ≠ 0x78563412)) →
      BackupFile.readHeader env disk s = .abort) := by
  rw [readHeader_eq]
  constructor
  · intro s' h
    cases disk with
    | none => simp at h
    | some file =>
      refine ⟨file, rfl, ?_⟩
      simp only at h
      split_ifs at h with h1 h2 h3 h4
      · simp at h
      · simp only [Res.ret.injEq, Prod.mk.injEq, true_and] at h
        subst h
        simp only [magicByteOrder] at h3
        exact ⟨by omega, not_not.mp h2, Or.inl h3, by simp [h3]⟩
      · simp only [Res.ret.injEq, Prod.mk.injEq, true_and] at h
        subst h
        simp only [magicByteOrder, swappedMagicByteOrder] at h3 h4
        exact ⟨by omega, not_not.mp h2, Or.inr h4, by simp [h3]⟩
  · intro file hd hl hc
    subst hd
    simp only
    rw [if_neg (by omega)]
    rcases hc with hc | ⟨hc1, hc2⟩
    · rw [if_pos hc]
    · split_ifs with h2 h3 h4
      · rfl
      · exact absurd h3 hc1
      · exact absurd h4 hc2
      · rfl

/-- C5 on a control file whose header carries the byte-order word in the
order of the (little-endian) host. -/
theorem C5_readHeader_witness :
    ∃ file, some exHeaderBytes = some file ∧ exEnv.magicLen + 32 ≤ file.length ∧
      beVal (slice file (exEnv.magicLen + 12) 4) =
        (BackupFile.fresh 1).m_expectedFileHeader.FileType ∧
      (wordAt exEnv.le file (exEnv.magicLen + 28) = 0x12345678 ∨
        wordAt exEnv.le file (exEnv.magicLen + 28) = 0x78563412) ∧
      ((({ BackupFile.fresh 1 with
            m_file := some []
            m_fileHeader := ⟨[78, 68, 66, 66, 67, 75, 85, 80], 1, 1, 10, 1, 42, 0, 0, 0x12345678⟩
            m_hostByteOrder := true } : BackupFile).m_hostByteOrder = true) ↔
        wordAt exEnv.le file (exEnv.magicLen + 28) = 0x12345678) :=
  (C5_readHeader exEnv (some exHeaderBytes) (BackupFile.fresh 1)).1 _ (by decide)

/-! ## `loadContent` -/

/-- C9 as stated fails: with a table-list section of length 2 (zero tables)
`loadContent` does not return its failure result 0.  On a reader whose scratch
buffer was never allocated it aborts, and on a reader that owns a scratch buffer
it returns 1, its success result. -/
theorem C9_zero_tables_counterexample :
    (RestoreMetaData.loadContent exEnv (exMeta [0, 0, 0, 4, 0, 0, 0, 2] none 0)).value ≠ some 0 ∧
    RestoreMetaData.loadContent exEnv (exMeta [0, 0, 0, 4, 0, 0, 0, 2] none 0) = .abort ∧
    (RestoreMetaData.loadContent exEnv
      (exMeta [0, 0, 0, 4, 0, 0, 0, 2] (some [0, 0, 0, 0]) 4)).value = some 1 := by
  decide

/-- C9 (amended): when the table-list section header is complete and declares
zero tables (`sectionLength = 2`), `loadContent` never returns its failure
result: it aborts when the scratch buffer is still unallocated (`createBuffer(0)`
yields the null pointer) and returns 1 otherwise. -/
theorem C9_zero_tables (env : Env) (s : RestoreMetaData) (file : List Byte)
    (hf : s.m_file = some file) (hl : 8 ≤ file.length)
    (h2 : beVal (slice file 4 4) = 2) :
    (s.m_buffer = none → RestoreMetaData.loadContent env s = .abort) ∧
    (s.m_buffer ≠ none → ∃ s', RestoreMetaData.loadContent env s = .ret (1, s')) ∧
    (RestoreMetaData.loadContent env s).value ≠ some 0 := by
  have hc : freadCount 8 1 file = 1 := by
    rw [fread_one_count _ (by omega)]; exact hl
  have hw : ntohl env.le (wordAt env.le (freadData 8 1 file) 4) = 2 := by
    simp only [wordAt, freadData, Nat.mul_one]
    rw [slice_take _ _ _ _ (by omega), ntohl_hostVal _ _ (slice_length file 4 4 (by omega)), h2]
  have hcb : ∀ t : RestoreMetaData, t.createBuffer env 0 = t := by
    intro t
    simp [RestoreMetaData.createBuffer, BackupFile.createBuffer]
  have e : RestoreMetaData.readMetaTableList env s =
      match s.m_buffer with
      | none => .abort
      | some buf =>
        .ret (0, { s with m_file := some (freadRest 1 0 (freadRest 8 1 file)),
                          m_buffer := some buf }) := by
    unfold RestoreMetaData.readMetaTableList
    rw [hf]
    simp only [hc, hw, ne_eq, not_true_eq_false, if_false]
    have e0 : sub32 2 2 = 0 := by decide
    have e1 : u32 (4 * 0) = 0 := by decide
    simp only [e0, e1, hcb]
    cases hb : s.m_buffer with
    | none => rfl
    | some buf =>
      simp only [freadData, freadCount, storeAt, Nat.mul_zero, List.take_zero,
        List.length_nil, Nat.zero_le, if_true, List.drop_zero, List.nil_append, Nat.zero_div,
        ne_eq, not_true_eq_false, if_false]
  cases hb : s.m_buffer with
  | none =>
    rw [hb] at e
    simp [RestoreMetaData.loadContent, e, Res.value]
  | some buf =>
    rw [hb] at e
    simp [RestoreMetaData.loadContent, e, Res.value]

/-- C9 (amended) on a fresh reader. -/
theorem C9_zero_tables_witness :
    RestoreMetaData.loadContent exEnv (exMeta [0, 0, 0, 4, 0, 0, 0, 2] none 0) = .abort :=
  (C9_zero_tables exEnv (exMeta [0, 0, 0, 4, 0, 0, 0, 2] none 0) [0, 0, 0, 4, 0, 0, 0, 2]
    rfl (by decide) (by decide)).1 rfl

/-- C10 fails on the code: when the control file ends inside the table-list
section header (here after three bytes), or inside the table-list body (here a
list of one table with no body), `loadContent` returns 1, its success result. -/
theorem C10_short_table_list_returns_success :
    (RestoreMetaData.loadContent exEnv (exMeta [0, 0, 0] none 0)).value = some 1 ∧
    (RestoreMetaData.loadContent exEnv (exMeta [0, 0, 0, 4, 0, 0, 0, 3] none 0)).value =
      some 1 := by
  decide

/-! ## Blocks that agree on a range -/

theorem agree_refl (a : Mem) (lo hi : Nat) : Agree a a lo hi := fun _ _ _ => rfl

theorem agree_symm {a b : Mem} {lo hi : Nat} (h : Agree a b lo hi) : Agree b a lo hi :=
  fun j h1 h2 => (h j h1 h2).symm

theorem agree_trans {a b c : Mem} {lo hi : Nat} (h1 : Agree a b lo hi) (h2 : Agree b c lo hi) :
    Agree a c lo hi :=
  fun j hl hh => (h1 j hl hh).trans (h2 j hl hh)

theorem agree_mono {a b : Mem} {lo hi lo' hi' : Nat} (h : Agree a b lo hi) (hl : lo ≤ lo')
    (hh : hi' ≤ hi) : Agree a b lo' hi' :=
  fun j h1 h2 => h j (by omega) (by omega)

theorem agree_slice {a b : Mem} {lo hi : Nat} (h : Agree a b lo hi) (o l : Nat) (ho : lo ≤ o)
    (hl : o + l ≤ hi) : slice a o l = slice b o l := by
  apply List.ext_getElem?
  intro t
  rw [slice_getElem?, slice_getElem?]
  split_ifs with ht
  · exact h _ (by omega) (by omega)
  · rfl

theorem agree_rdHost {a b : Mem} {lo hi : Nat} (h : Agree a b lo hi) (hlen : a.length = b.length)
    (le : Bool) (k o : Nat) (ho : lo ≤ o) (hl : o + k ≤ hi) :
    rdHost le k a o = rdHost le k b o := by
  simp only [Restore.rdHost, hlen, agree_slice h o k ho hl]

theorem revElems_agree_low (k p n : Nat) (m : Mem) (h : p + k * n ≤ m.length) :
    Agree (revElems k p n m) m 0 p :=
  fun j _ hj => revElems_getElem?_out k p n m h j (Or.inl hj)

theorem descs_lookup (attrs : List AttributeS) (descs : List AttributeDesc) (i : Nat)
    (d : AttributeDesc) (h : attrs.map (fun a => a.Desc) = descs) (hd : descs[i]? = some d) :
    ∃ attr, attrs[i]? = some attr ∧ attr.Desc = d := by
  rw [← h, List.getElem?_map] at hd
  cases ha : attrs[i]? with
  | none => simp [ha] at hd
  | some attr =>
    simp only [ha, Option.map_some', Option.some.injEq] at hd
    exact ⟨attr, rfl, hd⟩

theorem descs_set (attrs : List AttributeS) (descs : List AttributeDesc) (i : Nat)
    (attr : AttributeS) (h : attrs.map (fun a => a.Desc) = descs)
    (hd : descs[i]? = some attr.Desc) :
    (attrs.set i attr).map (fun a => a.Desc) = descs := by
  rw [List.map_set, h]
  apply List.ext_getElem?
  intro j
  rw [List.getElem?_set]
  split_ifs with h1 h2
  · rw [← h1, hd]
  · rw [← h1]
    rw [List.getElem?_eq_none (by omega)]
  · rfl

theorem u32_of_lt (x : Nat) (h : x < 2 ^ 32) : u32 x = x := by
  unfold u32
  exact Nat.mod_eq_of_lt h

theorem rdHost_some (le : Bool) (k : Nat) (m : Mem) (o v : Nat) (h : rdHost le k m o = some v) :
    o + k ≤ m.length ∧ v = hostVal le (slice m o k) := by
  unfold rdHost at h
  split_ifs at h with hb
  exact ⟨hb, by simpa using h.symm⟩

theorem bitmask_agree (le : Bool) (nbs : Nat) (mS record : Mem) (ind : Nat)
    (hmS : mS.length = record.length) (hbits : Agree mS record 0 (4 * nbs)) (hind : ind / 32 < nbs) :
    BitmaskImpl.get le nbs mS ind = BitmaskImpl.get le nbs record ind := by
  unfold BitmaskImpl.get
  rw [agree_rdHost hbits hmS le 4 (4 * (ind / 32)) (Nat.zero_le _) (by omega)]

/-- In a constructed table every descriptor of a vector is found in
`allAttributesDesc` at the position its `attrId` names. -/
theorem shape_mem (cs : List Column) (t : TableS) (h : TableS.Shape cs t) (d : AttributeDesc)
    (hd : d ∈ t.m_fixedKeys ∨ d ∈ t.m_fixedAttribs ∨ d ∈ t.m_variableAttribs) :
    d ∈ t.allAttributesDesc := by
  rcases hd with hd | hd | hd
  · rw [h.keys] at hd; exact (List.mem_filter.mp hd).1
  · rw [h.attribs] at hd; exact (List.mem_filter.mp hd).1
  · rw [h.vars] at hd; exact (List.mem_filter.mp hd).1

theorem shape_lookup (cs : List Column) (t : TableS) (h : TableS.Shape cs t) (d : AttributeDesc)
    (hd : d ∈ t.m_fixedKeys ∨ d ∈ t.m_fixedAttribs ∨ d ∈ t.m_variableAttribs) :
    t.allAttributesDesc[d.attrId]? = some d := by
  have hall := shape_mem cs t h d hd
  obtain ⟨i, hi, he⟩ := List.getElem_of_mem hall
  have := h.attrId i hi
  simp only [List.get_eq_getElem, he] at this
  rw [this, List.getElem?_eq_getElem hi, he]

theorem nullInv_lookup (t : TableS) (h : TableS.NullInv t) (d : AttributeDesc)
    (hd : d ∈ t.m_variableAttribs) (ind : Nat) (hi : d.m_nullBitIndex = some ind) :
    ind / 32 < t.m_nullBitmaskSize := by
  obtain ⟨i, hlt, he⟩ := List.getElem_of_mem hd
  have := h.nullBit i hlt
  simp only [List.get_eq_getElem, he, hi, Option.some.injEq] at this
  have h1 := h.maskSize
  have h2 := h.noOfNullable
  omega

theorem slice_all (m : Mem) : slice m 0 m.length = m := by
  simp [slice]

theorem freadCount_bytes_le (n : Nat) (f : List Byte) (h : freadCount 1 n f = n) :
    n ≤ f.length := by
  simp only [freadCount, Nat.one_mul, List.length_take, Nat.div_one] at h
  omega

/-- A successful `readGCPEntry` has read four words, the first of which is
`GCP_ENTRY`, and has stored the third and the fourth. -/
theorem readGCPEntry_true (env : Env) (s s' : RestoreMetaData)
    (h : s.readGCPEntry env = .ret (true, s')) :
    ∃ file, s.m_file = some file ∧ 16 ≤ file.length ∧
      beVal (slice file 0 4) = env.GCP_ENTRY ∧
      s'.m_startGCP = beVal (slice file 8 4) ∧ s'.m_stopGCP = beVal (slice file 12 4) := by
  unfold RestoreMetaData.readGCPEntry at h
  cases hf : s.m_file with
  | none => rw [hf] at h; exact absurd h (by simp)
  | some file =>
  rw [hf] at h
  refine ⟨file, rfl, ?_⟩
  by_cases c : freadCount 4 4 file = 4
  swap
  · simp [c] at h
  have hl : 16 ≤ file.length := by
    simp only [freadCount, List.length_take] at c
    omega
  have hw : ∀ o, o + 4 ≤ 16 →
      ntohl env.le (wordAt env.le (freadData 4 4 file) o) = beVal (slice file o 4) := by
    intro o ho
    simp only [wordAt, freadData]
    rw [slice_take _ _ _ _ (by omega), ntohl_hostVal _ _ (slice_length file o 4 (by omega))]
  simp only [c, ne_eq, not_true_eq_false, if_false, hw 0 (by omega), hw 8 (by omega),
    hw 12 (by omega)] at h
  by_cases ht : beVal (slice file 0 4) = env.GCP_ENTRY
  swap
  · simp [ht] at h
  simp only [ht, not_true_eq_false, if_false, Res.ret.injEq, Prod.mk.injEq, true_and] at h
  subst h
  exact ⟨hl, ht, rfl, rfl⟩

/-- A `readMetaTableDesc` that returns true has read a complete section header
of type `TABLE_DESCRIPTION` and a complete body, which `parseTableInfo`
accepted. -/
theorem readMetaTableDesc_true (env : Env) (s s' : RestoreMetaData)
    (h : s.readMetaTableDesc env = .ret (true, s')) :
    ∃ file, s.m_file = some file ∧ 8 ≤ file.length ∧
      beVal (slice file 0 4) = env.TABLE_DESCRIPTION ∧
      4 * sub32 (beVal (slice file 4 4)) 2 ≤ (file.drop 8).length ∧
      ∃ blob tableImpl, env.parseTableInfo blob = (0, some tableImpl) := by
  unfold RestoreMetaData.readMetaTableDesc at h
  cases hf : s.m_file with
  | none => rw [hf] at h; exact absurd h (by simp)
  | some file =>
  rw [hf] at h
  refine ⟨file, rfl, ?_⟩
  by_cases c : freadCount 8 1 file = 1
  swap
  · simp [c] at h
  have hl : 8 ≤ file.length := (fread_one_count 8 (by omega) file).mp c
  have hw : ∀ o, o + 4 ≤ 8 →
      ntohl env.le (wordAt env.le (freadData 8 1 file) o) = beVal (slice file o 4) := by
    intro o ho
    simp only [wordAt, freadData]
    rw [slice_take _ _ _ _ (by omega), ntohl_hostVal _ _ (slice_length file o 4 (by omega))]
  have r1 : freadRest 8 1 file = file.drop 8 := by simp [freadRest]
  simp only [c, ne_eq, not_true_eq_false, if_false, hw 0 (by omega), hw 4 (by omega), r1] at h
  by_cases ht : beVal (slice file 0 4) = env.TABLE_DESCRIPTION
  swap
  · simp [ht] at h
  simp only [ht, not_true_eq_false, if_false] at h
  generalize sub32 (beVal (slice file 4 4)) 2 = len at h ⊢
  generalize RestoreMetaData.createBuffer env _ _ = s1 at h
  cases hb : s1.m_buffer with
  | none => simp [hb] at h
  | some buf =>
  simp only [hb] at h
  cases hst : storeAt buf (freadData 4 len (file.drop 8)) with
  | none => simp [hst] at h
  | some buf' =>
  simp only [hst] at h
  by_cases c2 : freadCount 4 len (file.drop 8) = len
  swap
  · simp [c2] at h
  simp only [c2, not_true_eq_false, if_false] at h
  refine ⟨hl, ht, ?_, ?_⟩
  · simp only [freadCount, List.length_take] at c2
    rcases Nat.eq_zero_or_pos len with h0 | h0
    · omega
    · by_contra hc
      have : min (4 * len) (file.drop 8).length / 4 < len := by
        apply Nat.div_lt_of_lt_mul
        omega
      omega
  · unfold RestoreMetaData.parseTableDescriptor at h
    by_cases h1 : buf'.length < 4 * len
    · simp [h1] at h
    simp only [h1, if_false] at h
    by_cases h2 : (env.parseTableInfo (List.take (4 * len) buf')).1 = 0
    swap
    · simp [h2] at h
    cases hp : (env.parseTableInfo (List.take (4 * len) buf')).2 with
    | none => simp [h2, hp] at h
    | some tableImpl => exact ⟨List.take (4 * len) buf', tableImpl, Prod.ext h2 hp⟩

/-- The loop over the table descriptions falls through only when every
`readMetaTableDesc` returned true. -/
theorem loadTables_none (env : Env) (n : Nat) (s s' : RestoreMetaData)
    (h : RestoreMetaData.loadTables env (n + 1) s = .ret (none, s')) :
    ∃ s1, s.readMetaTableDesc env = .ret (true, s1) ∧
      RestoreMetaData.loadTables env n s1 = .ret (none, s') := by
  unfold RestoreMetaData.loadTables at h
  cases hd : s.readMetaTableDesc env with
  | abort => simp [hd] at h
  | fault => simp [hd] at h
  | ret r =>
    obtain ⟨b, s1⟩ := r
    cases b with
    | false => simp [hd] at h
    | true => exact ⟨s1, rfl, by simpa [hd] using h⟩

/-- Apart from a table list of which `readMetaTableList` returns 0, `loadContent`
returns 1 only after every table description and the GCP entry were read
successfully. -/
theorem loadContent_success_cases (env : Env) (s s' : RestoreMetaData)
    (h : s.loadContent env = .ret (1, s')) :
    (∃ s1, s.readMetaTableList env = .ret (0, s1)) ∨
    ∃ n s1 s2, n ≠ 0 ∧ s.readMetaTableList env = .ret (n, s1) ∧
      RestoreMetaData.loadTables env n s1 = .ret (none, s2) ∧
      s2.readGCPEntry env = .ret (true, s') := by
  unfold RestoreMetaData.loadContent at h
  cases hl : s.readMetaTableList env with
  | abort => simp [hl] at h
  | fault => simp [hl] at h
  | ret r =>
    obtain ⟨n, s1⟩ := r
    by_cases hn : n = 0
    · subst hn; exact Or.inl ⟨s1, rfl⟩
    · right
      simp only [hl, hn, if_false] at h
      cases ht : RestoreMetaData.loadTables env n s1 with
      | abort => simp [ht] at h
      | fault => simp [ht] at h
      | ret r2 =>
        obtain ⟨o, s2⟩ := r2
        cases o with
        | some v =>
          simp only [ht, Res.ret.injEq, Prod.mk.injEq] at h
          exfalso
          -- the loop only ever leaves with the value 0
          have key : ∀ (k : Nat) (t t' : RestoreMetaData) (w : Int),
              RestoreMetaData.loadTables env k t = .ret (some w, t') → w = 0 := by
            intro k
            induction k with
            | zero => intro t t' w hk; simp [RestoreMetaData.loadTables] at hk
            | succ k ih =>
              intro t t' w hk
              unfold RestoreMetaData.loadTables at hk
              cases hd : t.readMetaTableDesc env with
              | abort => simp [hd] at hk
              | fault => simp [hd] at hk
              | ret r3 =>
                obtain ⟨b, t1⟩ := r3
                cases b with
                | false =>
                  simp only [hd, Res.ret.injEq, Prod.mk.injEq, Option.some.injEq] at hk
                  exact hk.1.symm
                | true =>
                  simp only [hd] at hk
                  exact ih t1 t' w hk
          have := key n s1 s2 v ht
          omega
        | none =>
          simp only [ht] at h
          cases hg : s2.readGCPEntry env with
          | abort => simp [hg] at h
          | fault => simp [hg] at h
          | ret r3 =>
            obtain ⟨b, s3⟩ := r3
            cases b with
            | false => simp [hg] at h
            | true =>
              simp only [hg, Res.ret.injEq, Prod.mk.injEq, true_and] at h
              subst h
              exact ⟨n, s1, s2, hn, rfl, ht, hg⟩

/-! ## The GCP range stored by `loadContent` -/

/-- A slice of the unread rest of a stream is a slice of the stream. -/
theorem slice_drop (m : Mem) (k o n : Nat) : slice (m.drop k) o n = slice m (k + o) n := by
  simp only [slice, List.drop_drop]

/-- A `readMetaTableList` that returns a count other than 0 has read the two
header words and the table list of `4 * count` bytes (as a `Uint32`) from the
stream and left the rest unread; the count is the second header word less 2. -/
theorem readMetaTableList_rest (env : Env) (s s1 : RestoreMetaData) (n : Nat) (hn : n ≠ 0)
    (h : s.readMetaTableList env = .ret (n, s1)) :
    ∃ ctl, s.m_file = some ctl ∧ n = sub32 (beVal (slice ctl 4 4)) 2 ∧
      8 + u32 (4 * n) ≤ ctl.length ∧ s1.m_file = some (ctl.drop (8 + u32 (4 * n))) := by
  unfold RestoreMetaData.readMetaTableList at h
  cases hf : s.m_file with
  | none => rw [hf] at h; exact absurd h (by simp)
  | some file =>
  rw [hf] at h
  refine ⟨file, rfl, ?_⟩
  by_cases c : freadCount 8 1 file = 1
  swap
  · simp only [c, ne_eq, not_false_eq_true, if_true, Res.ret.injEq, Prod.mk.injEq] at h
    exact absurd h.1.symm hn
  have hl : 8 ≤ file.length := (fread_one_count 8 (by omega) file).mp c
  have hw : ntohl env.le (wordAt env.le (freadData 8 1 file) 4) = beVal (slice file 4 4) := by
    simp only [wordAt, freadData]
    rw [slice_take _ _ _ _ (by omega), ntohl_hostVal _ _ (slice_length file 4 4 (by omega))]
  have r1 : freadRest 8 1 file = file.drop 8 := by simp [freadRest]
  simp only [c, ne_eq, not_true_eq_false, if_false, hw, r1] at h
  generalize sub32 (beVal (slice file 4 4)) 2 = m at h ⊢
  generalize RestoreMetaData.createBuffer env _ _ = t at h
  cases hb : t.m_buffer with
  | none => simp [hb] at h
  | some buf =>
  simp only [hb] at h
  cases hst : storeAt buf (freadData 1 (u32 (4 * m)) (file.drop 8)) with
  | none => simp [hst] at h
  | some buf' =>
  simp only [hst] at h
  by_cases c2 : freadCount 1 (u32 (4 * m)) (file.drop 8) = u32 (4 * m)
  swap
  · simp only [c2, not_false_eq_true, if_true, Res.ret.injEq, Prod.mk.injEq] at h
    exact absurd h.1.symm hn
  simp only [c2, not_true_eq_false, if_false, Res.ret.injEq, Prod.mk.injEq] at h
  obtain ⟨hm, hs⟩ := h
  subst hm
  subst hs
  have hl2 : u32 (4 * m) ≤ (file.drop 8).length := by
    simp only [freadCount, List.length_take, Nat.one_mul, Nat.div_one] at c2
    omega
  refine ⟨rfl, ?_, ?_⟩
  · simp only [List.length_drop] at hl2
    omega
  · simp only [freadRest, Nat.one_mul, List.drop_drop]

/-- A `readMetaTableDesc` that returns true has read a two-word header of type
`TABLE_DESCRIPTION` and the body of as many words as the second header word
less 2, and left the rest of the stream unread. -/
theorem readMetaTableDesc_rest (env : Env) (s s' : RestoreMetaData)
    (h : s.readMetaTableDesc env = .ret (true, s')) :
    ∃ file, s.m_file = some file ∧
      8 + 4 * sub32 (beVal (slice file 4 4)) 2 ≤ file.length ∧
      beVal (slice file 0 4) = env.TABLE_DESCRIPTION ∧
      s'.m_file = some (file.drop (8 + 4 * sub32 (beVal (slice file 4 4)) 2)) := by
  unfold RestoreMetaData.readMetaTableDesc at h
  cases hf : s.m_file with
  | none => rw [hf] at h; exact absurd h (by simp)
  | some file =>
  rw [hf] at h
  refine ⟨file, rfl, ?_⟩
  by_cases c : freadCount 8 1 file = 1
  swap
  · simp [c] at h
  have hl : 8 ≤ file.length := (fread_one_count 8 (by omega) file).mp c
  have hw : ∀ o, o + 4 ≤ 8 →
      ntohl env.le (wordAt env.le (freadData 8 1 file) o) = beVal (slice file o 4) := by
    intro o ho
    simp only [wordAt, freadData]
    rw [slice_take _ _ _ _ (by omega), ntohl_hostVal _ _ (slice_length file o 4 (by omega))]
  have r1 : freadRest 8 1 file = file.drop 8 := by simp [freadRest]
  simp only [c, ne_eq, not_true_eq_false, if_false, hw 0 (by omega), hw 4 (by omega), r1] at h
  by_cases ht : beVal (slice file 0 4) = env.TABLE_DESCRIPTION
  swap
  · simp [ht] at h
  simp only [ht, not_true_eq_false, if_false] at h
  generalize sub32 (beVal (slice file 4 4)) 2 = len at h ⊢
  generalize RestoreMetaData.createBuffer env _ _ = t at h
  cases hb : t.m_buffer with
  | none => simp [hb] at h
  | some buf =>
  simp only [hb] at h
  cases hst : storeAt buf (freadData 4 len (file.drop 8)) with
  | none => simp [hst] at h
  | some buf' =>
  simp only [hst] at h
  by_cases c2 : freadCount 4 len (file.drop 8) = len
  swap
  · simp [c2] at h
  simp only [c2, not_true_eq_false, if_false] at h
  have hl2 : 4 * len ≤ (file.drop 8).length := by
    simp only [freadCount, List.length_take] at c2
    omega
  simp only [List.length_drop] at hl2
  refine ⟨by omega, ht, ?_⟩
  have hr : freadRest 4 len (file.drop 8) = file.drop (8 + 4 * len) := by
    simp only [freadRest, List.drop_drop]
  rw [hr] at h
  unfold RestoreMetaData.parseTableDescriptor at h
  by_cases h1 : buf'.length < 4 * len
  · simp [h1] at h
  simp only [h1, if_false] at h
  by_cases h2 : (env.parseTableInfo (List.take (4 * len) buf')).1 = 0
  swap
  · simp [h2] at h
  cases hp : (env.parseTableInfo (List.take (4 * len) buf')).2 with
  | none => simp [h2, hp] at h
  | some tableImpl =>
    simp only [h2, hp, ne_eq, not_true_eq_false, if_false, Res.ret.injEq, Prod.mk.injEq,
      true_and] at h
    subst h
    rfl

/-- The loop over `n` table descriptions, when it falls through, has read
`tableDescsLength n file` bytes of the stream `file` and left the rest unread. -/
theorem loadTables_rest (env : Env) (n : Nat) :
    ∀ (s s' : RestoreMetaData) (file : List Byte),
      RestoreMetaData.loadTables env n s = .ret (none, s') → s.m_file = some file →
      tableDescsLength n file ≤ file.length ∧
        s'.m_file = some (file.drop (tableDescsLength n file)) := by
  induction n with
  | zero =>
    intro s s' file h hf
    simp only [RestoreMetaData.loadTables, Res.ret.injEq, Prod.mk.injEq, true_and] at h
    subst h
    simp [tableDescsLength, hf]
  | succ n ih =>
    intro s s' file h hf
    obtain ⟨s1, hd, hr⟩ := loadTables_none env n s s' h
    obtain ⟨file', hf', hl, _, hm⟩ := readMetaTableDesc_rest env s s1 hd
    rw [hf] at hf'
    cases hf'
    obtain ⟨hl', hm'⟩ := ih s1 s' _ hr hm
    simp only [List.length_drop] at hl'
    simp only [tableDescsLength]
    refine ⟨by omega, ?_⟩
    rw [hm', List.drop_drop]

/-- `readMetaTableList` leaves the two GCP fields as they were. -/
theorem readMetaTableList_gcp (env : Env) (s s1 : RestoreMetaData) (n : Nat)
    (h : s.readMetaTableList env = .ret (n, s1)) :
    s1.m_startGCP = s.m_startGCP ∧ s1.m_stopGCP = s.m_stopGCP := by
  unfold RestoreMetaData.readMetaTableList at h
  cases hf : s.m_file with
  | none => rw [hf] at h; exact absurd h (by simp)
  | some file =>
  rw [hf] at h
  by_cases c : freadCount 8 1 file = 1
  swap
  · simp only [c, ne_eq, not_false_eq_true, if_true, Res.ret.injEq, Prod.mk.injEq] at h
    rw [← h.2]
    exact ⟨rfl, rfl⟩
  simp only [c, ne_eq, not_true_eq_false, if_false] at h
  generalize ht : RestoreMetaData.createBuffer env _ _ = t at h
  have hg : t.m_startGCP = s.m_startGCP ∧ t.m_stopGCP = s.m_stopGCP := by
    rw [← ht]
    exact ⟨rfl, rfl⟩
  cases hb : t.m_buffer with
  | none => simp [hb] at h
  | some buf =>
  simp only [hb] at h
  generalize freadRest 8 1 file = file1 at h
  generalize u32 _ = len at h
  cases hst : storeAt buf (freadData 1 len file1) with
  | none => simp [hst] at h
  | some buf' =>
  simp only [hst] at h
  split_ifs at h
  all_goals
    simp only [Res.ret.injEq, Prod.mk.injEq] at h
    rw [← h.2]
    exact hg

/-- C11 as stated fails: on a control file whose GCP entry holds
`StartGCP = 11` and `StopGCP = 7`, `loadContent` returns 1 (success) and the
metadata has `m_startGCP = 11 > m_stopGCP = 7`. -/
theorem C11_descending_gcp_counterexample :
    RestoreMetaData.loadContent exEnv (exMeta exCtlDescending none 0) = .ret (1, exCtlLoaded) ∧
    exCtlLoaded.m_startGCP = 11 ∧ exCtlLoaded.m_stopGCP = 7 ∧
    ¬ exCtlLoaded.m_startGCP ≤ exCtlLoaded.m_stopGCP := by
  decide

/-- C11 (amended): when `loadContent`, started on the unread content `ctl` of
the control file, returns 1 (success), then either `readMetaTableList` returned
the count 0, no GCP entry was read and the two GCP fields are as they were, or
the count `n` is the second word of `ctl` less 2 and is not 0, the `n` table
descriptions that follow the table list were all read, the GCP entry is the
four complete words of `ctl` at the byte offset `k` right after them, its first
word is `GCP_ENTRY`, and `m_startGCP` and `m_stopGCP` are the third and the
fourth of these big-endian words of the control file as they stand; no order
between the two is required. -/
theorem C11_gcp_stored (env : Env) (s s' : RestoreMetaData)
    (h : s.loadContent env = .ret (1, s')) :
    (s.readMetaTableList env = .ret (0, s') ∧
      s'.m_startGCP = s.m_startGCP ∧ s'.m_stopGCP = s.m_stopGCP) ∨
    ∃ (n k : Nat) (s1 s2 : RestoreMetaData) (ctl : List Byte),
      s.m_file = some ctl ∧ n = sub32 (beVal (slice ctl 4 4)) 2 ∧ n ≠ 0 ∧
      k = 8 + u32 (4 * n) + tableDescsLength n (ctl.drop (8 + u32 (4 * n))) ∧
      s.readMetaTableList env = .ret (n, s1) ∧
      RestoreMetaData.loadTables env n s1 = .ret (none, s2) ∧
      s2.m_file = some (ctl.drop k) ∧
      s2.readGCPEntry env = .ret (true, s') ∧
      k + 16 ≤ ctl.length ∧ beVal (slice ctl k 4) = env.GCP_ENTRY ∧
      s'.m_startGCP = beVal (slice ctl (k + 8) 4) ∧
      s'.m_stopGCP = beVal (slice ctl (k + 12) 4) := by
  rcases loadContent_success_cases env s s' h with ⟨s1, h1⟩ | ⟨n, s1, s2, hn, hl, ht, hg⟩
  · left
    have e : s.loadContent env = .ret (1, s1) := by
      simp [RestoreMetaData.loadContent, h1]
    rw [e] at h
    simp only [Res.ret.injEq, Prod.mk.injEq, true_and] at h
    subst h
    exact ⟨h1, readMetaTableList_gcp env s s1 0 h1⟩
  · right
    obtain ⟨ctl, hc, hn2, hl1, hm1⟩ := readMetaTableList_rest env s s1 n hn hl
    obtain ⟨hl2, hm2⟩ := loadTables_rest env n s1 s2 _ ht hm1
    obtain ⟨file, hf, hl3, hty, ha, hb⟩ := readGCPEntry_true env s2 s' hg
    rw [List.drop_drop] at hm2
    rw [hm2] at hf
    cases hf
    simp only [List.length_drop] at hl2 hl3
    rw [slice_drop] at hty ha hb
    rw [Nat.add_zero] at hty
    exact ⟨n, _, s1, s2, ctl, hc, hn2, hn, rfl, hl, ht, hm2, hg, by omega, hty, ha, hb⟩

/-- C11 (amended) on the control file with the descending GCP range. -/
theorem C11_gcp_stored_witness :
    RestoreMetaData.loadContent exEnv (exMeta exCtlDescending none 0) = .ret (1, exCtlLoaded) ∧
    (((exMeta exCtlDescending none 0).readMetaTableList exEnv = .ret (0, exCtlLoaded) ∧
      exCtlLoaded.m_startGCP = (exMeta exCtlDescending none 0).m_startGCP ∧
      exCtlLoaded.m_stopGCP = (exMeta exCtlDescending none 0).m_stopGCP) ∨
    ∃ (n k : Nat) (s1 s2 : RestoreMetaData) (ctl : List Byte),
      (exMeta exCtlDescending none 0).m_file = some ctl ∧
      n = sub32 (beVal (slice ctl 4 4)) 2 ∧ n ≠ 0 ∧
      k = 8 + u32 (4 * n) + tableDescsLength n (ctl.drop (8 + u32 (4 * n))) ∧
      (exMeta exCtlDescending none 0).readMetaTableList exEnv = .ret (n, s1) ∧
      RestoreMetaData.loadTables exEnv n s1 = .ret (none, s2) ∧
      s2.m_file = some (ctl.drop k) ∧
      s2.readGCPEntry exEnv = .ret (true, exCtlLoaded) ∧
      k + 16 ≤ ctl.length ∧ beVal (slice ctl k 4) = exEnv.GCP_ENTRY ∧
      exCtlLoaded.m_startGCP = beVal (slice ctl (k + 8) 4) ∧
      exCtlLoaded.m_stopGCP = beVal (slice ctl (k + 12) 4)) :=
  ⟨by decide, C11_gcp_stored exEnv (exMeta exCtlDescending none 0) exCtlLoaded (by decide)⟩

/-! ## What a decoding step of `getNextTuple` does when it runs to its end -/

theorem twiddleLoop_frame (le : Bool) (k : Nat) (f : Nat → Nat) (hf : SwapsBytes k f)
    (p : Option Nat) (n : Nat) (m m' : Mem) (h : twiddleLoop le k f p n m = some m') :
    m'.length = m.length ∧ ∀ lo, (∀ o, p = some o → lo ≤ o) → Agree m' m 0 lo := by
  obtain ⟨hlen, hcase⟩ := twiddleLoop_some le k f p n m m' h
  refine ⟨hlen, fun lo hlo => ?_⟩
  rcases hcase with h0 | ⟨o, hp, hb⟩
  · subst h0
    rw [twiddleLoop_zero] at h
    simp only [Option.some.injEq] at h
    subst h
    exact agree_refl _ _ _
  · subst hp
    rw [twiddleLoop_eq le k f hf o n m hb] at h
    simp only [Option.some.injEq] at h
    subst h
    exact agree_mono (revElems_agree_low k o n m hb) (le_refl 0) (hlo o rfl)

/-- `Twiddle` keeps the length of the block and every byte below the data of
the attribute. -/
theorem Twiddle_frame (le hbo : Bool) (m m' : Mem) (attr : AttributeS) (n : Nat) (b : Bool)
    (h : BackupFile.Twiddle le hbo m attr n = some (b, m')) :
    m'.length = m.length ∧ ∀ lo, (∀ o, attr.ptr = some o → lo ≤ o) → Agree m' m 0 lo := by
  have triv : ∀ x : Bool × Mem, some (x.1, m) = some (b, m') →
      m'.length = m.length ∧ ∀ lo, (∀ o, attr.ptr = some o → lo ≤ o) → Agree m' m 0 lo := by
    intro x hx
    simp only [Option.some.injEq, Prod.mk.injEq] at hx
    rw [← hx.2]
    exact ⟨rfl, fun lo _ => agree_refl _ _ _⟩
  have loop : ∀ (k : Nat) (f : Nat → Nat) (N : Nat), SwapsBytes k f →
      (twiddleLoop le k f attr.ptr N m).map (fun m' => (true, m')) = some (b, m') →
      m'.length = m.length ∧ ∀ lo, (∀ o, attr.ptr = some o → lo ≤ o) → Agree m' m 0 lo := by
    intro k f N hf hx
    cases hl : twiddleLoop le k f attr.ptr N m with
    | none => simp [hl] at hx
    | some m1 =>
      simp only [hl, Option.map_some', Option.some.injEq, Prod.mk.injEq] at hx
      rw [← hx.2]
      exact twiddleLoop_frame le k f hf attr.ptr N m m1 hl
  unfold BackupFile.Twiddle at h
  cases hbo with
  | true => exact triv (true, m) (by simpa using h)
  | false =>
    simp only [Bool.false_eq_true, if_false] at h
    by_cases h8 : attr.Desc.size = 8
    · exact triv (true, m) (by simpa [h8] using h)
    by_cases h16 : attr.Desc.size = 16
    · simp only [h16, Nat.reduceEqDiff, if_false, if_true] at h
      exact loop 2 Twiddle16 _ swaps16 h
    by_cases h32 : attr.Desc.size = 32
    · simp only [h32, Nat.reduceEqDiff, if_false, if_true] at h
      exact loop 4 Twiddle32 _ swaps32 h
    by_cases h64 : attr.Desc.size = 64
    · simp only [h64, Nat.reduceEqDiff, if_false, if_true] at h
      exact loop 8 Twiddle64 _ swaps64 h
    · exact triv (false, m) (by simpa [h8, h16, h32, h64] using h)

/-- A body of the loops over `m_fixedKeys` and `m_fixedAttribs` that runs to its
end. -/
theorem fixedStep_ok (le hbo : Bool) (dl : Nat) (d : AttributeDesc) (st st' : DecState)
    (h : fixedStep le hbo dl d st = .ok st') :
    st.ptr < dl ∧ ∃ attr, st.attrs[d.attrId]? = some attr ∧
      st'.ptr = st.ptr + attr.Desc.getSizeInWords ∧
      st'.attrs = st.attrs.set d.attrId
        { attr with Data := some { null := false, void_value := some (4 * st.ptr) } } ∧
      BackupFile.Twiddle le hbo st.mem
        { attr with Data := some { null := false, void_value := some (4 * st.ptr) } } 0 =
          some (true, st'.mem) := by
  unfold fixedStep at h
  by_cases hlt : st.ptr < dl
  swap
  · simp [hlt] at h
  simp only [hlt, not_true_eq_false, if_false] at h
  cases ha : st.attrs[d.attrId]? with
  | none => simp [ha] at h
  | some attr =>
    simp only [ha] at h
    cases hT : BackupFile.Twiddle le hbo st.mem
        { attr with Data := some { null := false, void_value := some (4 * st.ptr) } } 0 with
    | none => simp [hT] at h
    | some r =>
      obtain ⟨b, mem⟩ := r
      cases b with
      | false => simp [hT] at h
      | true =>
        simp only [hT, Dec.ok.injEq] at h
        subst h
        exact ⟨hlt, attr, rfl, rfl, rfl, hT⟩

/-- The decoding of a `VariableData` record that runs to its end. -/
theorem variableData_ok (le hbo : Bool) (dl : Nat) (d : AttributeDesc) (attr : AttributeS)
    (st st' : DecState) (h : variableData le hbo dl d attr st = .ok st') :
    st.ptr < dl ∧ ∃ w0 w1, rdHost le 4 st.mem (4 * st.ptr) = some w0 ∧
      rdHost le 4 st.mem (4 * st.ptr + 4) = some w1 ∧ ntohl le w1 = d.attrId ∧
      attr.Desc.size / 8 ≠ 0 ∧
      attr.Desc.arraySize ≤ u32 (4 * ntohl le w0) / (attr.Desc.size / 8) ∧
      st'.ptr = st.ptr + u32 (ntohl le w0 + 2) ∧
      st'.attrs = st.attrs.set d.attrId
        { attr with Data := some { null := false, void_value := some (4 * st.ptr + 8) } } ∧
      BackupFile.Twiddle le hbo st.mem
        { attr with Data := some { null := false, void_value := some (4 * st.ptr + 8) } }
        attr.Desc.arraySize = some (true, st'.mem) := by
  unfold variableData at h
  by_cases hlt : st.ptr < dl
  swap
  · simp [hlt] at h
  simp only [hlt, not_true_eq_false, if_false] at h
  cases h0 : rdHost le 4 st.mem (4 * st.ptr) with
  | none => simp [h0] at h
  | some w0 =>
  cases h1 : rdHost le 4 st.mem (4 * st.ptr + 4) with
  | none => simp [h0, h1] at h
  | some w1 =>
  simp only [h0, h1] at h
  by_cases hid : ntohl le w1 = d.attrId
  swap
  · simp [hid] at h
  by_cases hk : attr.Desc.size / 8 = 0
  · simp [hid, hk] at h
  by_cases hn : attr.Desc.arraySize ≤ u32 (4 * ntohl le w0) / (attr.Desc.size / 8)
  swap
  · simp [hid, hk, hn] at h
  simp only [hid, hk, hn, ne_eq, not_true_eq_false, if_false, ge_iff_le] at h
  cases hT : BackupFile.Twiddle le hbo st.mem
      { attr with Data := some { null := false, void_value := some (4 * st.ptr + 8) } }
      attr.Desc.arraySize with
  | none => simp [hT] at h
  | some r =>
    obtain ⟨b, mem⟩ := r
    cases b with
    | false => simp [hT] at h
    | true =>
      simp only [hT, Dec.ok.injEq] at h
      subst h
      exact ⟨hlt, w0, w1, rfl, rfl, hid, hk, hn, rfl, rfl, rfl⟩

/-- A body of the loop over `m_variableAttribs` that runs to its end: either
the attribute is nullable and its null bit is set, and it becomes a null
attribute while cursor and buffer stay, or its `VariableData` record is
decoded. -/
theorem variableStep_ok (le hbo : Bool) (nbs dl : Nat) (d : AttributeDesc) (st st' : DecState)
    (h : variableStep le hbo nbs dl d st = .ok st') :
    ∃ attr, st.attrs[d.attrId]? = some attr ∧
      ((attr.Desc.m_column.getNullable = true ∧
          ∃ ind, attr.Desc.m_nullBitIndex = some ind ∧
            BitmaskImpl.get le nbs st.mem ind = some true ∧
            st' = ⟨st.ptr, st.mem, st.attrs.set d.attrId
                      { attr with Data := some { null := true, void_value := none } }⟩) ∨
        ((attr.Desc.m_column.getNullable = true →
            ∃ ind, attr.Desc.m_nullBitIndex = some ind ∧
              BitmaskImpl.get le nbs st.mem ind = some false) ∧
          variableData le hbo dl d attr st = .ok st')) := by
  unfold variableStep at h
  cases ha : st.attrs[d.attrId]? with
  | none => simp [ha] at h
  | some attr =>
    simp only [ha] at h
    refine ⟨attr, rfl, ?_⟩
    by_cases hn : attr.Desc.m_column.getNullable = true
    swap
    · right
      simp only [hn, Bool.false_eq_true, if_false] at h
      exact ⟨fun hc => absurd hc hn, h⟩
    simp only [hn, if_true] at h
    cases hi : attr.Desc.m_nullBitIndex with
    | none => simp [hi] at h
    | some ind =>
      simp only [hi] at h
      cases hb : BitmaskImpl.get le nbs st.mem ind with
      | none => simp [hb] at h
      | some b =>
        cases b with
        | true =>
          left
          simp only [hb, Dec.ok.injEq] at h
          exact ⟨hn, ind, rfl, hb, h.symm⟩
        | false =>
          right
          simp only [hb] at h
          exact ⟨fun _ => ⟨ind, rfl, hb⟩, h⟩

/-! ## Invariants of the decoding loops of `getNextTuple` -/

/-- A loop of `getNextTuple` whose bodies keep `P` and each leave an attribute
with the property `G` at the position of their descriptor: when the loop runs
to its end `P` holds, every descriptor of the vector has such an attribute at
its position, and the attributes that had the property before still have it. -/
theorem decodeLoop_inv (step : AttributeDesc → DecState → Dec DecState)
    (P : DecState → Prop) (G : AttributeS → Prop) (ds : List AttributeDesc)
    (hstep : ∀ d ∈ ds, ∀ st st' : DecState, P st → step d st = .ok st' →
      P st' ∧ ∃ a, G a ∧ st'.attrs = st.attrs.set d.attrId a ∧ d.attrId < st.attrs.length) :
    ∀ st st' : DecState, P st → decodeLoop step ds st = .ok st' →
      P st' ∧ st'.attrs.length = st.attrs.length ∧
      (∀ d ∈ ds, ∃ a, st'.attrs[d.attrId]? = some a ∧ G a) ∧
      (∀ (i : Nat) (a : AttributeS), st.attrs[i]? = some a → G a →
        ∃ a', st'.attrs[i]? = some a' ∧ G a') := by
  induction ds with
  | nil =>
    intro st st' hP h
    simp only [decodeLoop, Dec.ok.injEq] at h
    subst h
    exact ⟨hP, rfl, fun d hd => absurd hd (List.not_mem_nil d), fun i a ha hG => ⟨a, ha, hG⟩⟩
  | cons d ds ih =>
    intro st st' hP h
    simp only [decodeLoop] at h
    cases h1 : step d st with
    | fail => simp [h1, Dec.bind] at h
    | abort => simp [h1, Dec.bind] at h
    | fault => simp [h1, Dec.bind] at h
    | ok st1 =>
      simp only [h1, Dec.bind] at h
      obtain ⟨hP1, a, hGa, hset, hlt⟩ := hstep d (List.mem_cons_self d ds) st st1 hP h1
      obtain ⟨hP', hlen, hall, hkeep⟩ :=
        ih (fun d' hd' => hstep d' (List.mem_cons_of_mem d hd')) st1 st' hP1 h
      have hkeep1 : ∀ (i : Nat) (a0 : AttributeS), st.attrs[i]? = some a0 → G a0 →
          ∃ a', st1.attrs[i]? = some a' ∧ G a' := by
        intro i a0 ha0 hG0
        rw [hset, List.getElem?_set]
        split_ifs with e1
        · exact ⟨a, rfl, hGa⟩
        · exact ⟨a0, ha0, hG0⟩
      refine ⟨hP', ?_, ?_, ?_⟩
      · rw [hlen, hset, List.length_set]
      · intro d' hd'
        rcases List.mem_cons.mp hd' with e | hm
        · subst e
          have : st1.attrs[d'.attrId]? = some a := by
            rw [hset, List.getElem?_set]
            simp [hlt]
          exact hkeep _ a this hGa
        · exact hall d' hm
      · intro i a0 ha0 hG0
        obtain ⟨a1, ha1, hG1⟩ := hkeep1 i a0 ha0 hG0
        exact hkeep i a1 ha1 hG1

/-- A fixed-size decoding step keeps the frame and leaves a non-null attribute
with data at the position of its descriptor. -/
theorem fixedStep_frame (le hbo : Bool) (record : Mem) (nbs : Nat) (descs : List AttributeDesc)
    (dl : Nat) (d : AttributeDesc) (st st' : DecState) (hd : descs[d.attrId]? = some d)
    (hf : DecFrame record nbs descs st) (h : fixedStep le hbo dl d st = .ok st') :
    DecFrame record nbs descs st' ∧
    ∃ a, (a.Desc = d ∧ ∃ p, a.Data = some { null := false, void_value := some p }) ∧
      st'.attrs = st.attrs.set d.attrId a ∧ d.attrId < st.attrs.length := by
  obtain ⟨hlen, hbits, hptr, hdescs⟩ := hf
  obtain ⟨_, attr, hattr, hp, hset, hT⟩ := fixedStep_ok le hbo dl d st st' h
  obtain ⟨attr0, hattr0, hdesc⟩ := descs_lookup st.attrs descs d.attrId d hdescs hd
  rw [hattr] at hattr0
  simp only [Option.some.injEq] at hattr0
  subst hattr0
  obtain ⟨hl, hag⟩ := Twiddle_frame le hbo st.mem st'.mem _ 0 true hT
  have hlow : Agree st'.mem st.mem 0 (4 * nbs) := by
    apply hag
    intro o ho
    simp only [AttributeS.ptr, Option.some.injEq] at ho
    omega
  have hi : d.attrId < st.attrs.length := by
    rcases Nat.lt_or_ge d.attrId st.attrs.length with h1 | h1
    · exact h1
    · rw [List.getElem?_eq_none h1] at hattr
      exact absurd hattr (by simp)
  refine ⟨⟨by rw [hl, hlen], agree_trans hlow hbits, by omega, ?_⟩,
    { attr with Data := some { null := false, void_value := some (4 * st.ptr) } },
    ⟨hdesc, _, rfl⟩, hset, hi⟩
  rw [hset]
  exact descs_set st.attrs descs d.attrId _ hdescs (by rw [hd]; simp [hdesc])

/-- A variable-size decoding step keeps the frame and leaves, at the position of
its descriptor, either a null attribute without data, the null bit of the
record being set, or a non-null attribute with data, the null bit being clear
when the column is nullable. -/
theorem variableStep_frame (le hbo : Bool) (record : Mem) (nbs : Nat)
    (descs : List AttributeDesc) (dl : Nat) (d : AttributeDesc) (st st' : DecState)
    (hd : descs[d.attrId]? = some d)
    (hnull : ∀ ind, d.m_nullBitIndex = some ind → ind / 32 < nbs)
    (hf : DecFrame record nbs descs st) (h : variableStep le hbo nbs dl d st = .ok st') :
    DecFrame record nbs descs st' ∧
    ∃ a, (a.Desc = d ∧
        ((d.m_column.getNullable = true ∧ ∃ ind, d.m_nullBitIndex = some ind ∧
            BitmaskImpl.get le nbs record ind = some true ∧
            a.Data = some { null := true, void_value := none }) ∨
          ((d.m_column.getNullable = true → ∃ ind, d.m_nullBitIndex = some ind ∧
              BitmaskImpl.get le nbs record ind = some false) ∧
            ∃ p, a.Data = some { null := false, void_value := some p }))) ∧
      st'.attrs = st.attrs.set d.attrId a ∧ d.attrId < st.attrs.length := by
  obtain ⟨hlen, hbits, hptr, hdescs⟩ := hf
  obtain ⟨attr, hattr, hcase⟩ := variableStep_ok le hbo nbs dl d st st' h
  obtain ⟨attr0, hattr0, hdesc⟩ := descs_lookup st.attrs descs d.attrId d hdescs hd
  rw [hattr] at hattr0
  simp only [Option.some.injEq] at hattr0
  subst hattr0
  have hi : d.attrId < st.attrs.length := by
    rcases Nat.lt_or_ge d.attrId st.attrs.length with h1 | h1
    · exact h1
    · rw [List.getElem?_eq_none h1] at hattr
      exact absurd hattr (by simp)
  have hbit : ∀ ind, d.m_nullBitIndex = some ind →
      BitmaskImpl.get le nbs st.mem ind = BitmaskImpl.get le nbs record ind :=
    fun ind hind => bitmask_agree le nbs st.mem record ind hlen hbits (hnull ind hind)
  rcases hcase with ⟨hn, ind, hind, hget, hst⟩ | ⟨hn, hdata⟩
  · rw [hdesc] at hn hind
    subst hst
    refine ⟨⟨hlen, hbits, hptr, ?_⟩,
      { attr with Data := some { null := true, void_value := none } },
      ⟨hdesc, Or.inl ⟨hn, ind, hind, ?_, rfl⟩⟩, rfl, hi⟩
    · exact descs_set st.attrs descs d.attrId _ hdescs (by rw [hd]; simp [hdesc])
    · rw [← hbit ind hind]; exact hget
  · obtain ⟨_, w0, w1, _, _, _, _, _, hp, hset, hT⟩ :=
      variableData_ok le hbo dl d attr st st' hdata
    obtain ⟨hl, hag⟩ := Twiddle_frame le hbo st.mem st'.mem _ _ true hT
    have hlow : Agree st'.mem st.mem 0 (4 * nbs) := by
      apply hag
      intro o ho
      simp only [AttributeS.ptr, Option.some.injEq] at ho
      omega
    rw [hdesc] at hn
    refine ⟨⟨by rw [hl, hlen], agree_trans hlow hbits, by omega, ?_⟩,
      { attr with Data := some { null := false, void_value := some (4 * st.ptr + 8) } },
      ⟨hdesc, Or.inr ⟨?_, _, rfl⟩⟩, hset, hi⟩
    · rw [hset]
      exact descs_set st.attrs descs d.attrId _ hdescs (by rw [hd]; simp [hdesc])
    · intro hc
      obtain ⟨ind, hind, hget⟩ := hn hc
      exact ⟨ind, hind, by rw [← hbit ind hind]; exact hget⟩

/-! ## The attributes of a decoded record -/

theorem prepareRecord_descs (tab : TableS) :
    (TupleS.prepareRecord tab).allAttributes.map (fun a => a.Desc) = tab.allAttributesDesc := by
  simp [TupleS.prepareRecord, List.map_map, Function.comp_def]

/-- Every descriptor of a table is in one of its three vectors. -/
theorem shape_cases (cs : List Column) (t : TableS) (h : TableS.Shape cs t) (d : AttributeDesc)
    (hd : d ∈ t.allAttributesDesc) :
    d ∈ t.m_fixedKeys ∨ d ∈ t.m_fixedAttribs ∨ d ∈ t.m_variableAttribs := by
  rw [h.keys, h.attribs, h.vars]
  simp only [List.mem_filter, hd, true_and]
  cases d.m_column.getPrimaryKey <;> cases d.m_column.getNullable <;> simp

/-- The three decoding loops in sequence: when every body keeps `P` and leaves
an attribute with the property `G` at the position of its descriptor, and `P`
says that the attributes carry the descriptors of the table, then after the
loops have run to their end `P` holds and every attribute of the tuple has the
property `G`. -/
theorem decodeRecord_inv (le hbo : Bool) (cs : List Column) (tab : TableS)
    (hs : TableS.Shape cs tab) (dl : Nat) (record : Mem) (st : DecState)
    (P : DecState → Prop) (G : AttributeS → Prop)
    (h0 : P { ptr := tab.m_nullBitmaskSize, mem := record,
              attrs := (TupleS.prepareRecord tab).allAttributes })
    (hdescs : ∀ st : DecState, P st → st.attrs.map (fun a => a.Desc) = tab.allAttributesDesc)
    (step1 : ∀ d ∈ tab.m_fixedKeys, ∀ st st' : DecState, P st →
      fixedStep le hbo dl d st = .ok st' →
      P st' ∧ ∃ a, G a ∧ st'.attrs = st.attrs.set d.attrId a ∧ d.attrId < st.attrs.length)
    (step2 : ∀ d ∈ tab.m_fixedAttribs, ∀ st st' : DecState, P st →
      fixedStep le hbo dl d st = .ok st' →
      P st' ∧ ∃ a, G a ∧ st'.attrs = st.attrs.set d.attrId a ∧ d.attrId < st.attrs.length)
    (step3 : ∀ d ∈ tab.m_variableAttribs, ∀ st st' : DecState, P st →
      variableStep le hbo tab.m_nullBitmaskSize dl d st = .ok st' →
      P st' ∧ ∃ a, G a ∧ st'.attrs = st.attrs.set d.attrId a ∧ d.attrId < st.attrs.length)
    (h : decodeRecord le hbo tab dl record (TupleS.prepareRecord tab).allAttributes = .ok st) :
    P st ∧ ∀ a ∈ st.attrs, G a := by
  unfold decodeRecord at h
  cases h1 : decodeLoop (fixedStep le hbo dl) tab.m_fixedKeys
      { ptr := tab.m_nullBitmaskSize, mem := record,
        attrs := (TupleS.prepareRecord tab).allAttributes } with
  | fail => simp [h1, Dec.bind] at h
  | abort => simp [h1, Dec.bind] at h
  | fault => simp [h1, Dec.bind] at h
  | ok st1 =>
  simp only [h1, Dec.bind] at h
  cases h2 : decodeLoop (fixedStep le hbo dl) tab.m_fixedAttribs st1 with
  | fail => simp [h2] at h
  | abort => simp [h2] at h
  | fault => simp [h2] at h
  | ok st2 =>
  simp only [h2] at h
  obtain ⟨f1, _, a1, _⟩ := decodeLoop_inv _ _ _ _ step1 _ _ h0 h1
  obtain ⟨f2, _, a2, k2⟩ := decodeLoop_inv _ _ _ _ step2 _ _ f1 h2
  obtain ⟨f3, _, a3, k3⟩ := decodeLoop_inv _ _ _ _ step3 _ _ f2 h
  refine ⟨f3, fun a ha => ?_⟩
  obtain ⟨i, hi, hai⟩ := List.getElem_of_mem ha
  have hget : st.attrs[i]? = some a := by rw [List.getElem?_eq_getElem hi, hai]
  -- the descriptor at position `i`
  have hdl : i < tab.allAttributesDesc.length := by
    rw [← hdescs st f3, List.length_map]; exact hi
  have hdi : (tab.allAttributesDesc.get ⟨i, hdl⟩).attrId = i := hs.attrId i hdl
  have hmem : tab.allAttributesDesc.get ⟨i, hdl⟩ ∈ tab.allAttributesDesc := List.get_mem _ _ _
  have good : ∃ a', st.attrs[(tab.allAttributesDesc.get ⟨i, hdl⟩).attrId]? = some a' ∧
      G a' := by
    rcases shape_cases cs tab hs _ hmem with hk | hk | hk
    · obtain ⟨b1, hb1, g1⟩ := a1 _ hk
      obtain ⟨b2, hb2, g2⟩ := k2 _ b1 hb1 g1
      exact k3 _ b2 hb2 g2
    · obtain ⟨b2, hb2, g2⟩ := a2 _ hk
      exact k3 _ b2 hb2 g2
    · exact a3 _ hk
  rw [hdi] at good
  obtain ⟨a', ha', g'⟩ := good
  rw [hget] at ha'
  simp only [Option.some.injEq] at ha'
  rw [ha']
  exact g'

/-- When the three decoding loops run to their end on a record of a
constructed table, the tuple buffer has kept its length and its null bitmask,
the attributes still carry the descriptors of the table in order, and every
attribute has been assigned: an attribute of a nullable non-key column
according to its bit of the null bitmask, every other one as not null with
data. -/
theorem decodeRecord_attrs (le hbo : Bool) (cs : List Column) (tab : TableS)
    (hs : TableS.Shape cs tab) (hn : TableS.NullInv tab) (dl : Nat) (record : Mem)
    (st : DecState)
    (h : decodeRecord le hbo tab dl record (TupleS.prepareRecord tab).allAttributes = .ok st) :
    DecFrame record tab.m_nullBitmaskSize tab.allAttributesDesc st ∧
    ∀ a ∈ st.attrs, NullFlagOK le tab.m_nullBitmaskSize record a := by
  have hlook : ∀ d, d ∈ tab.m_fixedKeys ∨ d ∈ tab.m_fixedAttribs ∨ d ∈ tab.m_variableAttribs →
      tab.allAttributesDesc[d.attrId]? = some d := shape_lookup cs tab hs
  -- the bodies of the three loops
  have step1 : ∀ d ∈ tab.m_fixedKeys, ∀ st st' : DecState,
      DecFrame record tab.m_nullBitmaskSize tab.allAttributesDesc st →
      fixedStep le hbo dl d st = .ok st' →
      DecFrame record tab.m_nullBitmaskSize tab.allAttributesDesc st' ∧
      ∃ a, NullFlagOK le tab.m_nullBitmaskSize record a ∧
        st'.attrs = st.attrs.set d.attrId a ∧ d.attrId < st.attrs.length := by
    intro d hd st1 st2 hf hst
    obtain ⟨hf', a, ⟨hdesc, p, hdata⟩, hset, hi⟩ :=
      fixedStep_frame le hbo record _ _ dl d st1 st2 (hlook d (Or.inl hd)) hf hst
    refine ⟨hf', a, ?_, hset, hi⟩
    rw [hs.keys, List.mem_filter] at hd
    simp only [NullFlagOK, hdesc, hd.2, Bool.true_eq_false, false_and, if_false]
    exact ⟨p, hdata⟩
  have step2 : ∀ d ∈ tab.m_fixedAttribs, ∀ st st' : DecState,
      DecFrame record tab.m_nullBitmaskSize tab.allAttributesDesc st →
      fixedStep le hbo dl d st = .ok st' →
      DecFrame record tab.m_nullBitmaskSize tab.allAttributesDesc st' ∧
      ∃ a, NullFlagOK le tab.m_nullBitmaskSize record a ∧
        st'.attrs = st.attrs.set d.attrId a ∧ d.attrId < st.attrs.length := by
    intro d hd st1 st2 hf hst
    obtain ⟨hf', a, ⟨hdesc, p, hdata⟩, hset, hi⟩ :=
      fixedStep_frame le hbo record _ _ dl d st1 st2 (hlook d (Or.inr (Or.inl hd))) hf hst
    refine ⟨hf', a, ?_, hset, hi⟩
    rw [hs.attribs, List.mem_filter] at hd
    have hnn : d.m_column.getNullable = false := by
      have := hd.2
      simp only [Bool.and_eq_true, Bool.not_eq_true'] at this
      exact this.2
    simp only [NullFlagOK, hdesc, hnn, Bool.false_eq_true, and_false, if_false]
    exact ⟨p, hdata⟩
  have step3 : ∀ d ∈ tab.m_variableAttribs, ∀ st st' : DecState,
      DecFrame record tab.m_nullBitmaskSize tab.allAttributesDesc st →
      variableStep le hbo tab.m_nullBitmaskSize dl d st = .ok st' →
      DecFrame record tab.m_nullBitmaskSize tab.allAttributesDesc st' ∧
      ∃ a, NullFlagOK le tab.m_nullBitmaskSize record a ∧
        st'.attrs = st.attrs.set d.attrId a ∧ d.attrId < st.attrs.length := by
    intro d hd st1 st2 hf hst
    have hnull : ∀ ind, d.m_nullBitIndex = some ind → ind / 32 < tab.m_nullBitmaskSize :=
      fun ind hi => nullInv_lookup tab hn d hd ind hi
    obtain ⟨hf', a, ⟨hdesc, hcase⟩, hset, hi⟩ :=
      variableStep_frame le hbo record _ _ dl d st1 st2 (hlook d (Or.inr (Or.inr hd)))
        hnull hf hst
    refine ⟨hf', a, ?_, hset, hi⟩
    rw [hs.vars, List.mem_filter] at hd
    have hflags : d.m_column.getPrimaryKey = false ∧ d.m_column.getNullable = true := by
      have := hd.2
      simp only [Bool.and_eq_true, Bool.not_eq_true'] at this
      exact this
    simp only [NullFlagOK, hdesc, hflags, and_self, if_true]
    rcases hcase with ⟨_, ind, hind, hget, hdata⟩ | ⟨hc, p, hdata⟩
    · have := hnull ind hind
      exact ⟨ind, true, hind, by omega, hget, Or.inl ⟨rfl, hdata⟩⟩
    · obtain ⟨ind, hind, hget⟩ := hc hflags.2
      have := hnull ind hind
      exact ⟨ind, false, hind, by omega, hget, Or.inr ⟨rfl, p, hdata⟩⟩
  exact decodeRecord_inv le hbo cs tab hs dl record st _ _
    ⟨rfl, agree_refl _ _ _, le_refl _, prepareRecord_descs tab⟩ (fun st hf => hf.2.2.2)
    step1 step2 step3 h

theorem set_assigned (attrs attrs' : List AttributeS)
    (descs : List AttributeDesc) (i : Nat) (attr : AttributeS) (data : AttributeData)
    (hd : attrs.map (fun a => a.Desc) = descs) (ha : attrs[i]? = some attr)
    (hset : attrs' = attrs.set i { attr with Data := some data }) :
    attrs'.map (fun a => a.Desc) = descs ∧
    ∃ a, (∃ data, a.Data = some data) ∧ attrs' = attrs.set i a ∧ i < attrs.length := by
  have hi : i < attrs.length := by
    rcases Nat.lt_or_ge i attrs.length with h1 | h1
    · exact h1
    · rw [List.getElem?_eq_none h1] at ha
      exact absurd ha (by simp)
  refine ⟨?_, _, ⟨data, rfl⟩, hset, hi⟩
  rw [hset]
  apply descs_set attrs descs i _ hd
  rw [← hd, List.getElem?_map, ha]
  rfl

/-- When the three decoding loops run to their end on a record of a
constructed table, the attributes still carry the descriptors of the table in
order and every one of them has had its null flag and its data reference
assigned. -/
theorem decodeRecord_assigned (le hbo : Bool) (cs : List Column) (tab : TableS)
    (hs : TableS.Shape cs tab) (dl : Nat) (record : Mem) (st : DecState)
    (h : decodeRecord le hbo tab dl record (TupleS.prepareRecord tab).allAttributes = .ok st) :
    st.attrs.map (fun a => a.Desc) = tab.allAttributesDesc ∧
    ∀ a ∈ st.attrs, ∃ data, a.Data = some data := by
  have hfix : ∀ d : AttributeDesc, ∀ st st' : DecState,
      st.attrs.map (fun a => a.Desc) = tab.allAttributesDesc →
      fixedStep le hbo dl d st = .ok st' →
      st'.attrs.map (fun a => a.Desc) = tab.allAttributesDesc ∧
      ∃ a, (∃ data, a.Data = some data) ∧ st'.attrs = st.attrs.set d.attrId a ∧
        d.attrId < st.attrs.length := by
    intro d st1 st2 hd hst
    obtain ⟨_, attr, hattr, _, hset, _⟩ := fixedStep_ok le hbo dl d st1 st2 hst
    exact set_assigned _ _ _ _ attr _ hd hattr hset
  have hvar : ∀ d : AttributeDesc, ∀ st st' : DecState,
      st.attrs.map (fun a => a.Desc) = tab.allAttributesDesc →
      variableStep le hbo tab.m_nullBitmaskSize dl d st = .ok st' →
      st'.attrs.map (fun a => a.Desc) = tab.allAttributesDesc ∧
      ∃ a, (∃ data, a.Data = some data) ∧ st'.attrs = st.attrs.set d.attrId a ∧
        d.attrId < st.attrs.length := by
    intro d st1 st2 hd hst
    obtain ⟨attr, hattr, hcase⟩ := variableStep_ok le hbo _ dl d st1 st2 hst
    rcases hcase with ⟨_, _, _, _, hst'⟩ | ⟨_, hdata⟩
    · subst hst'
      exact set_assigned _ _ _ _ attr _ hd hattr rfl
    · obtain ⟨_, _, _, _, _, _, _, _, _, hset, _⟩ := variableData_ok le hbo dl d attr st1 st2 hdata
      exact set_assigned _ _ _ _ attr _ hd hattr hset
  exact decodeRecord_inv le hbo cs tab hs dl record st _ _ (prepareRecord_descs tab)
    (fun st hf => hf) (fun d _ => hfix d) (fun d _ => hfix d) (fun d _ => hvar d) h

/-! ## The outcome of `getNextTuple` -/

/-- A `getNextTuple` call that returns a tuple has read a length word that is
not zero and a complete record, and has run the three decoding loops to their
end on that record; it has counted the tuple. -/
theorem getNextTuple_some (env : Env) (s s' : RestoreDataIterator) (tab : TableS)
    (file : List Byte) (r : Int) (tup : TupleS) (htab : s.m_currentTable = some tab)
    (hfile : s.m_file = some file)
    (hdec : s.getNextTuple env = .ret ((r, some tup), s')) :
    r = 0 ∧ 4 ≤ file.length ∧ beVal (file.take 4) ≠ 0 ∧
    u32 (4 * beVal (file.take 4)) ≤ (file.drop 4).length ∧
    s'.m_count = u32 (s.m_count + 1) ∧
    ∃ st, decodeRecord env.le s.m_hostByteOrder tab (beVal (file.take 4))
        (slice file 4 (u32 (4 * beVal (file.take 4))))
        (TupleS.prepareRecord tab).allAttributes = .ok st ∧
      tup = { TupleS.prepareRecord tab with allAttributes := st.attrs,
                                             dataRecord := some st.mem } := by
  unfold RestoreDataIterator.getNextTuple at hdec
  rw [htab] at hdec
  simp only [hfile] at hdec
  by_cases c1 : freadCount 4 1 file = 1
  swap
  · simp [c1] at hdec
  have h4 : 4 ≤ file.length := (fread_one_count 4 (by omega) file).mp c1
  have w : ntohl env.le (wordAt env.le (freadData 4 1 file) 0) = beVal (file.take 4) := by
    have hl : (file.take 4).length = 4 := by simp; omega
    have : slice (file.take 4) 0 4 = file.take 4 := by
      have := slice_all (file.take 4)
      rwa [hl] at this
    simp only [freadData, Nat.mul_one, wordAt, this]
    exact ntohl_hostVal _ _ hl
  have r1 : freadRest 4 1 file = file.drop 4 := by simp [freadRest]
  simp only [c1, w, r1, ne_eq, not_true_eq_false, if_false] at hdec
  by_cases h0 : beVal (file.take 4) = 0
  · simp [h0] at hdec
  by_cases c2 : freadCount 1 (u32 (4 * beVal (file.take 4))) (file.drop 4) =
      u32 (4 * beVal (file.take 4))
  swap
  · simp [h0, c2] at hdec
  have d2 : freadData 1 (u32 (4 * beVal (file.take 4))) (file.drop 4) =
      slice file 4 (u32 (4 * beVal (file.take 4))) := by
    simp [freadData, slice]
  simp only [h0, c2, d2, if_false, not_true_eq_false] at hdec
  cases hd : decodeRecord env.le s.m_hostByteOrder tab (beVal (file.take 4))
      (slice file 4 (u32 (4 * beVal (file.take 4))))
      (TupleS.prepareRecord tab).allAttributes with
  | fail => simp [hd] at hdec
  | abort => simp [hd] at hdec
  | fault => simp [hd] at hdec
  | ok st =>
    simp only [hd, Res.ret.injEq, Prod.mk.injEq, Option.some.injEq] at hdec
    obtain ⟨⟨hr, ht⟩, hs'⟩ := hdec
    refine ⟨hr.symm, h4, h0, freadCount_bytes_le _ _ c2, ?_, st, rfl, ht.symm⟩
    rw [← hs']

/-- The count of tuples changes only in a `getNextTuple` call that returns a
tuple, and then by one; the metadata is never changed. -/
theorem getNextTuple_count (env : Env) (s s' : RestoreDataIterator) (r : Int)
    (tup : Option TupleS) (hdec : s.getNextTuple env = .ret ((r, tup), s')) :
    s'.m_count = (if tup.isSome then u32 (s.m_count + 1) else s.m_count) ∧
    s'.m_metaData = s.m_metaData ∧ s'.m_currentTable = s.m_currentTable := by
  unfold RestoreDataIterator.getNextTuple at hdec
  cases htab : s.m_currentTable with
  | none => simp [htab] at hdec
  | some tab =>
  cases hfile : s.m_file with
  | none => simp [htab, hfile] at hdec
  | some file =>
  simp only [htab, hfile] at hdec
  by_cases c1 : freadCount 4 1 file = 1
  swap
  · simp only [c1, ne_eq, not_false_eq_true, if_true, Res.ret.injEq, Prod.mk.injEq] at hdec
    obtain ⟨⟨_, ht⟩, hs'⟩ := hdec
    subst ht hs'
    simp
  simp only [c1, ne_eq, not_true_eq_false, if_false] at hdec
  by_cases h0 : ntohl env.le (wordAt env.le (freadData 4 1 file) 0) = 0
  · simp only [h0, if_true, Res.ret.injEq, Prod.mk.injEq] at hdec
    obtain ⟨⟨_, ht⟩, hs'⟩ := hdec
    subst ht hs'
    simp
  simp only [h0, if_false] at hdec
  split_ifs at hdec with c2
  · split at hdec
    · simp only [Res.ret.injEq, Prod.mk.injEq] at hdec
      obtain ⟨⟨_, ht⟩, hs'⟩ := hdec
      subst ht hs'
      simp
    · simp at hdec
    · simp at hdec
    · simp only [Res.ret.injEq, Prod.mk.injEq] at hdec
      obtain ⟨⟨_, ht⟩, hs'⟩ := hdec
      subst ht hs'
      simp
  · simp only [Res.ret.injEq, Prod.mk.injEq] at hdec
    obtain ⟨⟨_, ht⟩, hs'⟩ := hdec
    subst ht hs'
    simp

/-- The invariants of a constructed table do not depend on its backup
version. -/
theorem shape_setBackupVersion (tableImpl : NdbTableImpl) (v : Nat) :
    TableS.Shape tableImpl.m_columns ((TableS.new tableImpl).setBackupVersion v) := by
  have h := TableS.new_shape tableImpl
  exact ⟨h.cols, h.attrId, h.keys, h.attribs, h.vars⟩

theorem nullInv_setBackupVersion (tableImpl : NdbTableImpl) (v : Nat)
    (hb : tableImpl.m_columns.length + 31 < 2 ^ 32) :
    TableS.NullInv ((TableS.new tableImpl).setBackupVersion v) := by
  have h := TableS.new_nullInv tableImpl hb
  exact ⟨h.noOfNullable, h.nullBit, h.maskSize⟩

/-- The attribute ids of a table are `0, 1, ..., n - 1` in order. -/
theorem shape_attrIds (cs : List Column) (t : TableS) (h : TableS.Shape cs t) :
    t.allAttributesDesc.map (fun d => d.attrId) = List.range t.allAttributesDesc.length := by
  apply List.ext_getElem
  · simp
  · intro i h1 h2
    simp only [List.getElem_map, List.getElem_range]
    exact h.attrId i (by simpa using h1)

/-! ## The attributes of a returned tuple -/

/-- C12: every tuple `getNextTuple` returns for the current table `T` (a
constructed table) has `T.getNoOfAttributes()` attributes, the attribute at
position `i` carries the descriptor of `T` at position `i`, whose `attrId` is
`i`, and has had its null flag and data reference assigned; the descriptors the
three decoding loops walk over have, taken together, each attribute id of `T`
exactly once. -/
theorem C12_tuple_attributes (env : Env) (s s' : RestoreDataIterator)
    (tableImpl : NdbTableImpl) (v : Nat) (r : Int) (tup : TupleS)
    (htab : s.m_currentTable = some ((TableS.new tableImpl).setBackupVersion v))
    (hdec : s.getNextTuple env = .ret ((r, some tup), s')) :
    tup.allAttributes.length = ((TableS.new tableImpl).setBackupVersion v).getNoOfAttributes ∧
    (∀ i (h : i < tup.allAttributes.length),
      ((TableS.new tableImpl).setBackupVersion v).allAttributesDesc[i]? =
          some (tup.allAttributes.get ⟨i, h⟩).Desc ∧
        (tup.allAttributes.get ⟨i, h⟩).Desc.attrId = i ∧
        ∃ data, (tup.allAttributes.get ⟨i, h⟩).Data = some data) ∧
    ((((TableS.new tableImpl).setBackupVersion v).m_fixedKeys ++
        ((TableS.new tableImpl).setBackupVersion v).m_fixedAttribs ++
        ((TableS.new tableImpl).setBackupVersion v).m_variableAttribs).map
      (fun d => d.attrId)).Perm
      (List.range ((TableS.new tableImpl).setBackupVersion v).getNoOfAttributes) := by
  have hs := shape_setBackupVersion tableImpl v
  generalize (TableS.new tableImpl).setBackupVersion v = tab at hs htab
  cases hfile : s.m_file with
  | none => simp [RestoreDataIterator.getNextTuple, htab, hfile] at hdec
  | some file =>
  obtain ⟨_, _, _, _, _, st, hst, htup⟩ := getNextTuple_some env s s' tab file r tup htab hfile hdec
  obtain ⟨hd, ha⟩ := decodeRecord_assigned env.le s.m_hostByteOrder _ tab hs _ _ st hst
  subst htup
  have hlen : st.attrs.length = tab.allAttributesDesc.length := by
    rw [← hd, List.length_map]
  refine ⟨hlen, ?_, ?_⟩
  · intro i h
    have e : tab.allAttributesDesc[i]? = some (st.attrs.get ⟨i, h⟩).Desc := by
      rw [← hd, List.getElem?_map, List.getElem?_eq_getElem h]
      rfl
    refine ⟨e, ?_, ha _ (List.get_mem _ _ _)⟩
    have hi : i < tab.allAttributesDesc.length := by rw [← hlen]; exact h
    have := hs.attrId i hi
    rw [List.getElem?_eq_getElem hi, Option.some.injEq] at e
    rw [← e]
    exact this
  · have hperm : (tab.m_fixedKeys ++ tab.m_fixedAttribs ++ tab.m_variableAttribs).Perm
        tab.allAttributesDesc := by
      rw [hs.keys, hs.attribs, hs.vars]
      exact filter_partition _
    have := hperm.map (fun d => d.attrId)
    rw [shape_attrIds _ tab hs] at this
    exact this

/-- C12 on a record of a table with a key, a fixed attribute and a nullable
attribute. -/
theorem C12_tuple_attributes_witness :
    (exIter true (exLength ++ (exRecord ++ [9]))).getNextTuple exEnv =
      .ret ((0, some ⟨TableS.new exTable, exAttributes, some exRecord⟩),
        { exIter true [9] with m_count := 1 }) ∧
    exAttributes.length = 3 ∧
    ∀ i (h : i < exAttributes.length),
      ((TableS.new exTable).setBackupVersion 0).allAttributesDesc[i]? =
          some (exAttributes.get ⟨i, h⟩).Desc ∧
        (exAttributes.get ⟨i, h⟩).Desc.attrId = i ∧
        ∃ data, (exAttributes.get ⟨i, h⟩).Data = some data :=
  ⟨by decide, by decide,
    (C12_tuple_attributes exEnv (exIter true (exLength ++ (exRecord ++ [9])))
      { exIter true [9] with m_count := 1 } exTable 0 0
      ⟨TableS.new exTable, exAttributes, some exRecord⟩ rfl (by decide)).2.1⟩

/-! ## Null flags -/

theorem nullFlagOK_agree (le : Bool) (nbs : Nat) (record mem : Mem) (a : AttributeS)
    (hlen : mem.length = record.length) (hbits : Agree mem record 0 (4 * nbs))
    (h : NullFlagOK le nbs record a) : NullFlagOK le nbs mem a := by
  unfold NullFlagOK at h ⊢
  split_ifs at h ⊢ with hc
  · obtain ⟨ind, b, hi, hlt, hget, hcase⟩ := h
    refine ⟨ind, b, hi, hlt, ?_, hcase⟩
    rw [bitmask_agree le nbs mem record ind hlen hbits (by omega)]
    exact hget
  · exact h

/-- C13 as stated fails for a nullable primary-key column: in the tuple decoded
from `exNullableKeyFile` the attribute of the nullable column 0 is not null,
although every bit of the null bitmask is set; the column has no null bit
index at all. -/
theorem C13_nullable_key_counterexample :
    (exIterOf exNullableKeyTable true 0 exNullableKeyFile).getNextTuple exEnv =
      .ret ((0, some ⟨(TableS.new exNullableKeyTable).setBackupVersion 1,
                      exNullableKeyAttributes, some [255, 255, 255, 255, 5, 0, 0, 0]⟩),
        exIterOf exNullableKeyTable true 1 []) ∧
    exNullableKeyAttributes[0]? =
      some ⟨⟨32, 1, ⟨4, 1, true, true⟩, 0, none⟩, some ⟨false, some 4⟩⟩ ∧
    (∀ ind, ind < 32 →
      BitmaskImpl.get exEnv.le 1 [255, 255, 255, 255, 5, 0, 0, 0] ind = some true) := by
  decide

/-- C13 (amended): for every tuple `getNextTuple` returns for a constructed
table and every attribute `A` of the tuple: when the column of `A` is nullable
and not a primary key, `A` has a null bit index below `32 * m_nullBitmaskSize`
and its null flag is true exactly when that bit of the null bitmask at the start
of the tuple buffer is set, and then `A` has no data; every other attribute
(primary key or not nullable) is not null and has data.  The bitmask of the
tuple buffer is the bitmask of the record as read from the file. -/
theorem C13_null_flags (env : Env) (s s' : RestoreDataIterator)
    (tableImpl : NdbTableImpl) (v : Nat) (file : List Byte) (r : Int) (tup : TupleS)
    (hcols : tableImpl.m_columns.length + 31 < 2 ^ 32)
    (htab : s.m_currentTable = some ((TableS.new tableImpl).setBackupVersion v))
    (hfile : s.m_file = some file)
    (hdec : s.getNextTuple env = .ret ((r, some tup), s')) :
    ∃ mem, tup.dataRecord = some mem ∧
      mem.length = u32 (4 * beVal (file.take 4)) ∧
      ∀ a ∈ tup.allAttributes,
        NullFlagOK env.le ((TableS.new tableImpl).setBackupVersion v).m_nullBitmaskSize mem a ∧
        NullFlagOK env.le ((TableS.new tableImpl).setBackupVersion v).m_nullBitmaskSize
          (slice file 4 (u32 (4 * beVal (file.take 4)))) a := by
  have hs := shape_setBackupVersion tableImpl v
  have hn := nullInv_setBackupVersion tableImpl v hcols
  generalize (TableS.new tableImpl).setBackupVersion v = tab at hs hn htab
  obtain ⟨_, h4, _, hl, _, st, hst, htup⟩ :=
    getNextTuple_some env s s' tab file r tup htab hfile hdec
  obtain ⟨⟨hlen, hbits, _, _⟩, ha⟩ :=
    decodeRecord_attrs env.le s.m_hostByteOrder _ tab hs hn _ _ st hst
  subst htup
  have hrec : (slice file 4 (u32 (4 * beVal (file.take 4)))).length =
      u32 (4 * beVal (file.take 4)) := by
    apply slice_length
    simp only [List.length_drop] at hl
    omega
  refine ⟨st.mem, rfl, by rw [hlen, hrec], fun a hmem => ⟨?_, ha a hmem⟩⟩
  exact nullFlagOK_agree env.le _ _ st.mem a hlen hbits (ha a hmem)

/-- C13 (amended) on the record with the nullable primary key. -/
theorem C13_null_flags_witness :
    (exIterOf exNullableKeyTable true 0 exNullableKeyFile).getNextTuple exEnv =
      .ret ((0, some ⟨(TableS.new exNullableKeyTable).setBackupVersion 1,
                      exNullableKeyAttributes, some [255, 255, 255, 255, 5, 0, 0, 0]⟩),
        exIterOf exNullableKeyTable true 1 []) ∧
    ∃ mem, some [255, 255, 255, 255, 5, 0, 0, 0] = some mem ∧
      mem.length = u32 (4 * beVal (exNullableKeyFile.take 4)) ∧
      ∀ a ∈ exNullableKeyAttributes,
        NullFlagOK exEnv.le ((TableS.new exNullableKeyTable).setBackupVersion 1).m_nullBitmaskSize
          mem a ∧
        NullFlagOK exEnv.le ((TableS.new exNullableKeyTable).setBackupVersion 1).m_nullBitmaskSize
          (slice exNullableKeyFile 4 (u32 (4 * beVal (exNullableKeyFile.take 4)))) a :=
  ⟨by decide,
    C13_null_flags exEnv (exIterOf exNullableKeyTable true 0 exNullableKeyFile)
      (exIterOf exNullableKeyTable true 1 []) exNullableKeyTable 1 exNullableKeyFile 0
      ⟨(TableS.new exNullableKeyTable).setBackupVersion 1, exNullableKeyAttributes,
        some [255, 255, 255, 255, 5, 0, 0, 0]⟩ (by decide) rfl rfl (by decide)⟩

/-! ## Records whose payloads do not fit -/

/-- C14 fails on the code: in the record of `exWrapFile` the `Sz` word of
attribute 1 is `0xFFFFFFFF`; `getNextTuple` returns a tuple, and the cursor,
which was at word 2, has advanced by `(Sz + 2) mod 2 ^ 32 = 1` word and not by
`Sz + 2` words: the header of attribute 2 is read at word 3, its data is at
byte `20 = 4 * (3 + 2)`, right behind the data of attribute 1 at byte 16, and
the cursor ends at word 6. -/
theorem C14_cursor_wraps :
    (exIterOf exTwoVariableTable true 0 exWrapFile).getNextTuple exEnv =
      .ret ((0, some ⟨(TableS.new exTwoVariableTable).setBackupVersion 1, exWrapAttributes,
                      some (exWrapFile.drop 4)⟩),
        exIterOf exTwoVariableTable true 1 []) ∧
    decodeRecord exEnv.le true ((TableS.new exTwoVariableTable).setBackupVersion 1) 6
        (exWrapFile.drop 4)
        (TupleS.prepareRecord ((TableS.new exTwoVariableTable).setBackupVersion 1)).allAttributes =
      .ok ⟨6, exWrapFile.drop 4, exWrapAttributes⟩ ∧
    beVal (slice (exWrapFile.drop 4) (4 * 2) 4) = 0xFFFFFFFF ∧
    (exWrapAttributes.map (fun a => a.ptr)) = [some 4, some (4 * (2 + 2)), some (4 * (3 + 2))] ∧
    4 * (3 + 2) ≠ 4 * (2 + (0xFFFFFFFF + 2) + 2) := by
  decide

/-- C15 fails on the code: the record of `exShortFile` has one word and the
64-bit key of the table takes two.  With `hostByteOrder = true` `getNextTuple`
returns a tuple whose key refers to eight bytes of a four-byte buffer; with
`hostByteOrder = false` `Twiddle` accesses the buffer outside its bounds. -/
theorem C15_payload_outside_record :
    (exIterOf exWideKeyTable true 0 exShortFile).getNextTuple exEnv =
      .ret ((0, some ⟨(TableS.new exWideKeyTable).setBackupVersion 1,
                      [⟨⟨64, 1, ⟨8, 1, true, false⟩, 0, none⟩, some ⟨false, some 0⟩⟩],
                      some [1, 2, 3, 4]⟩),
        exIterOf exWideKeyTable true 1 []) ∧
    ¬ TupleS.InRecord 1 ⟨(TableS.new exWideKeyTable).setBackupVersion 1,
        [⟨⟨64, 1, ⟨8, 1, true, false⟩, 0, none⟩, some ⟨false, some 0⟩⟩], some [1, 2, 3, 4]⟩ ∧
    (exIterOf exWideKeyTable false 0 exShortFile).getNextTuple exEnv = .fault := by
  refine ⟨by decide, ?_, by decide⟩
  intro h
  have := h ⟨⟨64, 1, ⟨8, 1, true, false⟩, 0, none⟩, some ⟨false, some 0⟩⟩
    (List.mem_singleton.mpr rfl) 0 rfl
  simp at this

/-! ## Fragment header, fragment footer and the count of tuples -/

/-- A big-endian word of a structure read with one complete `fread`. -/
theorem fread_word (le : Bool) (n o : Nat) (file : List Byte) (hn : n ≤ file.length)
    (ho : o + 4 ≤ n) :
    ntohl le (wordAt le (freadData n 1 file) o) = beVal (slice file o 4) := by
  simp only [wordAt, freadData, Nat.mul_one]
  rw [slice_take _ _ _ _ ho, ntohl_hostVal _ _ (slice_length file o 4 (by omega))]

/-- `readFragmentHeader` on a stream that holds a complete header. -/
theorem readFragmentHeader_eq (env : Env) (s : RestoreDataIterator) (file : List Byte)
    (hf : s.m_file = some file) (hl : 20 ≤ file.length) :
    s.readFragmentHeader env =
      match s.m_metaData.getTable (beVal (slice file 8 4)) with
      | none =>
        .ret ((false, -1), { s with m_file := some (file.drop 20), m_currentTable := none })
      | some t =>
        .ret ((true, 0), { s with m_file := some (file.drop 20), m_currentTable := some t,
                                   m_count := 0 }) := by
  have c : freadCount 20 1 file = 1 := (fread_one_count 20 (by omega) file).mpr hl
  have w := fread_word env.le 20 8 file hl (by omega)
  have r : freadRest 20 1 file = file.drop 20 := by simp [freadRest]
  unfold RestoreDataIterator.readFragmentHeader
  simp only [hf, FragmentHeader.sizeof, FragmentHeader.TableId, c, w, r, ne_eq,
    not_true_eq_false, if_false]
  cases s.m_metaData.getTable (beVal (slice file 8 4)) <;> rfl

/-- `readFragmentHeader` on a stream that ends inside the header. -/
theorem readFragmentHeader_short (env : Env) (s : RestoreDataIterator) (file : List Byte)
    (hf : s.m_file = some file) (hl : file.length < 20) :
    s.readFragmentHeader env = .ret ((false, 0), { s with m_file := some (file.drop 20) }) := by
  have c : freadCount 20 1 file ≠ 1 := by
    rw [ne_eq, fread_one_count 20 (by omega) file]; omega
  have r : freadRest 20 1 file = file.drop 20 := by simp [freadRest]
  unfold RestoreDataIterator.readFragmentHeader
  simp only [hf, FragmentHeader.sizeof, c, r, ne_eq, not_false_eq_true, if_true]

/-- `validateFragmentFooter` on any stream. -/
theorem validateFragmentFooter_eq (env : Env) (s : RestoreDataIterator) (file : List Byte)
    (hf : s.m_file = some file) :
    s.validateFragmentFooter env =
      if file.length < 24 then .ret (false, { s with m_file := some (file.drop 24) })
      else if s.m_count = beVal (slice file 16 4) then
        .ret (true, { s with m_file := some (file.drop 24) })
      else .abort := by
  have r : freadRest 24 1 file = file.drop 24 := by simp [freadRest]
  unfold RestoreDataIterator.validateFragmentFooter
  simp only [hf, FragmentFooter.sizeof, FragmentFooter.NoOfRecords, r]
  by_cases hl : file.length < 24
  · have c : freadCount 24 1 file ≠ 1 := by
      rw [ne_eq, fread_one_count 24 (by omega) file]; omega
    simp only [c, ne_eq, not_false_eq_true, if_true, hl]
  · have c : freadCount 24 1 file = 1 := (fread_one_count 24 (by omega) file).mpr (by omega)
    have w := fread_word env.le 24 16 file (by omega) (by omega)
    simp only [c, w, ne_eq, not_true_eq_false, if_false, hl]
    by_cases hc : s.m_count = beVal (slice file 16 4)
    · simp only [hc, not_true_eq_false, if_false, if_true]
    · simp only [hc, not_false_eq_true, if_true, if_false]

theorem u32_lt (x : Nat) : u32 x < 2 ^ 32 := Nat.mod_lt _ (by decide)

theorem u32_succ_add (m c : Nat) : u32 (u32 (m + 1) + c) = u32 (m + (c + 1)) := by
  simp only [u32]
  omega

/-- After `n` calls of `getNextTuple`, `c` of which returned a tuple, the count
of the iterator has grown by `c` (as a `Uint32`); the current table and the
metadata are the same. -/
theorem nextTuples_count (env : Env) (n : Nat) :
    ∀ (s s' : RestoreDataIterator) (c : Nat), s.m_count < 2 ^ 32 →
      nextTuples env n s = .ret (c, s') →
      s'.m_count = u32 (s.m_count + c) ∧ c ≤ n ∧ s'.m_metaData = s.m_metaData ∧
        s'.m_currentTable = s.m_currentTable := by
  induction n with
  | zero =>
    intro s s' c hm h
    simp only [nextTuples, Res.ret.injEq, Prod.mk.injEq] at h
    obtain ⟨hc, hs⟩ := h
    subst hc hs
    exact ⟨(u32_of_lt _ (by simpa using hm)).symm, le_refl _, rfl, rfl⟩
  | succ n ih =>
    intro s s' c hm h
    unfold nextTuples at h
    cases h1 : s.getNextTuple env with
    | abort => simp [h1] at h
    | fault => simp [h1] at h
    | ret x =>
      obtain ⟨⟨r, tup⟩, s1⟩ := x
      simp only [h1] at h
      obtain ⟨hc1, hmd1, htb1⟩ := getNextTuple_count env s s1 r tup h1
      cases h2 : nextTuples env n s1 with
      | abort => simp [h2] at h
      | fault => simp [h2] at h
      | ret y =>
        obtain ⟨c', s2⟩ := y
        simp only [h2, Res.ret.injEq, Prod.mk.injEq] at h
        obtain ⟨hc, hs⟩ := h
        subst hs
        have hm1 : s1.m_count < 2 ^ 32 := by
          rw [hc1]
          split_ifs
          · exact u32_lt _
          · exact hm
        obtain ⟨e1, e2, e3, e4⟩ := ih s1 s2 c' hm1 h2
        refine ⟨?_, ?_, by rw [e3, hmd1], by rw [e4, htb1]⟩
        · rw [e1, hc1, ← hc]
          cases tup with
          | none => simp
          | some t => simpa using u32_succ_add s.m_count c'
        · rw [← hc]
          split_ifs <;> omega

/-! ## Fragment footer and fragment header -/

/-- C16: let `readFragmentHeader` succeed, let `getNextTuple` then be called
any number of times, `c` of these calls returning a tuple (fewer than `2 ^ 32`),
and let `validateFragmentFooter` be called next.  Then `m_count = c`, and
`validateFragmentFooter` returns false when the stream ends inside the six-word
footer, returns true when the footer is complete and its big-endian
`NoOfRecords` word equals `c`, and otherwise fails its assertion: it returns
true only with a complete footer whose `NoOfRecords` is `c`.  The count is set
to 0 by `readFragmentHeader`, grows by one in a `getNextTuple` call that returns
a tuple and is unchanged in a call that returns no tuple. -/
theorem C16_footer_count (env : Env) (s0 s1 s2 : RestoreDataIterator) (ret : Int) (n c : Nat)
    (file : List Byte)
    (hhdr : s0.readFragmentHeader env = .ret ((true, ret), s1))
    (hrun : nextTuples env n s1 = .ret (c, s2))
    (hc : c < 2 ^ 32)
    (hfile : s2.m_file = some file) :
    s1.m_count = 0 ∧ s2.m_count = c ∧
    s2.validateFragmentFooter env =
      (if file.length < 24 then .ret (false, { s2 with m_file := some (file.drop 24) })
       else if beVal (slice file 16 4) = c then
         .ret (true, { s2 with m_file := some (file.drop 24) })
       else .abort) ∧
    (∀ s3, s2.validateFragmentFooter env = .ret (true, s3) →
      24 ≤ file.length ∧ beVal (slice file 16 4) = c) ∧
    (∀ (s s' : RestoreDataIterator) (r : Int) (tup : Option TupleS),
      s.getNextTuple env = .ret ((r, tup), s') →
      s'.m_count = if tup.isSome then u32 (s.m_count + 1) else s.m_count) := by
  have h0 : s1.m_count = 0 := by
    unfold RestoreDataIterator.readFragmentHeader at hhdr
    cases hf0 : s0.m_file with
    | none => simp [hf0] at hhdr
    | some f0 =>
      simp only [hf0] at hhdr
      split_ifs at hhdr
      · simp at hhdr
      · split at hhdr
        · simp at hhdr
        · simp only [Res.ret.injEq, Prod.mk.injEq] at hhdr
          rw [← hhdr.2]
  obtain ⟨hm, _, _, _⟩ := nextTuples_count env n s1 s2 c (by rw [h0]; decide) hrun
  have hm2 : s2.m_count = c := by
    rw [hm, h0, Nat.zero_add]
    exact u32_of_lt c hc
  have hv := validateFragmentFooter_eq env s2 file hfile
  have hv' : s2.validateFragmentFooter env =
      (if file.length < 24 then .ret (false, { s2 with m_file := some (file.drop 24) })
       else if beVal (slice file 16 4) = c then
         .ret (true, { s2 with m_file := some (file.drop 24) })
       else .abort) := by
    rw [hv]
    by_cases hl : file.length < 24
    · simp only [hl, if_true]
    · simp only [hl, if_false]
      by_cases he : beVal (slice file 16 4) = c
      · have he' : s2.m_count = beVal (slice file 16 4) := by rw [hm2, he]
        simp only [he, he', if_true]
      · have he' : ¬ s2.m_count = beVal (slice file 16 4) := by
          rw [hm2]; exact fun h => he h.symm
        simp only [he, he', if_false]
  refine ⟨h0, hm2, hv', ?_, fun s s' r tup h => (getNextTuple_count env s s' r tup h).1⟩
  intro s3 h3
  rw [hv'] at h3
  by_cases hl : file.length < 24
  · simp [hl] at h3
  · by_cases he : beVal (slice file 16 4) = c
    · exact ⟨by omega, he⟩
    · simp [hl, he] at h3

/-- C16 on the fragment of scenario 2 of the spec: two tuples, then the
end-of-fragment word, then a footer with `NoOfRecords = 2`. -/
theorem C16_footer_count_witness :
    (exIterOf exKeyTable true 7 exFragment).readFragmentHeader exEnv =
      .ret ((true, 0), exIterOf exKeyTable true 0 exTuples) ∧
    nextTuples exEnv 3 (exIterOf exKeyTable true 0 exTuples) =
      .ret (2, exIterOf exKeyTable true 2 exFooter) ∧
    (exIterOf exKeyTable true 2 exFooter).validateFragmentFooter exEnv =
      .ret (true, exIterOf exKeyTable true 2 []) :=
  ⟨by decide, by decide,
    ((C16_footer_count exEnv (exIterOf exKeyTable true 7 exFragment)
      (exIterOf exKeyTable true 0 exTuples) (exIterOf exKeyTable true 2 exFooter) 0 3 2
      exFooter (by decide) (by decide) (by decide) rfl).2.2.1).trans (by decide)⟩

/-- C17: on a stream that holds a complete five-word fragment header,
`readFragmentHeader` looks up the big-endian `TableId` word in the metadata.
When the metadata has a table with that id, it returns true with `ret = 0`,
`m_count = 0` and `m_currentTable` a table of the metadata with that id; when it
has none, it returns false with `ret = -1`.  Whenever it returns true (on any
stream), the header was complete, `ret = 0`, `m_count = 0` and the current table
is a table of the metadata whose id is the `TableId` of the header. -/
theorem C17_readFragmentHeader (env : Env) (s : RestoreDataIterator) (file : List Byte)
    (hf : s.m_file = some file) :
    (20 ≤ file.length →
      (∃ t ∈ s.m_metaData.allTables, t.getTableId = beVal (slice file 8 4)) →
      ∃ t ∈ s.m_metaData.allTables, t.getTableId = beVal (slice file 8 4) ∧
        s.readFragmentHeader env =
          .ret ((true, 0), { s with m_file := some (file.drop 20), m_currentTable := some t,
                                     m_count := 0 })) ∧
    (20 ≤ file.length →
      (∀ t ∈ s.m_metaData.allTables, t.getTableId ≠ beVal (slice file 8 4)) →
      s.readFragmentHeader env =
        .ret ((false, -1), { s with m_file := some (file.drop 20), m_currentTable := none })) ∧
    (∀ (ret : Int) (s' : RestoreDataIterator),
      s.readFragmentHeader env = .ret ((true, ret), s') →
      20 ≤ file.length ∧ ret = 0 ∧ s'.m_count = 0 ∧
      ∃ t ∈ s.m_metaData.allTables, s'.m_currentTable = some t ∧
        t.getTableId = beVal (slice file 8 4)) := by
  have found : ∀ t, s.m_metaData.getTable (beVal (slice file 8 4)) = some t →
      t ∈ s.m_metaData.allTables ∧ t.getTableId = beVal (slice file 8 4) := by
    intro t ht
    unfold RestoreMetaData.getTable at ht
    exact ⟨List.mem_of_find?_eq_some ht, by simpa using List.find?_some ht⟩
  refine ⟨?_, ?_, ?_⟩
  · intro hl ⟨t0, ht0, hid0⟩
    rw [readFragmentHeader_eq env s file hf hl]
    cases hg : s.m_metaData.getTable (beVal (slice file 8 4)) with
    | none =>
      unfold RestoreMetaData.getTable at hg
      rw [List.find?_eq_none] at hg
      exact absurd (by simpa using hid0) (hg t0 ht0)
    | some t =>
      obtain ⟨hm, hid⟩ := found t hg
      exact ⟨t, hm, hid, rfl⟩
  · intro hl hnone
    rw [readFragmentHeader_eq env s file hf hl]
    cases hg : s.m_metaData.getTable (beVal (slice file 8 4)) with
    | none => rfl
    | some t => exact absurd (found t hg).2 (hnone t (found t hg).1)
  · intro ret s' h
    by_cases hl : 20 ≤ file.length
    · rw [readFragmentHeader_eq env s file hf hl] at h
      cases hg : s.m_metaData.getTable (beVal (slice file 8 4)) with
      | none => simp [hg] at h
      | some t =>
        simp only [hg, Res.ret.injEq, Prod.mk.injEq, true_and] at h
        obtain ⟨hr, hs'⟩ := h
        subst hs'
        exact ⟨hl, hr.symm, rfl, t, (found t hg).1, rfl, (found t hg).2⟩
    · rw [readFragmentHeader_short env s file hf (by omega)] at h
      simp at h

/-- C17 on the fragment header of `exFragment` (`TableId = 1`), with a metadata
that holds the table 1. -/
theorem C17_readFragmentHeader_witness :
    (exIterOf exKeyTable true 7 exFragment).readFragmentHeader exEnv =
      .ret ((true, 0), exIterOf exKeyTable true 0 exTuples) ∧
    ∀ (ret : Int) (s' : RestoreDataIterator),
      (exIterOf exKeyTable true 7 exFragment).readFragmentHeader exEnv = .ret ((true, ret), s') →
      20 ≤ exFragment.length ∧ ret = 0 ∧ s'.m_count = 0 ∧
      ∃ t ∈ (exIterOf exKeyTable true 7 exFragment).m_metaData.allTables,
        s'.m_currentTable = some t ∧ t.getTableId = beVal (slice exFragment 8 4) :=
  ⟨by decide, (C17_readFragmentHeader exEnv (exIterOf exKeyTable true 7 exFragment) exFragment
    rfl).2.2⟩

/-! ## Typed writes and stores into a block -/

theorem wrHost_length (le : Bool) (k : Nat) (m : Mem) (o v : Nat) (h : o + k ≤ m.length) :
    (wrHost le k m o v).length = m.length := by
  simp only [wrHost, List.length_append, List.length_take, hostBytes_length, List.length_drop]
  omega

theorem wrHost_getElem? (le : Bool) (k : Nat) (m : Mem) (o v j : Nat) (h : o + k ≤ m.length) :
    (wrHost le k m o v)[j]? =
      if o ≤ j ∧ j < o + k then (hostBytes le k v)[j - o]? else m[j]? := by
  have hl : (m.take o).length = o := by simp; omega
  have hb := hostBytes_length le k v
  simp only [wrHost]
  by_cases h1 : j < o
  · rw [List.append_assoc, List.getElem?_append_left (by omega), if_neg (by omega),
      List.getElem?_take_of_lt h1]
  · by_cases h2 : j < o + k
    · rw [List.getElem?_append_left (by simp; omega), List.getElem?_append_right (by omega), hl,
        if_pos (by omega)]
    · rw [List.getElem?_append_right (by simp; omega), if_neg (by omega), List.getElem?_drop]
      simp only [List.length_append, hl, hb]
      congr 1
      omega

theorem wrHost_agree_low (le : Bool) (k : Nat) (m : Mem) (o v : Nat) (h : o + k ≤ m.length) :
    Agree (wrHost le k m o v) m 0 o := by
  intro j _ hj
  rw [wrHost_getElem? le k m o v j h, if_neg (by omega)]

theorem wrHost_agree_high (le : Bool) (k : Nat) (m : Mem) (o v : Nat) (h : o + k ≤ m.length)
    (hi : Nat) : Agree (wrHost le k m o v) m (o + k) hi := by
  intro j hj _
  rw [wrHost_getElem? le k m o v j h, if_neg (by omega)]

/-- A typed read elsewhere is not affected by a typed write. -/
theorem rdHost_wrHost_other (le : Bool) (k k' : Nat) (m : Mem) (o o' v : Nat)
    (h : o + k ≤ m.length) (hd : o' + k' ≤ o ∨ o + k ≤ o') :
    rdHost le k' (wrHost le k m o v) o' = rdHost le k' m o' := by
  have hl := wrHost_length le k m o v h
  by_cases hb : o' + k' ≤ m.length
  swap
  · simp [rdHost, hl, hb]
  rcases hd with hd | hd
  · exact agree_rdHost (wrHost_agree_low le k m o v h) hl le k' o' (Nat.zero_le _) hd
  · exact agree_rdHost (wrHost_agree_high le k m o v h m.length) hl le k' o' hd hb

theorem hostVal_hostBytes (le : Bool) (k v : Nat) (hv : v < 256 ^ k) :
    hostVal le (hostBytes le k v) = v := by
  cases le
  · simp only [hostVal, hostBytes, Bool.false_eq_true, if_false, beVal, List.reverse_reverse]
    rw [leVal_leBytes, Nat.mod_eq_of_lt hv]
  · simp only [hostVal, hostBytes, if_true]
    rw [leVal_leBytes, Nat.mod_eq_of_lt hv]

/-- A typed read returns what a typed write has stored at the same place. -/
theorem rdHost_wrHost_same (le : Bool) (k : Nat) (m : Mem) (o v : Nat)
    (h : o + k ≤ m.length) (hv : v < 256 ^ k) :
    rdHost le k (wrHost le k m o v) o = some v := by
  have hl := wrHost_length le k m o v h
  have hs : slice (wrHost le k m o v) o k = hostBytes le k v := by
    apply List.ext_getElem?
    intro i
    rw [slice_getElem?, wrHost_getElem? le k m o v (o + i) h]
    by_cases hi : i < k
    · rw [if_pos hi, if_pos (by omega)]
      congr 1
      omega
    · rw [if_neg hi, List.getElem?_eq_none (by rw [hostBytes_length]; omega)]
  simp only [rdHost, hl, h, if_true, hs, hostVal_hostBytes le k v hv]

theorem storeAt_some (buf got buf' : Mem) (h : storeAt buf got = some buf') :
    buf'.length = buf.length ∧ buf'.take got.length = got := by
  unfold storeAt at h
  split_ifs at h with hl
  simp only [Option.some.injEq] at h
  subst h
  constructor
  · simp only [List.length_append, List.length_drop]
    omega
  · simp

theorem storeAtOff_some (buf : Mem) (o : Nat) (got buf' : Mem)
    (h : storeAtOff buf o got = some buf') :
    buf'.length = buf.length ∧ o + got.length ≤ buf.length ∧
    ∀ i k, i + k ≤ got.length → slice buf' (o + i) k = slice got i k := by
  unfold storeAtOff at h
  split_ifs at h with hl
  simp only [Option.some.injEq] at h
  subst h
  have ht : (buf.take o).length = o := by simp; omega
  refine ⟨?_, hl, ?_⟩
  · simp only [List.length_append, List.length_take, List.length_drop]
    omega
  · intro i k hik
    apply List.ext_getElem?
    intro j
    rw [slice_getElem?, slice_getElem?]
    by_cases hj : j < k
    · rw [if_pos hj, if_pos hj, List.getElem?_append_left (by simp; omega),
        List.getElem?_append_right (by omega), ht]
      congr 1
      omega
    · rw [if_neg hj, if_neg hj]

theorem sub32_of_le (a b : Nat) (h : b ≤ a) : sub32 a b = a - b := by
  simp [sub32, h]

theorem beVal_lt (bs : List Byte) : beVal bs < 256 ^ bs.length := by
  have := leVal_lt bs.reverse
  simpa [beVal] using this

/-- A complete `fread` of `n` items of four bytes. -/
theorem freadCount_words (n : Nat) (f : List Byte) (h : freadCount 4 n f = n) :
    4 * n ≤ f.length := by
  simp only [freadCount, List.length_take] at h
  omega

/-! ## One pass through the loop of `getNextLogEntry` -/

/-- `createBuffer` changes the scratch buffer and its size only. -/
theorem logCreateBuffer_fields (env : Env) (t : RestoreLogIterator) (b : Nat) :
    (t.createBuffer env b).m_file = t.m_file ∧
    (t.createBuffer env b).m_metaData = t.m_metaData ∧
    (t.createBuffer env b).m_hostByteOrder = t.m_hostByteOrder ∧
    (t.createBuffer env b).m_count = t.m_count ∧
    (t.createBuffer env b).m_logEntry = t.m_logEntry := by
  unfold RestoreLogIterator.createBuffer BackupFile.createBuffer
  split_ifs <;> exact ⟨rfl, rfl, rfl, rfl, rfl⟩

/-- A pass through the body of the loop of `getNextLogEntry` that reaches the
loop condition: the stream held a length word that is not zero and a complete
record, which is now in the buffer behind word 0, with `TableId` converted to
host order; without the flag `0x10000` in the `TriggerEvent` word of the record
`len` is the length word and `gcp` is unchanged, and with the flag (the record
having three words at least) `len` is one less and `gcp` is the last word of the
record. -/
theorem readRecord_record (env : Env) (gcp : Nat) (s s1 : RestoreLogIterator) (len g : Nat)
    (h : s.readRecord env gcp = .ret (.record len g, s1)) :
    ∃ file buf, s.m_file = some file ∧ 4 ≤ file.length ∧ beVal (file.take 4) ≠ 0 ∧
      4 * beVal (file.take 4) ≤ (file.drop 4).length ∧
      s1.m_file = some ((file.drop 4).drop (4 * beVal (file.take 4))) ∧
      s1.m_metaData = s.m_metaData ∧ s1.m_hostByteOrder = s.m_hostByteOrder ∧
      s1.m_count = s.m_count ∧ s1.m_logEntry = s.m_logEntry ∧
      s1.m_buffer = some buf ∧
      rdHost env.le 4 buf 4 = some (beVal (slice file 4 4)) ∧
      (2 ≤ beVal (file.take 4) → beVal (slice file 8 4) &&& 0x10000 = 0 →
        len = beVal (file.take 4) ∧ g = gcp) ∧
      (3 ≤ beVal (file.take 4) → beVal (slice file 8 4) &&& 0x10000 ≠ 0 →
        len = beVal (file.take 4) - 1 ∧
        g = beVal (slice file (4 * beVal (file.take 4)) 4)) := by
  unfold RestoreLogIterator.readRecord at h
  obtain ⟨k1, k2, k3, k4, k5⟩ := logCreateBuffer_fields env s 4
  generalize s.createBuffer env 4 = s0 at h k1 k2 k3 k4 k5
  cases hb0 : s0.m_buffer with
  | none => simp [hb0] at h
  | some buf0 =>
  cases hf : s0.m_file with
  | none => simp [hb0, hf] at h
  | some file =>
  simp only [hb0, hf] at h
  cases hst : storeAt buf0 (freadData 4 1 file) with
  | none => simp [hst] at h
  | some buf1 =>
  simp only [hst] at h
  by_cases c1 : freadCount 4 1 file = 1
  swap
  · simp [c1] at h
  have hl4 : 4 ≤ file.length := (fread_one_count 4 (by omega) file).mp c1
  simp only [c1, ne_eq, not_true_eq_false, if_false] at h
  cases hw : rdHost env.le 4 buf1 0 with
  | none => simp [hw] at h
  | some w =>
  simp only [hw] at h
  -- the length word
  have htk : (file.take 4).length = 4 := by simp; omega
  have hwv : ntohl env.le w = beVal (file.take 4) := by
    obtain ⟨_, hv⟩ := rdHost_some _ _ _ _ _ hw
    obtain ⟨_, ht⟩ := storeAt_some buf0 _ buf1 hst
    have e : slice buf1 0 4 = file.take 4 := by
      simp only [freadData, Nat.mul_one, htk] at ht
      simpa [slice] using ht
    rw [hv, e, ntohl_hostVal _ _ htk]
  rw [hwv] at h
  by_cases h0 : beVal (file.take 4) = 0
  · simp [h0] at h
  simp only [h0, if_false] at h
  have r1 : freadRest 4 1 file = file.drop 4 := by simp [freadRest]
  rw [r1] at h
  generalize hn : beVal (file.take 4) = n at h h0 ⊢
  obtain ⟨j1, j2, j3, j4, j5⟩ := logCreateBuffer_fields env
    ({ s0 with m_file := some (file.drop 4),
               m_buffer := some (wrHost env.le 4 buf1 0 n) } : RestoreLogIterator)
    (u32 (4 * u32 (n + 1)))
  generalize RestoreLogIterator.createBuffer env _ _ = s2 at h j1 j2 j3 j4 j5
  cases hb2 : s2.m_buffer with
  | none => simp [hb2] at h
  | some buf2 =>
  simp only [hb2] at h
  cases hst2 : storeAtOff buf2 4 (freadData 4 n (file.drop 4)) with
  | none => simp [hst2] at h
  | some buf3 =>
  simp only [hst2] at h
  by_cases c2 : freadCount 4 n (file.drop 4) = n
  swap
  · simp [c2] at h
  simp only [c2, not_true_eq_false, if_false] at h
  have hln : 4 * n ≤ (file.drop 4).length := freadCount_words n _ c2
  have hdl : (freadData 4 n (file.drop 4)).length = 4 * n := by
    simp only [freadData, List.length_take]
    omega
  obtain ⟨hlen3, hfit, hsl⟩ := storeAtOff_some buf2 4 _ buf3 hst2
  rw [hdl] at hfit
  -- a word of the record, in the buffer and in the file
  have hword : ∀ j, 1 ≤ j → j ≤ n →
      rdHost env.le 4 buf3 (4 * j) = some (hostVal env.le (slice file (4 * j) 4)) := by
    intro j hj1 hjn
    have e1 : slice buf3 (4 * j) 4 = slice (freadData 4 n (file.drop 4)) (4 * j - 4) 4 := by
      have := hsl (4 * j - 4) 4 (by rw [hdl]; omega)
      rwa [show 4 + (4 * j - 4) = 4 * j by omega] at this
    have e2 : slice (freadData 4 n (file.drop 4)) (4 * j - 4) 4 = slice file (4 * j) 4 := by
      simp only [freadData]
      rw [slice_take _ _ _ _ (by omega)]
      simp only [slice, List.drop_drop]
      congr 2
      omega
    simp only [rdHost]
    rw [if_pos (by omega), e1, e2]
  have hfl : ∀ j, 1 ≤ j → j ≤ n → (slice file (4 * j) 4).length = 4 := by
    intro j hj1 hjn
    apply slice_length
    simp only [List.length_drop] at hln
    omega
  cases ht : rdHost env.le 4 buf3 (4 * LogE.TableId) with
  | none => simp [ht] at h
  | some t =>
  cases he : rdHost env.le 4 buf3 (4 * LogE.TriggerEvent) with
  | none => simp [ht, he] at h
  | some e =>
  simp only [ht, he] at h
  have hn1 : 1 ≤ n := Nat.one_le_iff_ne_zero.mpr h0
  obtain ⟨hb8, _⟩ := rdHost_some _ _ _ _ _ he
  simp only [LogE.TableId, LogE.TriggerEvent, LogE.Data, Nat.mul_one] at ht he h hb8
  -- `TableId`
  have htv : ntohl env.le t = beVal (slice file 4 4) := by
    have := hword 1 (le_refl 1) hn1
    rw [Nat.mul_one, ht] at this
    simp only [Option.some.injEq] at this
    rw [this, ntohl_hostVal _ _ (by simpa using hfl 1 (le_refl 1) hn1)]
  rw [htv] at h
  have hT4 : beVal (slice file 4 4) < 256 ^ 4 := by
    have := beVal_lt (slice file 4 4)
    rwa [show (slice file 4 4).length = 4 by simpa using hfl 1 (le_refl 1) hn1] at this
  generalize hbA : wrHost env.le 4 buf3 4 (beVal (slice file 4 4)) = bufA at h
  have hlenA : bufA.length = buf3.length := by
    rw [← hbA]; exact wrHost_length _ _ _ _ _ (by omega)
  generalize hbB : wrHost env.le 4 bufA 8 (ntohl env.le e &&& 0xFFFF) = bufB at h
  have hlenB : bufB.length = bufA.length := by
    rw [← hbB]; exact wrHost_length _ _ _ _ _ (by omega)
  have hrdT : rdHost env.le 4 bufB 4 = some (beVal (slice file 4 4)) := by
    rw [← hbB, rdHost_wrHost_other _ _ _ _ _ _ _ (by omega) (Or.inl (by omega)), ← hbA,
      rdHost_wrHost_same _ _ _ _ _ (by omega) hT4]
  -- the `TriggerEvent` word, when the record has it
  have hev : 2 ≤ n → ntohl env.le e = beVal (slice file 8 4) := by
    intro h2
    have := hword 2 (by omega) h2
    rw [show 4 * 2 = 8 by rfl, he] at this
    simp only [Option.some.injEq] at this
    rw [this, ntohl_hostVal _ _ (by simpa using hfl 2 (by omega) h2)]
  refine ⟨file, bufB, k1 ▸ hf, hl4, by rw [hn]; exact h0, by rw [hn]; exact hln, ?_⟩
  rw [hn]
  by_cases hg : ntohl env.le e &&& 0x10000 = 0
  · simp only [hg, ne_eq, not_true_eq_false, if_false, Res.ret.injEq, Prod.mk.injEq,
      LogRead.record.injEq] at h
    obtain ⟨⟨hlen, hgcp⟩, hs1⟩ := h
    subst hs1
    refine ⟨by simp [freadRest], by simp [j2, k2], by simp [j3, k3], by simp [j4, k4],
      by simp [j5, k5], rfl, hrdT, ?_, ?_⟩
    · intro _ _
      exact ⟨hlen.symm, hgcp.symm⟩
    · intro h3 hflag
      rw [hev (by omega)] at hg
      exact absurd hg hflag
  · simp only [hg, ne_eq, not_false_eq_true, if_true] at h
    cases hgr : rdHost env.le 4 bufB (4 * (3 + sub32 (sub32 n 1) 2)) with
    | none => simp [hgr] at h
    | some gw =>
    simp only [hgr, Res.ret.injEq, Prod.mk.injEq, LogRead.record.injEq] at h
    obtain ⟨⟨hlen, hgcp⟩, hs1⟩ := h
    subst hs1
    refine ⟨by simp [freadRest], by simp [j2, k2], by simp [j3, k3], by simp [j4, k4],
      by simp [j5, k5], rfl, hrdT, ?_, ?_⟩
    · intro h2 hflag
      rw [hev h2] at hg
      exact absurd hflag hg
    · intro h3 _
      have e1 : sub32 n 1 = n - 1 := sub32_of_le n 1 (by omega)
      have e2 : sub32 (n - 1) 2 = n - 3 := by
        rw [sub32_of_le (n - 1) 2 (by omega)]; omega
      rw [e1, e2, show 4 * (3 + (n - 3)) = 4 * n by omega] at hgr
      rw [e1] at hlen
      refine ⟨hlen.symm, ?_⟩
      have hrd : rdHost env.le 4 bufB (4 * n) = rdHost env.le 4 buf3 (4 * n) := by
        rw [← hbB, rdHost_wrHost_other _ _ _ _ _ _ _ (by omega) (Or.inr (by omega)), ← hbA,
          rdHost_wrHost_other _ _ _ _ _ _ _ (by omega) (Or.inr (by omega))]
      rw [hrd, hword n (by omega) (le_refl n)] at hgr
      simp only [Option.some.injEq] at hgr
      rw [← hgcp, ← hgr, ntohl_hostVal _ _ (hfl n (by omega) (le_refl n))]

/-! ## The loops of `getNextLogEntry` -/

/-- When the `do ... while` loop of `getNextLogEntry` is left through its
condition, the last pass through the body started at some position of the
stream, and the value of `gcp` does not exceed `stopGCP + 1` (as a `Uint32`). -/
theorem readLoop_record (env : Env) (stop : Nat) (fuel : Nat) :
    ∀ (gcp : Nat) (s s1 : RestoreLogIterator) (len g : Nat) (file : List Byte),
      s.m_file = some file →
      RestoreLogIterator.readLoop env stop fuel gcp s = .ret (.record len g, s1) →
      ∃ (s0 : RestoreLogIterator) (gcp0 : Nat) (pre file0 : List Byte),
        file = pre ++ file0 ∧ s0.m_file = some file0 ∧
        s0.m_metaData = s.m_metaData ∧ s0.m_hostByteOrder = s.m_hostByteOrder ∧
        s0.m_count = s.m_count ∧ s0.m_logEntry = s.m_logEntry ∧
        s0.readRecord env gcp0 = .ret (.record len g, s1) ∧ ¬ g > u32 (stop + 1) := by
  induction fuel with
  | zero =>
    intro gcp s s1 len g file _ h
    simp [RestoreLogIterator.readLoop] at h
  | succ fuel ih =>
    intro gcp s s1 len g file hf h
    unfold RestoreLogIterator.readLoop at h
    cases hr : s.readRecord env gcp with
    | abort => simp [hr] at h
    | fault => simp [hr] at h
    | ret x =>
      obtain ⟨lr, s'⟩ := x
      cases lr with
      | stop res => simp [hr] at h
      | record len1 g1 =>
        simp only [hr] at h
        by_cases hg : g1 > u32 (stop + 1)
        · simp only [hg, if_true] at h
          obtain ⟨file', buf, hf', _, _, _, hrest, m1, m2, m3, m4, _⟩ :=
            readRecord_record env gcp s s' len1 g1 hr
          rw [hf] at hf'
          simp only [Option.some.injEq] at hf'
          subst hf'
          obtain ⟨s0, gcp0, pre, file0, e1, e2, e3, e4, e5, e6, e7, e8⟩ :=
            ih g1 s' s1 len g _ hrest h
          refine ⟨s0, gcp0, file.take (4 + 4 * beVal (file.take 4)) ++ pre, file0, ?_, e2,
            e3.trans m1, e4.trans m2, e5.trans m3, e6.trans m4, e7, e8⟩
          rw [List.append_assoc, ← e1, List.drop_drop, List.take_append_drop]
        · simp only [hg, if_false, Res.ret.injEq, Prod.mk.injEq, LogRead.record.injEq] at h
          obtain ⟨⟨h1, h2⟩, h3⟩ := h
          subst h1 h2 h3
          exact ⟨s, gcp, [], file, rfl, hf, rfl, rfl, rfl, rfl, hr, hg⟩

/-- The loop of `getNextLogEntry` never uses up a fuel above the number of
unread bytes: with any two such amounts of fuel it ends in the same way. -/
theorem readLoop_fuel (env : Env) (stop : Nat) (fuel : Nat) :
    ∀ (fuel' gcp : Nat) (s : RestoreLogIterator), 0 < fuel → 0 < fuel' →
      (∀ file, s.m_file = some file → file.length < fuel) →
      (∀ file, s.m_file = some file → file.length < fuel') →
      RestoreLogIterator.readLoop env stop fuel gcp s =
        RestoreLogIterator.readLoop env stop fuel' gcp s := by
  induction fuel with
  | zero => intro fuel' gcp s h; exact absurd h (Nat.lt_irrefl 0)
  | succ fuel ih =>
    intro fuel' gcp s _ h' hb hb'
    obtain ⟨f', rfl⟩ : ∃ f', fuel' = f' + 1 := ⟨fuel' - 1, by omega⟩
    unfold RestoreLogIterator.readLoop
    cases hr : s.readRecord env gcp with
    | abort => rfl
    | fault => rfl
    | ret x =>
      obtain ⟨lr, s'⟩ := x
      cases lr with
      | stop res => rfl
      | record len1 g1 =>
        simp only
        by_cases hg : g1 > u32 (stop + 1)
        swap
        · simp only [hg, if_false]
        simp only [hg, if_true]
        obtain ⟨file, buf, hf, hl4, _, hln, hrest, _⟩ :=
          readRecord_record env gcp s s' len1 g1 hr
        have b1 := hb file hf
        have b2 := hb' file hf
        have hshort : ∀ file', s'.m_file = some file' → file'.length + 4 ≤ file.length := by
          intro file' hf'
          rw [hrest] at hf'
          simp only [Option.some.injEq] at hf'
          rw [← hf']
          simp only [List.length_drop]
          omega
        exact ih f' g1 s' (by omega) (by omega)
          (fun file' hf' => by have := hshort file' hf'; omega)
          (fun file' hf' => by have := hshort file' hf'; omega)

/-- The loop over the attribute headers never uses up a fuel of at least
`end_ - ah`: with any two such amounts of fuel it ends in the same way. -/
theorem logAttrs_fuel (le hbo : Bool) (lenv : LogEnv) (tab : Option TableS) (end_ : Nat)
    (fuel : Nat) :
    ∀ (fuel' ah : Nat) (buf : Mem) (values : List AttributeS),
      end_ - ah ≤ fuel → end_ - ah ≤ fuel' →
      logAttrs le hbo lenv tab end_ fuel ah buf values =
        logAttrs le hbo lenv tab end_ fuel' ah buf values := by
  induction fuel with
  | zero =>
    intro fuel' ah buf values h _
    have hn : ¬ ah < end_ := by omega
    unfold logAttrs
    simp only [hn, not_false_eq_true, if_true]
  | succ fuel ih =>
    intro fuel' ah buf values h h'
    by_cases hlt : ah < end_
    swap
    · unfold logAttrs
      simp only [hlt, not_false_eq_true, if_true]
    obtain ⟨f', rfl⟩ : ∃ f', fuel' = f' + 1 := ⟨fuel' - 1, by omega⟩
    unfold logAttrs
    simp only [hlt, not_true_eq_false, if_false]
    cases rdHost le 4 buf (4 * ah) with
    | none => rfl
    | some w =>
      cases tab with
      | none => rfl
      | some t =>
        simp only
        cases t.allAttributesDesc[lenv.getAttributeId w]? with
        | none => rfl
        | some d =>
          simp only
          split
          · rfl
          · exact ih f' _ _ _ (by omega) (by omega)

/-! ## The gcp of a returned log entry -/

/-- C18: every log entry `getNextLogEntry` returns was decoded from the record
`rec` (length word included) that ends where the unread part of the stream now
begins; its table is looked up with the `TableId` word of `rec`; and when the
`TriggerEvent` word of `rec` carries the flag `0x10000` (the record having the
three words `TableId`, `TriggerEvent` and gcp at least), the gcp of the record,
its last big-endian word, is at most `stopGCP + 1` as a natural number. -/
theorem C18_gcp_bound (env : Env) (lenv : LogEnv) (s s' : RestoreLogIterator) (r : Int)
    (e : LogEntry) (h : s.getNextLogEntry env lenv = .ret ((r, some e), s')) :
    ∃ pre rec rest : List Byte,
      s.m_file = some (pre ++ (rec ++ rest)) ∧ s'.m_file = some rest ∧
      beVal (rec.take 4) ≠ 0 ∧ rec.length = 4 + 4 * beVal (rec.take 4) ∧
      e.m_table = s.m_metaData.getTable (beVal (slice rec 4 4)) ∧
      (3 ≤ beVal (rec.take 4) → beVal (slice rec 8 4) &&& 0x10000 ≠ 0 →
        beVal (slice rec (rec.length - 4) 4) ≤ s.m_metaData.getStopGCP + 1) := by
  unfold RestoreLogIterator.getNextLogEntry at h
  cases hf : s.m_file with
  | none =>
    -- without a stream the first pass does not reach the loop condition
    simp only [hf] at h
    cases hl : RestoreLogIterator.readLoop env s.m_metaData.getStopGCP (0 + 1) 0 s with
    | abort => simp [hl] at h
    | fault => simp [hl] at h
    | ret x =>
      obtain ⟨lr, s1⟩ := x
      cases lr with
      | stop res => simp [hl] at h
      | record len g =>
        exfalso
        unfold RestoreLogIterator.readLoop at hl
        cases hr : s.readRecord env 0 with
        | abort => simp [hr] at hl
        | fault => simp [hr] at hl
        | ret y =>
          obtain ⟨lr', s2⟩ := y
          cases lr' with
          | stop res => simp [hr] at hl
          | record len' g' =>
            obtain ⟨file, _, hf', _⟩ := readRecord_record env 0 s s2 len' g' hr
            rw [hf] at hf'
            exact absurd hf' (by simp)
  | some file =>
  simp only [hf] at h
  cases hl : RestoreLogIterator.readLoop env s.m_metaData.getStopGCP (file.length + 1) 0 s with
  | abort => simp [hl] at h
  | fault => simp [hl] at h
  | ret x =>
  obtain ⟨lr, s1⟩ := x
  cases lr with
  | stop res => simp [hl] at h
  | record len g =>
  simp only [hl] at h
  obtain ⟨s0, gcp0, pre, file0, e1, e2, e3, _, _, _, e7, e8⟩ :=
    readLoop_record env _ _ 0 s s1 len g file hf hl
  obtain ⟨file0', buf, q1, q2, q3, q4, q5, q6, _, _, _, q10, q11, _, q13⟩ :=
    readRecord_record env gcp0 s0 s1 len g e7
  rw [e2] at q1
  simp only [Option.some.injEq] at q1
  subst q1
  -- the rest of the call
  unfold RestoreLogIterator.decodeEntry at h
  simp only [q10, LogE.TableId, Nat.mul_one, q11] at h
  cases hev : rdHost env.le 4 buf (4 * LogE.TriggerEvent) with
  | none => simp [hev] at h
  | some ev =>
  simp only [hev] at h
  cases hty : logType lenv ev with
  | none => simp [hty] at h
  | some ty =>
  simp only [hty] at h
  cases hat : logAttrs env.le s1.m_hostByteOrder lenv
      (s1.m_metaData.getTable (beVal (slice file0 4 4))) (LogE.Data + sub32 len 2) (sub32 len 2)
      LogE.Data buf [] with
  | abort => simp [hat] at h
  | fault => simp [hat] at h
  | ret y =>
  obtain ⟨buf', values⟩ := y
  simp only [hat, Res.ret.injEq, Prod.mk.injEq, Option.some.injEq] at h
  obtain ⟨⟨_, he⟩, hs'⟩ := h
  subst he hs'
  -- the record and what follows it
  have hlen : 4 + 4 * beVal (file0.take 4) ≤ file0.length := by
    simp only [List.length_drop] at q4
    omega
  have htake : (file0.take (4 + 4 * beVal (file0.take 4))).take 4 = file0.take 4 := by
    rw [List.take_take]
    congr 1
    omega
  have hreclen : (file0.take (4 + 4 * beVal (file0.take 4))).length =
      4 + 4 * beVal (file0.take 4) := by
    simp only [List.length_take]
    omega
  refine ⟨pre, file0.take (4 + 4 * beVal (file0.take 4)),
    file0.drop (4 + 4 * beVal (file0.take 4)), ?_, ?_, ?_, ?_, ?_, ?_⟩
  · rw [List.take_append_drop, e1]
  · simp only [q5, List.drop_drop]
  · rw [htake]; exact q3
  · rw [htake]; exact hreclen
  · simp only
    rw [slice_take _ _ _ _ (by omega), q6, e3]
  · rw [htake, hreclen]
    intro h3 hflag
    rw [slice_take _ _ _ _ (by omega)] at hflag
    rw [slice_take _ _ _ _ (by omega)]
    obtain ⟨_, hg⟩ := q13 h3 hflag
    rw [show 4 + 4 * beVal (file0.take 4) - 4 = 4 * beVal (file0.take 4) by omega, ← hg]
    have hmod : u32 (s.m_metaData.getStopGCP + 1) ≤ s.m_metaData.getStopGCP + 1 :=
      Nat.mod_le _ _
    omega

/-- C18 on a log whose record carries the gcp 5, with `stopGCP = 100`. -/
theorem C18_gcp_bound_witness :
    (exLogIter exKeyTable true 100 exLogGcp5).getNextLogEntry exEnv exLogEnv =
      .ret ((0, some exLogGcp5Entry), exLogGcp5After) ∧
    ∃ pre rec rest : List Byte,
      (exLogIter exKeyTable true 100 exLogGcp5).m_file = some (pre ++ (rec ++ rest)) ∧
      exLogGcp5After.m_file = some rest ∧
      beVal (rec.take 4) ≠ 0 ∧ rec.length = 4 + 4 * beVal (rec.take 4) ∧
      exLogGcp5Entry.m_table =
        (exLogIter exKeyTable true 100 exLogGcp5).m_metaData.getTable (beVal (slice rec 4 4)) ∧
      (3 ≤ beVal (rec.take 4) → beVal (slice rec 8 4) &&& 0x10000 ≠ 0 →
        beVal (slice rec (rec.length - 4) 4) ≤
          (exLogIter exKeyTable true 100 exLogGcp5).m_metaData.getStopGCP + 1) :=
  ⟨by decide,
    C18_gcp_bound exEnv exLogEnv (exLogIter exKeyTable true 100 exLogGcp5) exLogGcp5After 0
      exLogGcp5Entry (by decide)⟩

/-! ## A complete record is read -/

/-- With a `malloc` that succeeds `createBuffer` returns a block that holds the
requested bytes, and keeps the scratch buffer consistent. -/
theorem logCreateBuffer_ok (env : Env) (t : RestoreLogIterator) (b : Nat)
    (hm : ∀ n, env.malloc n = true) (hb : BufOK t.toBackupFile) (h0 : 0 < b)
    (hle : b ≤ 2 ^ 29) :
    ∃ buf, (t.createBuffer env b).m_buffer = some buf ∧ b ≤ buf.length ∧
      BufOK (t.createBuffer env b).toBackupFile := by
  obtain ⟨hs, hbuf⟩ := hb
  unfold RestoreLogIterator.createBuffer BackupFile.createBuffer
  by_cases hgt : b > t.m_bufferSize
  · have e : u32 (t.m_bufferSize + 2 * b) = t.m_bufferSize + 2 * b := by
      apply u32_of_lt
      have : (2 : Nat) ^ 29 = 536870912 := by norm_num
      have : (2 : Nat) ^ 32 = 4294967296 := by norm_num
      omega
    simp only [hgt, if_true, e, hm]
    refine ⟨List.replicate (t.m_bufferSize + 2 * b) 0, rfl, by simp; omega, ?_, ?_⟩
    · show t.m_bufferSize + 2 * b < 2 ^ 31
      have : (2 : Nat) ^ 29 = 536870912 := by norm_num
      have : (2 : Nat) ^ 31 = 2147483648 := by norm_num
      omega
    · simp
  · simp only [hgt, if_false]
    cases hbb : t.m_buffer with
    | none =>
      rw [hbb] at hbuf
      simp only at hbuf
      omega
    | some buf =>
      rw [hbb] at hbuf
      simp only at hbuf
      exact ⟨buf, rfl, by omega, hs, by rw [hbb]; exact hbuf⟩

/-- A pass through the body of the loop of `getNextLogEntry` on a stream that
starts with a complete record: the pass reaches the loop condition with the
current gcp behind the record, the stream is behind the record, and the words of
the record are in the buffer behind word 0, `TableId` and the event code in host
order. -/
theorem readRecord_wf (env : Env) (gcp : Nat) (s : RestoreLogIterator) (rec rest : List Byte)
    (hm : ∀ n, env.malloc n = true) (hb : BufOK s.toBackupFile)
    (hf : s.m_file = some (rec ++ rest)) (hwf : LogRec.WF rec) :
    ∃ (s1 : RestoreLogIterator) (buf : Mem),
      s.readRecord env gcp =
        .ret (.record (if LogRec.hasGcp rec then LogRec.len rec - 1 else LogRec.len rec)
          (currentGcp gcp rec), s1) ∧
      s1.m_file = some rest ∧ BufOK s1.toBackupFile ∧
      s1.m_metaData = s.m_metaData ∧ s1.m_hostByteOrder = s.m_hostByteOrder ∧
      s1.m_count = s.m_count ∧ s1.m_logEntry = s.m_logEntry ∧
      s1.m_buffer = some buf ∧ 4 + 4 * LogRec.len rec ≤ buf.length ∧
      rdHost env.le 4 buf 4 = some (beVal (slice rec 4 4)) ∧
      rdHost env.le 4 buf 8 = some (beVal (slice rec 8 4) &&& 0xFFFF) ∧
      ∀ j, 3 ≤ j → j ≤ LogRec.len rec → slice buf (4 * j) 4 = slice rec (4 * j) 4 := by
  obtain ⟨hlen, h2, hsmall, hgl⟩ := hwf
  generalize hn : LogRec.len rec = n at hlen h2 hsmall hgl ⊢
  have p27 : (2 : Nat) ^ 27 = 134217728 := by norm_num
  have p29 : (2 : Nat) ^ 29 = 536870912 := by norm_num
  have p32 : (2 : Nat) ^ 32 = 4294967296 := by norm_num
  -- the stream
  set file := rec ++ rest with hfile
  have hfl : 4 + 4 * n ≤ file.length := by simp [hfile, hlen]
  have htk : file.take 4 = rec.take 4 := by
    rw [hfile, List.take_append_of_le_length (by omega)]
  have htkl : (file.take 4).length = 4 := by simp; omega
  have hsl : ∀ o k, o + k ≤ 4 + 4 * n → slice file o k = slice rec o k := by
    intro o k hok
    rw [← slice_take file (4 + 4 * n) o k hok, hfile,
      List.take_left' (by omega)]
  have hrest : (file.drop 4).drop (4 * n) = rest := by
    rw [List.drop_drop, hfile, List.drop_left' (by omega)]
  -- the first `createBuffer`
  obtain ⟨buf0, hb0, hl0, hok0⟩ := logCreateBuffer_ok env s 4 hm hb (by omega) (by omega)
  obtain ⟨k1, k2, k3, k4, k5⟩ := logCreateBuffer_fields env s 4
  unfold RestoreLogIterator.readRecord
  generalize s.createBuffer env 4 = s0 at hb0 hok0 k1 k2 k3 k4 k5 ⊢
  have hf0 : s0.m_file = some file := by rw [k1, hf]
  have hst : storeAt buf0 (freadData 4 1 file) = some (file.take 4 ++ buf0.drop 4) := by
    simp only [storeAt, freadData, Nat.mul_one, htkl]
    rw [if_pos hl0]
  have c1 : freadCount 4 1 file = 1 := (fread_one_count 4 (by omega) file).mpr (by omega)
  have hl1 : (file.take 4 ++ buf0.drop 4).length = buf0.length := by
    simp only [List.length_append, htkl, List.length_drop]
    omega
  have hw : rdHost env.le 4 (file.take 4 ++ buf0.drop 4) 0 =
      some (hostVal env.le (file.take 4)) := by
    simp only [rdHost, hl1]
    rw [if_pos (by omega)]
    congr 2
    simp [slice, htkl]
  have hwv : ntohl env.le (hostVal env.le (file.take 4)) = n := by
    rw [ntohl_hostVal _ _ htkl, htk]
    exact hn
  have r1 : freadRest 4 1 file = file.drop 4 := by simp [freadRest]
  simp only [hb0, hf0, hst, c1, ne_eq, not_true_eq_false, if_false, hw, hwv, r1]
  rw [if_neg (by omega)]
  -- the second `createBuffer`
  have e4 : u32 (4 * u32 (n + 1)) = 4 * (n + 1) := by
    rw [u32_of_lt (n + 1) (by omega), u32_of_lt _ (by omega)]
  rw [e4]
  have hokT : BufOK
      ({ s0 with m_file := some (file.drop 4),
                 m_buffer := some (wrHost env.le 4 (file.take 4 ++ buf0.drop 4) 0 n) } :
        RestoreLogIterator).toBackupFile := by
    obtain ⟨a1, a2⟩ := hok0
    rw [hb0] at a2
    refine ⟨a1, ?_⟩
    show (wrHost env.le 4 (file.take 4 ++ buf0.drop 4) 0 n).length = s0.m_bufferSize
    rw [wrHost_length _ _ _ _ _ (by omega), hl1]
    exact a2
  obtain ⟨buf2, hb2, hl2, hok2⟩ := logCreateBuffer_ok env _ (4 * (n + 1)) hm hokT (by omega)
    (by omega)
  obtain ⟨j1, j2, j3, j4, j5⟩ := logCreateBuffer_fields env
    ({ s0 with m_file := some (file.drop 4),
               m_buffer := some (wrHost env.le 4 (file.take 4 ++ buf0.drop 4) 0 n) } :
      RestoreLogIterator) (4 * (n + 1))
  generalize RestoreLogIterator.createBuffer env _ _ = s2 at hb2 hok2 j1 j2 j3 j4 j5 ⊢
  -- the record is stored behind word 0
  have hdl : (freadData 4 n (file.drop 4)).length = 4 * n := by
    simp only [freadData, List.length_take, List.length_drop]
    omega
  obtain ⟨buf3, hst3⟩ : ∃ buf3, storeAtOff buf2 4 (freadData 4 n (file.drop 4)) = some buf3 := by
    simp only [storeAtOff, hdl]
    rw [if_pos (by omega)]
    exact ⟨_, rfl⟩
  obtain ⟨hlen3, _, hstore⟩ := storeAtOff_some buf2 4 _ buf3 hst3
  have c2 : freadCount 4 n (file.drop 4) = n := by
    simp only [freadCount, List.length_take, List.length_drop]
    omega
  have hword : ∀ j, 1 ≤ j → j ≤ n → slice buf3 (4 * j) 4 = slice rec (4 * j) 4 := by
    intro j hj1 hjn
    have e1 : slice buf3 (4 * j) 4 = slice (freadData 4 n (file.drop 4)) (4 * j - 4) 4 := by
      have := hstore (4 * j - 4) 4 (by rw [hdl]; omega)
      rwa [show 4 + (4 * j - 4) = 4 * j by omega] at this
    have e2 : slice (freadData 4 n (file.drop 4)) (4 * j - 4) 4 = slice file (4 * j) 4 := by
      simp only [freadData]
      rw [slice_take _ _ _ _ (by omega)]
      simp only [slice, List.drop_drop]
      congr 2
      omega
    rw [e1, e2, hsl _ _ (by omega)]
  have hrd : ∀ j, 1 ≤ j → j ≤ n →
      rdHost env.le 4 buf3 (4 * j) = some (hostVal env.le (slice rec (4 * j) 4)) := by
    intro j hj1 hjn
    simp only [rdHost]
    rw [if_pos (by omega), hword j hj1 hjn]
  have hrl : ∀ j, 1 ≤ j → j ≤ n → (slice rec (4 * j) 4).length = 4 := by
    intro j hj1 hjn
    apply slice_length
    omega
  have ht := hrd 1 (by omega) (by omega)
  have he := hrd 2 (by omega) (by omega)
  simp only [Nat.mul_one, show 4 * 2 = 8 by rfl] at ht he
  have htv : ntohl env.le (hostVal env.le (slice rec 4 4)) = beVal (slice rec 4 4) :=
    ntohl_hostVal _ _ (by simpa using hrl 1 (by omega) (by omega))
  have hev : ntohl env.le (hostVal env.le (slice rec 8 4)) = beVal (slice rec 8 4) :=
    ntohl_hostVal _ _ (by simpa using hrl 2 (by omega) (by omega))
  simp only [hb2, hst3, c2, not_true_eq_false, if_false, LogE.TableId, LogE.TriggerEvent,
    LogE.Data, Nat.mul_one, ht, he, htv, hev]
  -- the two words written back
  have hT4 : beVal (slice rec 4 4) < 256 ^ 4 := by
    have := beVal_lt (slice rec 4 4)
    rwa [show (slice rec 4 4).length = 4 by simpa using hrl 1 (by omega) (by omega)] at this
  have hE4 : beVal (slice rec 8 4) &&& 0xFFFF < 256 ^ 4 := by
    have : beVal (slice rec 8 4) &&& 0xFFFF ≤ 0xFFFF := Nat.and_le_right
    norm_num at this ⊢
    omega
  generalize hbA : wrHost env.le 4 buf3 4 (beVal (slice rec 4 4)) = bufA
  have hlenA : bufA.length = buf3.length := by
    rw [← hbA]; exact wrHost_length _ _ _ _ _ (by omega)
  generalize hbB : wrHost env.le 4 bufA 8 (beVal (slice rec 8 4) &&& 0xFFFF) = bufB
  have hlenB : bufB.length = bufA.length := by
    rw [← hbB]; exact wrHost_length _ _ _ _ _ (by omega)
  have hrdT : rdHost env.le 4 bufB 4 = some (beVal (slice rec 4 4)) := by
    rw [← hbB, rdHost_wrHost_other _ _ _ _ _ _ _ (by omega) (Or.inl (by omega)), ← hbA,
      rdHost_wrHost_same _ _ _ _ _ (by omega) hT4]
  have hrdE : rdHost env.le 4 bufB 8 = some (beVal (slice rec 8 4) &&& 0xFFFF) := by
    rw [← hbB, rdHost_wrHost_same _ _ _ _ _ (by omega) hE4]
  have hhigh : ∀ j, 3 ≤ j → j ≤ n → slice bufB (4 * j) 4 = slice rec (4 * j) 4 := by
    intro j hj3 hjn
    rw [← hword j (by omega) hjn, ← hbB, ← hbA]
    have a1 : Agree (wrHost env.le 4 (wrHost env.le 4 buf3 4 (beVal (slice rec 4 4))) 8
        (beVal (slice rec 8 4) &&& 0xFFFF)) (wrHost env.le 4 buf3 4 (beVal (slice rec 4 4)))
        (8 + 4) buf3.length :=
      wrHost_agree_high _ _ _ _ _ (by rw [hbA]; omega) _
    have a2 : Agree (wrHost env.le 4 buf3 4 (beVal (slice rec 4 4))) buf3 (4 + 4) buf3.length :=
      wrHost_agree_high _ _ _ _ _ (by omega) _
    rw [agree_slice a1 (4 * j) 4 (by omega) (by omega),
      agree_slice a2 (4 * j) 4 (by omega) (by omega)]
  have hokB : BufOK
      ({ s2 with m_file := some (freadRest 4 n (file.drop 4)),
                 m_buffer := some bufB } : RestoreLogIterator).toBackupFile := by
    obtain ⟨a1, a2⟩ := hok2
    rw [hb2] at a2
    refine ⟨a1, ?_⟩
    show bufB.length = s2.m_bufferSize
    rw [hlenB, hlenA, hlen3]
    exact a2
  have hfr : freadRest 4 n (file.drop 4) = rest := by
    simp only [freadRest]
    exact hrest
  have hflag : LogRec.hasGcp rec = decide (beVal (slice rec 8 4) &&& 0x10000 ≠ 0) := rfl
  by_cases hg : beVal (slice rec 8 4) &&& 0x10000 = 0
  · have hh : LogRec.hasGcp rec = false := by rw [hflag]; simp [hg]
    simp only [hg, ne_eq, not_true_eq_false, if_false, hh, Bool.false_eq_true, currentGcp]
    exact ⟨_, bufB, rfl, by simp [hfr], hokB, by simp [j2, k2], by simp [j3, k3],
      by simp [j4, k4], by simp [j5, k5], rfl, by omega, hrdT, hrdE, hhigh⟩
  · have hh : LogRec.hasGcp rec = true := by rw [hflag]; simp [hg]
    have h3 := hgl hh
    have e1 : sub32 n 1 = n - 1 := sub32_of_le n 1 (by omega)
    have e2 : sub32 (n - 1) 2 = n - 3 := by
      rw [sub32_of_le (n - 1) 2 (by omega)]; omega
    have hgr : rdHost env.le 4 bufB (4 * (3 + (n - 3))) =
        some (hostVal env.le (slice rec (4 * n) 4)) := by
      rw [show 4 * (3 + (n - 3)) = 4 * n by omega]
      simp only [rdHost]
      rw [if_pos (by omega), hhigh n h3 (le_refl n)]
    have hgv : ntohl env.le (hostVal env.le (slice rec (4 * n) 4)) = LogRec.gcp rec := by
      rw [ntohl_hostVal _ _ (hrl n (by omega) (le_refl n))]
      simp only [LogRec.gcp, hlen]
      congr 2
      omega
    simp only [hg, ne_eq, not_false_eq_true, if_true, hh, currentGcp, e1, e2, hgr, hgv]
    exact ⟨_, bufB, rfl, by simp [hfr], hokB, by simp [j2, k2], by simp [j3, k3],
      by simp [j4, k4], by simp [j5, k5], rfl, by omega, hrdT, hrdE, hhigh⟩

/-! ## The gcp filter on a stream of complete records -/

theorem logRec_length (rec : List Byte) (h : LogRec.WF rec) : 12 ≤ rec.length := by
  obtain ⟨h1, h2, _, _⟩ := h
  omega

/-- The loop of `getNextLogEntry` on a stream of complete records: it passes
over the records that the filter drops and is left behind the first record that
the filter keeps. -/
theorem readLoop_skips (env : Env) (stop : Nat) (hm : ∀ n, env.malloc n = true)
    (hstop : stop + 1 < 2 ^ 32) (rec rest : List Byte) (hwf : LogRec.WF rec) :
    ∀ (recs : List (List Byte)) (gcp : Nat) (s : RestoreLogIterator) (fuel : Nat),
      BufOK s.toBackupFile → s.m_file = some (logStream recs (rec ++ rest)) →
      allSkipped stop gcp recs → currentGcp (gcpAfter gcp recs) rec ≤ stop + 1 →
      (logStream recs (rec ++ rest)).length < fuel →
      ∃ (s1 : RestoreLogIterator) (buf : Mem),
        RestoreLogIterator.readLoop env stop fuel gcp s =
          .ret (.record (if LogRec.hasGcp rec then LogRec.len rec - 1 else LogRec.len rec)
            (currentGcp (gcpAfter gcp recs) rec), s1) ∧
        s1.m_file = some rest ∧ BufOK s1.toBackupFile ∧
        s1.m_metaData = s.m_metaData ∧ s1.m_hostByteOrder = s.m_hostByteOrder ∧
        s1.m_count = s.m_count ∧ s1.m_logEntry = s.m_logEntry ∧
        s1.m_buffer = some buf ∧ 4 + 4 * LogRec.len rec ≤ buf.length ∧
        rdHost env.le 4 buf 4 = some (beVal (slice rec 4 4)) ∧
        rdHost env.le 4 buf 8 = some (beVal (slice rec 8 4) &&& 0xFFFF) ∧
        ∀ j, 3 ≤ j → j ≤ LogRec.len rec → slice buf (4 * j) 4 = slice rec (4 * j) 4 := by
  have hu : u32 (stop + 1) = stop + 1 := u32_of_lt _ hstop
  intro recs
  induction recs with
  | nil =>
    intro gcp s fuel hb hf _ hkeep hfuel
    simp only [logStream, List.foldr_nil] at hf hfuel
    simp only [gcpAfter] at hkeep ⊢
    obtain ⟨f, rfl⟩ : ∃ f, fuel = f + 1 := ⟨fuel - 1, by omega⟩
    obtain ⟨s1, buf, hr, rest'⟩ := readRecord_wf env gcp s rec rest hm hb hf hwf
    refine ⟨s1, buf, ?_, rest'⟩
    unfold RestoreLogIterator.readLoop
    simp only [hr, hu]
    rw [if_neg (by omega)]
  | cons r rs ih =>
    intro gcp s fuel hb hf hskip hkeep hfuel
    obtain ⟨hwr, hgt, hrest⟩ := hskip
    simp only [logStream, List.foldr_cons] at hf hfuel
    simp only [gcpAfter] at hkeep ⊢
    have h12 := logRec_length r hwr
    obtain ⟨f, rfl⟩ : ∃ f, fuel = f + 1 := ⟨fuel - 1, by omega⟩
    obtain ⟨s1, buf1, hr, hf1, hb1, m1, m2, m3, m4, _⟩ :=
      readRecord_wf env gcp s r _ hm hb hf hwr
    have hfuel' : (logStream rs (rec ++ rest)).length < f := by
      simp only [List.length_append] at hfuel
      simp only [logStream]
      omega
    obtain ⟨s2, buf2, hl, q1, q2, q3, q4, q5, q6, q7⟩ :=
      ih (currentGcp gcp r) s1 f hb1 hf1 hrest hkeep hfuel'
    refine ⟨s2, buf2, ?_, q1, q2, q3.trans m1, q4.trans m2, q5.trans m3, q6.trans m4, q7⟩
    unfold RestoreLogIterator.readLoop
    simp only [hr, hu]
    rw [if_pos hgt]
    exact hl

/-! ## Records the gcp filter drops -/

/-- C19 as stated fails.  With `stopGCP = 100`, `exLogStale` holds an insert
with gcp 150 and then an update without a gcp: one call of `getNextLogEntry`
skips both and returns the end of the log, with the stream read to its end,
because the current gcp is still 150 when the loop condition is tested behind
the second record; the same update at the start of a call is returned.  (With
`stopGCP = 0xFFFFFFFF` the insert of `exLogGcp5`, whose gcp 5 is below
`stopGCP + 1`, is skipped as well, `stopGCP + 1` being 0 as a `Uint32`.) -/
theorem C19_record_without_gcp_counterexample :
    ((exLogIter exKeyTable true 100 exLogStale).getNextLogEntry exEnv exLogEnv).value =
      some (0, none) ∧
    (((exLogIter exKeyTable true 100 exLogStale).getNextLogEntry exEnv exLogEnv).state.map
      (fun s => s.m_file)) = some (some []) ∧
    ((exLogIter exKeyTable true 100 (exLogStale.drop 16)).getNextLogEntry exEnv exLogEnv).value =
      some (0, some { m_table := some ((TableS.new exKeyTable).setBackupVersion 1)
                      m_type := some .LE_UPDATE
                      m_values := [] }) ∧
    ((exLogIter exKeyTable true 0xFFFFFFFF exLogGcp5).getNextLogEntry exEnv exLogEnv).value =
      some (0, none) ∧
    (((exLogIter exKeyTable true 0xFFFFFFFF exLogGcp5).getNextLogEntry exEnv exLogEnv).state.map
      (fun s => s.m_file)) = some (some []) ∧
    5 ≤ 0xFFFFFFFF + 1 := by
  decide

/-- C19 (amended): `getNextLogEntry` keeps a current gcp while it reads the
records of one call, 0 at the start and, behind a record that carries the flag
`0x10000`, the gcp of that record; it drops a record exactly when the current
gcp behind it is above `stopGCP + 1` (here `stopGCP < 0xFFFFFFFF`).  On a stream
of complete records `recs` that are all dropped, followed by a complete record
`rec` behind which the current gcp is at most `stopGCP + 1`, the call passes
over `recs`, stops reading behind `rec` and decodes its entry from `rec`, which
is in the buffer; when `rec` has attribute words none and a known event code,
the entry is returned.  (`malloc` succeeds and the scratch buffer is
consistent.) -/
theorem C19_gcp_filter (env : Env) (lenv : LogEnv) (s : RestoreLogIterator)
    (recs : List (List Byte)) (rec rest : List Byte)
    (hm : ∀ n, env.malloc n = true) (hb : BufOK s.toBackupFile)
    (hstop : s.m_metaData.getStopGCP + 1 < 2 ^ 32)
    (hf : s.m_file = some (logStream recs (rec ++ rest)))
    (hskip : allSkipped s.m_metaData.getStopGCP 0 recs) (hwf : LogRec.WF rec)
    (hkeep : currentGcp (gcpAfter 0 recs) rec ≤ s.m_metaData.getStopGCP + 1) :
    ∃ (s1 : RestoreLogIterator) (buf : Mem),
      s.getNextLogEntry env lenv =
        s1.decodeEntry env lenv
          (if LogRec.hasGcp rec then LogRec.len rec - 1 else LogRec.len rec) ∧
      s1.m_file = some rest ∧ s1.m_metaData = s.m_metaData ∧
      s1.m_hostByteOrder = s.m_hostByteOrder ∧ s1.m_count = s.m_count ∧
      s1.m_logEntry = s.m_logEntry ∧
      s1.m_buffer = some buf ∧ 4 + 4 * LogRec.len rec ≤ buf.length ∧
      rdHost env.le 4 buf 4 = some (beVal (slice rec 4 4)) ∧
      rdHost env.le 4 buf 8 = some (beVal (slice rec 8 4) &&& 0xFFFF) ∧
      (∀ j, 3 ≤ j → j ≤ LogRec.len rec → slice buf (4 * j) 4 = slice rec (4 * j) 4) ∧
      (∀ ty, logType lenv (beVal (slice rec 8 4) &&& 0xFFFF) = some ty →
        (if LogRec.hasGcp rec then LogRec.len rec - 1 else LogRec.len rec) = 2 →
        ∃ s', s.getNextLogEntry env lenv =
            .ret ((0, some { m_table := s.m_metaData.getTable (beVal (slice rec 4 4))
                             m_type := some ty
                             m_values := [] }), s') ∧
          s'.m_file = some rest ∧ s'.m_count = u32 (s.m_count + 1)) := by
  obtain ⟨s1, buf, hl, q1, _, q3, q4, q5, q6, q7, q8, q9, q10, q11⟩ :=
    readLoop_skips env s.m_metaData.getStopGCP hm hstop rec rest hwf recs 0 s
      ((logStream recs (rec ++ rest)).length + 1) hb hf hskip hkeep (Nat.lt_succ_self _)
  have hcall : s.getNextLogEntry env lenv =
      s1.decodeEntry env lenv
        (if LogRec.hasGcp rec then LogRec.len rec - 1 else LogRec.len rec) := by
    unfold RestoreLogIterator.getNextLogEntry
    simp only [hf, hl]
  refine ⟨s1, buf, hcall, q1, q3, q4, q5, q6, q7, q8, q9, q10, q11, ?_⟩
  intro ty hty h2
  rw [hcall, h2]
  unfold RestoreLogIterator.decodeEntry
  have e0 : sub32 2 2 = 0 := by decide
  have ha : ∀ tab, logAttrs env.le s1.m_hostByteOrder lenv tab (LogE.Data + 0) 0 LogE.Data
      buf [] = .ret (buf, []) := by
    intro tab
    unfold logAttrs
    simp [LogE.Data]
  simp only [q7, LogE.TableId, LogE.TriggerEvent, Nat.mul_one, show 4 * 2 = 8 by rfl, q9, q10,
    hty, e0, ha]
  rw [← q3, ← q5]
  exact ⟨_, rfl, q1, rfl⟩

/-- C19 (amended) on a stream with an insert of gcp 150, an update without a
gcp and a delete of gcp 101, with `stopGCP = 100`: the first two records are
dropped and the delete is returned. -/
theorem C19_gcp_filter_witness :
    allSkipped 100 0 [exRecGcp150, exRecNoGcp] ∧
    currentGcp (gcpAfter 0 [exRecGcp150, exRecNoGcp]) exRecGcp101 ≤ 100 + 1 ∧
    ∃ s', (exLogIter exKeyTable true 100
          (logStream [exRecGcp150, exRecNoGcp] (exRecGcp101 ++ [0, 0, 0, 0]))).getNextLogEntry
          exEnv exLogEnv =
        .ret ((0, some { m_table := some ((TableS.new exKeyTable).setBackupVersion 1)
                         m_type := some .LE_DELETE
                         m_values := [] }), s') ∧
      s'.m_file = some [0, 0, 0, 0] ∧ s'.m_count = 1 := by
  have hskip : allSkipped 100 0 [exRecGcp150, exRecNoGcp] := by
    simp only [allSkipped, LogRec.WF]
    decide
  have hwf : LogRec.WF exRecGcp101 := by
    simp only [LogRec.WF]
    decide
  have hkeep : currentGcp (gcpAfter 0 [exRecGcp150, exRecNoGcp]) exRecGcp101 ≤ 100 + 1 := by
    decide
  obtain ⟨s1, buf, _, _, _, _, _, _, _, _, _, _, _, hemit⟩ :=
    C19_gcp_filter exEnv exLogEnv
      (exLogIter exKeyTable true 100
        (logStream [exRecGcp150, exRecNoGcp] (exRecGcp101 ++ [0, 0, 0, 0])))
      [exRecGcp150, exRecNoGcp] exRecGcp101 [0, 0, 0, 0] (fun _ => rfl) ⟨by decide, rfl⟩
      (by decide) rfl hskip hwf hkeep
  obtain ⟨s', h1, h2, h3⟩ := hemit .LE_DELETE (by decide) (by decide)
  exact ⟨hskip, hkeep, s', h1, h2, h3⟩

/-! ## Attributes of log records -/

/-- C20 fails on the code.  The record of `exLogNull` has one attribute header
with data size 0 for a 32-bit column: with `hostByteOrder = true` the entry is
returned with a null attribute, and with `hostByteOrder = false` `Twiddle` is
called on the null attribute and accesses memory through its null data
reference.  The record of `exLogWide` has one attribute header with data size 1
for a 64-bit column: with `hostByteOrder = false` `Twiddle` reverses the eight
bytes 16 .. 23 of the buffer, the data word `01 02 03 04` and the word behind
it, which is not part of the record (the record ends at byte 20). -/
theorem C20_twiddle_outside_data :
    ((exLogIter exKeyTable true 100 exLogNull).getNextLogEntry exEnv exLogEnv).value =
      some (0, some { m_table := some ((TableS.new exKeyTable).setBackupVersion 1)
                      m_type := some .LE_INSERT
                      m_values := [⟨⟨32, 1, ⟨4, 1, true, false⟩, 0, none⟩,
                                    some ⟨true, none⟩⟩] }) ∧
    (exLogIter exKeyTable false 100 exLogNull).getNextLogEntry exEnv exLogEnv = .fault ∧
    (((exLogIter exWideKeyTable true 100 exLogWide).getNextLogEntry exEnv exLogEnv).state.map
      (fun s => s.m_buffer)) =
      some (some ([0, 0, 0, 0,  5, 0, 0, 0,  0, 0, 0, 0,  1, 0, 0, 0,  1, 2, 3, 4,  0, 0, 0, 0] ++
        List.replicate 24 0)) ∧
    (((exLogIter exWideKeyTable false 100 exLogWide).getNextLogEntry exEnv exLogEnv).state.map
      (fun s => s.m_buffer)) =
      some (some ([0, 0, 0, 0,  5, 0, 0, 0,  0, 0, 0, 0,  1, 0, 0, 0,  0, 0, 0, 0,  4, 3, 2, 1] ++
        List.replicate 24 0)) ∧
    ((exLogIter exWideKeyTable false 100 exLogWide).getNextLogEntry exEnv exLogEnv).value =
      some (0, some { m_table := some ((TableS.new exWideKeyTable).setBackupVersion 1)
                      m_type := some .LE_INSERT
                      m_values := [⟨⟨64, 1, ⟨8, 1, true, false⟩, 0, none⟩,
                                    some ⟨false, some 16⟩⟩] }) := by
  decide

/-! ## The capacity of the scratch buffer -/

/-- Without a wrap of the `Uint32` sum `m_bufferSize + 2 * bytes`, and with a
`malloc` that succeeds, `createBuffer` keeps a capacity that holds the request
and grows it to `m_bufferSize + 2 * bytes` otherwise; the capacity then holds
the request, does not shrink, and is the length of the block. -/
theorem createBuffer_capacity (env : Env) (s : BackupFile) (bytes : Nat)
    (hm : ∀ n, env.malloc n = true) (hw : s.m_bufferSize + 2 * bytes < 2 ^ 32) :
    (s.createBuffer env bytes).m_bufferSize =
      (if bytes ≤ s.m_bufferSize then s.m_bufferSize else s.m_bufferSize + 2 * bytes) ∧
    bytes ≤ (s.createBuffer env bytes).m_bufferSize ∧
    s.m_bufferSize ≤ (s.createBuffer env bytes).m_bufferSize ∧
    (s.m_bufferSize < bytes →
      (s.createBuffer env bytes).m_buffer =
        some (List.replicate (s.m_bufferSize + 2 * bytes) 0)) := by
  unfold BackupFile.createBuffer
  have e : u32 (s.m_bufferSize + 2 * bytes) = s.m_bufferSize + 2 * bytes := u32_of_lt _ hw
  by_cases h : bytes > s.m_bufferSize
  · have h' : ¬ bytes ≤ s.m_bufferSize := by omega
    simp only [h, if_true, e, hm, h', if_false]
    exact ⟨trivial, by omega, by omega, fun _ => trivial⟩
  · have h' : bytes ≤ s.m_bufferSize := by omega
    rw [if_neg h, if_pos h']
    exact ⟨rfl, h', le_refl _, fun hc => absurd hc (by omega)⟩

/-- C21 fails on the code: the new capacity is `m_bufferSize + 2 * bytes` as a
`Uint32`.  With the capacity 8 and the request `0xC0000000` the capacity becomes
`0x80000008`, below the request, and the block that is returned has that many
bytes; the claim gives `max(b, c + 2 * b) = 0x180000008`.  This is the call
`createBuffer(4 * (len + 1))` of `getNextLogEntry` for the length word
`0x2FFFFFFF`, the capacity 8 being what `createBuffer(4)` leaves on a new
reader.  With the capacity `0xFFFFFFF0` and the request `0xFFFFFFF8` the
capacity becomes `0xFFFFFFE0`: it shrinks. -/
theorem C21_capacity_wraps :
    (BackupFile.createBuffer exEnv (exBuf 8) 0xC0000000).m_bufferSize = 0x80000008 ∧
    (BackupFile.createBuffer exEnv (exBuf 8) 0xC0000000).m_buffer =
      some (List.replicate 0x80000008 0) ∧
    (List.replicate 0x80000008 (0 : Byte)).length < 0xC0000000 ∧
    max 0xC0000000 (8 + 2 * 0xC0000000) = 0x180000008 ∧
    BackupFile.createBuffer exEnv (BackupFile.fresh 2) 4 = exBuf 8 ∧
    u32 (4 * u32 (0x2FFFFFFF + 1)) = 0xC0000000 ∧
    (BackupFile.createBuffer exEnv (exBuf 0xFFFFFFF0) 0xFFFFFFF8).m_bufferSize = 0xFFFFFFE0 ∧
    0xFFFFFFE0 < 0xFFFFFFF0 := by
  refine ⟨by decide, ?_, ?_, by decide, by decide, by decide, by decide, by decide⟩
  · simp only [BackupFile.createBuffer, exBuf, exEnv, u32]
    norm_num
  · rw [List.length_replicate]
    decide

end Restore
